import Mathlib

/-!
# gzlines: line streaming from gzip files

A shallow embedding of `gzlines.go` (package `gzlines`): the directory scanner
`AllGZInDir`, the single-file line streamer `LinesOfGZ`, the per-file forwarder
`sendFromFile` and the multiplexer `MultiplexGZLines`.

The Go standard library pieces the package calls (`bufio.Scanner` with its default
split function `ScanLines`, `compress/gzip`, `path/filepath`) are modelled next to the
code that uses them.  Goroutines and unbuffered channels are modelled by an
interleaving step function on an explicit state.
-/

namespace Gzlines

/-! ## Go values -/

/-- One byte of file content. Only equality with the newline and carriage-return
bytes is ever inspected. -/
abbrev Byte := Nat

/-- A Go `[]byte`: `none` is the nil slice, `some []` an empty non-nil slice. -/
abbrev Slice := Option (List Byte)

/-- The non-nil error values that occur. -/
inductive GoError where
  | EOF
  | ErrTooLong
  | ErrAdvanceTooFar
  | ErrNoProgress
  | ErrHeader
  | ErrChecksum
  | ErrBadPattern
  | PathError (path : String)
  | other (code : Nat)
  deriving DecidableEq, Repr

/-- A Go `error` interface value: `none` is nil. -/
abbrev error := Option GoError

/-- The newline byte. -/
def LF : Byte := 10

/-- The carriage-return byte. -/
def CR : Byte := 13

/-! ## The decompressed stream (`compress/gzip`) -/

/-- What a `*gzip.Reader` does after a successful `gzip.NewReader`: it hands out the
bytes `data` in pieces and then answers `final` (`io.EOF` for a stream that
decompresses without error). `chunks` gives the number of bytes the decompressor
has ready on each successive call; `eager` says whether the final error comes
together with the last bytes or on a call of its own. -/
structure Reader where
  data : List Byte
  final : GoError
  chunks : List Nat
  eager : Bool
  deriving DecidableEq, Repr

/-- The call `r.Read(p)` with `len(p) = cap`: the bytes read, the error, and the reader
afterwards. A read into a non-empty buffer returns at least one byte or an error. -/
def Reader.Read (r : Reader) (cap : Nat) : List Byte × error × Reader :=
  if r.data.isEmpty then ([], some r.final, r)
  else if cap = 0 then ([], none, r)
  else
    let want := match r.chunks with
      | [] => r.data.length
      | c :: _ => max c 1
    let n := min want cap
    let rest := r.data.drop n
    let r1 : Reader := { r with data := rest, chunks := r.chunks.tail }
    if rest.isEmpty && r.eager then (r.data.take n, some r.final, r1)
    else (r.data.take n, none, r1)

/-- What an opened `*os.File` holds, as far as `compress/gzip` can tell: `header` is
the error of `gzip.NewReader` (nil for a valid gzip header), `body` the stream
behind a valid header. -/
structure GzFile where
  header : error
  body : Reader
  deriving DecidableEq, Repr

/-- The call `gzip.NewReader(rawf)`. -/
def gzipNewReader (rawf : GzFile) : Except GoError Reader :=
  match rawf.header with
  | some e => .error e
  | none => .ok rawf.body

/-! ## `bufio.Scanner` with the split function `ScanLines` -/

/-- The constant `bufio.MaxScanTokenSize`. -/
def MaxScanTokenSize : Nat := 64 * 1024

/-- The constant `startBufSize` of package `bufio`. -/
def startBufSize : Nat := 4096

/-- The largest `int` (64 bit). -/
def maxInt : Nat := 2 ^ 63 - 1

/-- The variable `LineBufferLengthFactor` at its initial value. -/
def LineBufferLengthFactor : Nat := 1024

/-- The function `bytes.IndexByte`: `none` stands for -1. -/
def IndexByte : List Byte → Byte → Option Nat
  | [], _ => none
  | b :: bs, c => if b = c then some 0 else (IndexByte bs c).map (· + 1)

/-- The function `dropCR` of package `bufio`. -/
def dropCR (data : List Byte) : List Byte :=
  if data.getLast? = some CR then data.dropLast else data

/-- The split function `bufio.ScanLines`: the advance and the token (its error is
always nil). -/
def ScanLines (data : List Byte) (atEOF : Bool) : Nat × Slice :=
  if atEOF && data.isEmpty then (0, none)
  else
    match IndexByte data LF with
    | some i => (i + 1, some (dropCR (data.take i)))
    | none => if atEOF then (data.length, some (dropCR data)) else (0, none)

/-- A `bufio.Scanner`. The buffer is kept as its length `bufLen`, the offset `start`
and the unread bytes `pending = buf[start:end]`. -/
structure Scanner where
  r : Reader
  bufLen : Nat
  start : Nat
  pending : List Byte
  maxTokenSize : Nat
  tok : Slice
  err : error
  deriving DecidableEq, Repr

/-- The index `s.end`. -/
def Scanner.endIdx (s : Scanner) : Nat := s.start + s.pending.length

/-- The call `bufio.NewScanner(r)`. -/
def NewScanner (r : Reader) : Scanner :=
  { r := r, bufLen := 0, start := 0, pending := [], maxTokenSize := MaxScanTokenSize,
    tok := none, err := none }

/-- The call `s.Buffer(buf, max)` with `cap(buf) = bufCap`. -/
def Scanner.Buffer (s : Scanner) (bufCap max : Nat) : Scanner :=
  { s with bufLen := bufCap, maxTokenSize := max }

/-- The method `setErr`: records the first non-EOF error. -/
def Scanner.setErr (s : Scanner) (e : GoError) : Scanner :=
  if s.err = none ∨ s.err = some GoError.EOF then { s with err := some e } else s

/-- The method `Err`. -/
def Scanner.Err (s : Scanner) : error :=
  if s.err = some GoError.EOF then none else s.err

/-- The method `Bytes`. -/
def Scanner.Bytes (s : Scanner) : Slice := s.tok

/-- Result of one pass through the loop of `Scan`. -/
inductive ScanOutcome where
  | ret (ok : Bool) (s : Scanner)
  | again (s : Scanner)
  deriving DecidableEq, Repr

/-- In `Scan`: "shift data to beginning of buffer if there's lots of empty space or
space is needed". -/
def Scanner.shift (s : Scanner) : Scanner :=
  if 0 < s.start ∧ (s.endIdx = s.bufLen ∨ s.bufLen / 2 < s.start) then
    { s with start := 0 }
  else s

/-- In `Scan`: the resize of a full buffer that is still below the maximum. -/
def Scanner.grow (s : Scanner) : Scanner :=
  if s.endIdx = s.bufLen then
    let newSize := if s.bufLen * 2 = 0 then startBufSize else s.bufLen * 2
    { s with bufLen := min newSize s.maxTokenSize, start := 0 }
  else s

/-- In `Scan`: "finally we can read some input". A read that brings neither a byte nor
an error is repeated by `Scan` until it gives up with `ErrNoProgress`. -/
def Scanner.readMore (s : Scanner) : ScanOutcome :=
  match s.r.Read (s.bufLen - s.endIdx) with
  | (out, e, r1) =>
    let s1 : Scanner := { s with r := r1, pending := s.pending ++ out }
    match e with
    | some e1 => .again (s1.setErr e1)
    | none => if out.isEmpty then .again (s1.setErr GoError.ErrNoProgress) else .again s1

/-- The second half of the loop body of `Scan`: no token could be produced from the
buffered bytes, so finish (an error is recorded) or shift, grow and read. -/
def Scanner.fill (s : Scanner) : ScanOutcome :=
  if s.err.isSome then
    .ret false { s with start := 0, pending := [] }
  else
    let s1 := s.shift
    if s1.endIdx = s1.bufLen ∧ (s1.maxTokenSize ≤ s1.bufLen ∨ maxInt / 2 < s1.bufLen) then
      .ret false (s1.setErr GoError.ErrTooLong)
    else s1.grow.readMore

/-- One pass through the loop of `Scan`. -/
def Scanner.scanIter (s : Scanner) : ScanOutcome :=
  if !s.pending.isEmpty || s.err.isSome then
    match ScanLines s.pending s.err.isSome with
    | (adv, token) =>
      if s.pending.length < adv then
        .ret false (s.setErr GoError.ErrAdvanceTooFar)
      else
        let s1 : Scanner :=
          { s with start := s.start + adv, pending := s.pending.drop adv, tok := token }
        if token.isSome then .ret true s1 else s1.fill
  else s.fill

/-- The loop of `Scan`, at most `fuel` passes. -/
def Scanner.scanLoop : Nat → Scanner → Option (Bool × Scanner)
  | 0, _ => none
  | fuel + 1, s =>
    match s.scanIter with
    | .ret ok s1 => some (ok, s1)
    | .again s1 => Scanner.scanLoop fuel s1

/-- The method `Scan`: every pass but the last reads at least one byte or records an
error, so `len(data) + 2` passes are enough. -/
def Scanner.Scan (s : Scanner) : Bool × Scanner :=
  (s.scanLoop (s.r.data.length + 2)).getD (false, s)

/-! ## `LinesOfGZ` -/

/-- A channel value: `none` is the nil channel. -/
structure Chan where
  id : Nat
  deriving DecidableEq, Repr

/-- A channel operation of the background task of `LinesOfGZ`. -/
inductive ChanOp where
  | sendLine (b : Slice)
  | sendErr (e : error)
  | closeLines
  | closeErrs
  deriving DecidableEq, Repr

/-- The expression `append([]byte{}, b...)`: a fresh, non-nil copy. -/
def appendToEmpty (b : Slice) : Slice := some (b.getD [])

/-- The loop `for contents.Scan() { b = append([]byte{}, contents.Bytes()...); ch <- b }`:
the values sent on `ch`, in order, and the scanner afterwards. -/
def scanAndSend : Nat → Scanner → Option (List Slice × Scanner)
  | 0, _ => none
  | fuel + 1, contents =>
    match contents.Scan with
    | (true, s1) =>
      match scanAndSend fuel s1 with
      | some (bs, s2) => some (appendToEmpty s1.Bytes :: bs, s2)
      | none => none
    | (false, s1) => some ([], s1)

/-- The background task of `LinesOfGZ` as the sequence of its channel operations: one
send per scanned line, one send of the scan error if there is one, then the deferred
closes of `ch` and `errs`. -/
def linesTask (contents : Scanner) : List ChanOp :=
  match scanAndSend (contents.pending.length + contents.r.data.length + 1) contents with
  | none => []
  | some (bs, s1) =>
    bs.map ChanOp.sendLine
      ++ (if s1.Err ≠ none then [ChanOp.sendErr s1.Err] else [])
      ++ [ChanOp.closeLines, ChanOp.closeErrs]

/-- What `LinesOfGZ` hands back: the two channels, the immediate error, and the
background task it started (if any). -/
structure LinesResult where
  ch : Option Chan
  errs : Option Chan
  err : error
  task : Option (List ChanOp)
  deriving DecidableEq, Repr

/-- The function `LinesOfGZ`, for a value `factor` of `LineBufferLengthFactor`. -/
def LinesOfGZ (factor : Nat) (rawf : GzFile) : LinesResult :=
  match gzipNewReader rawf with
  | .error e => { ch := none, errs := none, err := some e, task := none }
  | .ok rawContents =>
    let contents := (NewScanner rawContents).Buffer MaxScanTokenSize (MaxScanTokenSize * factor)
    { ch := some ⟨0⟩, errs := some ⟨1⟩, err := none, task := some (linesTask contents) }

/-! ## `sendFromFile` and `MultiplexGZLines`

Goroutines run interleaved. A step runs one goroutine from one channel or wait-group
operation to the next; a send on an unbuffered channel and the matching receive are
one step. The consumer is the caller of `MultiplexGZLines`: it keeps receiving on both
combined channels from the moment the function has returned them. -/

/-- Where a `sendFromFile` goroutine stands. -/
inductive Pc where
  /-- Started by `go sendFromFile(...)`, `LinesOfGZ` not yet called. -/
  | start
  /-- Blocked in `combinederr <- err` after `LinesOfGZ` failed. -/
  | setupErr (e : GoError)
  /-- Blocked in the `select`. -/
  | selecting
  /-- Blocked in `combinedlc <- l`. -/
  | fwdLine (l : Slice)
  /-- Blocked in `combinederr <- e`. -/
  | fwdErr (e : error)
  /-- Returned; the deferred `wg.Done()` has run. -/
  | done
  deriving DecidableEq, Repr

/-- One `sendFromFile` goroutine together with the background task that its call of
`LinesOfGZ` starts: `prod` holds the channel operations that task has still to do,
`lcClosed` and `ecClosed` say whether the task has closed `lc` and `ec`. -/
structure Worker where
  rawf : GzFile
  pc : Pc
  prod : List ChanOp
  lcClosed : Bool
  ecClosed : Bool
  deriving DecidableEq, Repr

/-- The goroutine `go sendFromFile(wg, rawf, combinedlc, combinederr)` at its start. -/
def Worker.new (rawf : GzFile) : Worker :=
  { rawf := rawf, pc := .start, prod := [], lcClosed := false, ecClosed := false }

/-- The steps of one worker. -/
inductive WAct where
  /-- `sendFromFile` calls `LinesOfGZ`. -/
  | start
  /-- The `select` takes `case l := <-lc`. -/
  | recvLine
  /-- The `select` takes `case e := <-ec`. -/
  | recvErr
  /-- The background task of `LinesOfGZ` runs a deferred `close`. -/
  | producerClose
  /-- The consumer receives what `sendFromFile` sends on `combinedlc`. -/
  | deliverLine
  /-- The consumer receives what `sendFromFile` sends on `combinederr`. -/
  | deliverErr
  deriving DecidableEq, Repr

/-- A value the consumer receives: on the combined line channel or on the combined
error channel. -/
inductive Delivery where
  | line (l : Slice)
  | err (e : error)
  deriving DecidableEq, Repr

/-- Result of a worker step: not enabled, a run-time panic (send on or close of a closed
channel), or the worker afterwards, whether `sendFromFile` returned in this step, and
what the consumer received. -/
inductive WResult where
  | blocked
  | panic
  | next (w : Worker) (finished : Bool) (out : Option Delivery)
  deriving DecidableEq, Repr

/-- The function `sendFromFile`, one step at a time, together with the background task of
its `LinesOfGZ` call: the call of `LinesOfGZ`, a `case` of the `select` (a receive of
`nil` makes the function return), a deferred `close` of the background task, or a send
on a combined channel meeting the consumer's receive. `lcClosedC` and `ecClosedC` say
whether the combined channels are closed, `receiving` whether the consumer holds the
combined channels. -/
def sendFromFile (factor : Nat) (lcClosedC ecClosedC receiving : Bool) (w : Worker) :
    WAct → WResult
  | .start =>
    match w.pc with
    | .start =>
      let res := LinesOfGZ factor w.rawf
      match res.err with
      | some e => .next { w with pc := .setupErr e } false none
      | none => .next { w with pc := .selecting, prod := res.task.getD [] } false none
    | _ => .blocked
  | .recvLine =>
    match w.pc with
    | .selecting =>
      match w.prod with
      | .sendLine l :: rest =>
        if w.lcClosed then .panic
        else if l = none then .next { w with pc := .done, prod := rest } true none
        else .next { w with pc := .fwdLine l, prod := rest } false none
      | _ => if w.lcClosed then .next { w with pc := .done } true none else .blocked
    | _ => .blocked
  | .recvErr =>
    match w.pc with
    | .selecting =>
      match w.prod with
      | .sendErr e :: rest =>
        if w.ecClosed then .panic
        else if e = none then .next { w with pc := .done, prod := rest } true none
        else .next { w with pc := .fwdErr e, prod := rest } false none
      | _ => if w.ecClosed then .next { w with pc := .done } true none else .blocked
    | _ => .blocked
  | .producerClose =>
    match w.prod with
    | .closeLines :: rest =>
      if w.lcClosed then .panic else .next { w with prod := rest, lcClosed := true } false none
    | .closeErrs :: rest =>
      if w.ecClosed then .panic else .next { w with prod := rest, ecClosed := true } false none
    | _ => .blocked
  | .deliverLine =>
    match w.pc with
    | .fwdLine l =>
      if lcClosedC then .panic
      else if receiving then .next { w with pc := .selecting } false (some (.line l))
      else .blocked
    | _ => .blocked
  | .deliverErr =>
    match w.pc with
    | .setupErr e =>
      if ecClosedC then .panic
      else if receiving then .next { w with pc := .done } true (some (.err (some e)))
      else .blocked
    | .fwdErr e =>
      if ecClosedC then .panic
      else if receiving then .next { w with pc := .selecting } false (some (.err e))
      else .blocked
    | _ => .blocked

/-- Where `MultiplexGZLines` itself stands. -/
inductive MainPc where
  /-- In the loop over `filenames`. -/
  | looping
  /-- After the `go` statement of the supervisory task, before `return`. -/
  | supSpawned
  /-- Returned with the given immediate error. -/
  | returned (err : error)
  deriving DecidableEq, Repr

/-- Where the supervisory task stands. -/
inductive SupPc where
  | notStarted
  /-- In `wg.Wait()`. -/
  | waiting
  /-- Before `close(clc)`. -/
  | closeLines
  /-- Before `close(cec)`. -/
  | closeErrs
  | finished
  deriving DecidableEq, Repr

/-- The state of a run of `MultiplexGZLines`. `log` is what the consumer has received so
far, in order, each value with the index of the worker that sent it; `lineCloses` and
`errCloses` count the `close` operations run on the combined channels. -/
structure MState where
  factor : Nat
  todo : List String
  mainPc : MainPc
  workers : List Worker
  wg : Nat
  sup : SupPc
  lcClosed : Bool
  ecClosed : Bool
  lineCloses : Nat
  errCloses : Nat
  log : List (Nat × Delivery)
  panicked : Bool
  deriving DecidableEq, Repr

/-- The steps of a run. -/
inductive Action where
  /-- The next statement of `MultiplexGZLines`. -/
  | main
  /-- A step of the worker with the given index. -/
  | worker (i : Nat) (a : WAct)
  /-- The next statement of the supervisory task. -/
  | supervise
  deriving DecidableEq, Repr

/-- The call `MultiplexGZLines(filenames...)` at its start, for a value `factor` of
`LineBufferLengthFactor`. -/
def MState.init (factor : Nat) (filenames : List String) : MState :=
  { factor := factor, todo := filenames, mainPc := .looping, workers := [], wg := 0,
    sup := .notStarted, lcClosed := false, ecClosed := false, lineCloses := 0,
    errCloses := 0, log := [], panicked := false }

/-- Whether the consumer holds the combined channels. -/
def MState.receiving (s : MState) : Bool :=
  match s.mainPc with
  | .returned _ => true
  | _ => false

/-- The function `MultiplexGZLines`, one step at a time: an iteration of the loop
(`wg.Add(1)`, `os.Open(fn)`, then `return` with the error or `go sendFromFile`), the
`go` statement of the supervisory task, or the final `return`. `fs` is the file system
as `os.Open` sees it. -/
def MultiplexGZLines (fs : String → Except GoError GzFile) (s : MState) : Option MState :=
  match s.mainPc with
  | .looping =>
    match s.todo with
    | [] => some { s with mainPc := .supSpawned, sup := .waiting }
    | fn :: rest =>
      match fs fn with
      | .error e => some { s with wg := s.wg + 1, todo := rest, mainPc := .returned (some e) }
      | .ok rawf =>
        some { s with wg := s.wg + 1, todo := rest, workers := s.workers ++ [Worker.new rawf] }
  | .supSpawned => some { s with mainPc := .returned none }
  | .returned _ => none

/-- The goroutine that `MultiplexGZLines` starts after its loop, one step at a time:
`wg.Wait()` returns once the counter is zero, then `close(clc)`, then `close(cec)`; a
`close` of a closed channel is a panic. -/
def MultiplexGZLines.supervisor (s : MState) : Option MState :=
  match s.sup with
  | .notStarted => none
  | .waiting => if s.wg = 0 then some { s with sup := .closeLines } else none
  | .closeLines =>
    if s.lcClosed then some { s with panicked := true }
    else some { s with sup := .closeErrs, lcClosed := true, lineCloses := s.lineCloses + 1 }
  | .closeErrs =>
    if s.ecClosed then some { s with panicked := true }
    else some { s with sup := .finished, ecClosed := true, errCloses := s.errCloses + 1 }
  | .finished => none

/-- One step of worker `i`; when `sendFromFile` returns, its deferred `wg.Done()` runs
(a negative counter is a panic). -/
def MState.workerStep (s : MState) (i : Nat) (a : WAct) : Option MState :=
  match s.workers[i]? with
  | none => none
  | some w =>
    match sendFromFile s.factor s.lcClosed s.ecClosed s.receiving w a with
    | .blocked => none
    | .panic => some { s with panicked := true }
    | .next w1 finished out =>
      let s1 : MState :=
        { s with workers := s.workers.set i w1, log := s.log ++ (out.map (fun d => (i, d))).toList }
      if finished then
        if s1.wg = 0 then some { s1 with panicked := true } else some { s1 with wg := s1.wg - 1 }
      else some s1

/-- One step of the run; `none` when the action is not enabled. Nothing runs after a
panic. -/
def MState.step (fs : String → Except GoError GzFile) (s : MState) (a : Action) :
    Option MState :=
  if s.panicked then none
  else
    match a with
    | .main => MultiplexGZLines fs s
    | .worker i act => s.workerStep i act
    | .supervise => MultiplexGZLines.supervisor s

/-- The state after the given actions, `none` if one of them is not enabled. -/
def MState.run (fs : String → Except GoError GzFile) (s : MState) : List Action → Option MState
  | [] => some s
  | a :: as =>
    match s.step fs a with
    | none => none
    | some s1 => MState.run fs s1 as

/-- No action is enabled. -/
def MState.Terminal (fs : String → Except GoError GzFile) (s : MState) : Prop :=
  ∀ a, s.step fs a = none

/-- The values the consumer received on the combined line channel from worker `i`, in
order. -/
def linesFrom (i : Nat) (log : List (Nat × Delivery)) : List Slice :=
  log.filterMap fun p =>
    match p with
    | (j, .line l) => if j = i then some l else none
    | _ => none

/-- The values the consumer received on the combined error channel from worker `i`, in
order. -/
def errsFrom (i : Nat) (log : List (Nat × Delivery)) : List error :=
  log.filterMap fun p =>
    match p with
    | (j, .err e) => if j = i then some e else none
    | _ => none

/-- All values the consumer received on the combined line channel, in order. -/
def allLines (log : List (Nat × Delivery)) : List Slice :=
  log.filterMap fun p =>
    match p with
    | (_, .line l) => some l
    | _ => none

/-- All values the consumer received on the combined error channel, in order. -/
def allErrs (log : List (Nat × Delivery)) : List error :=
  log.filterMap fun p =>
    match p with
    | (_, .err e) => some e
    | _ => none

/-! ## Line files -/

/-- A line of a text file together with its terminator: `crlf` says whether the
terminator is `"\r\n"` rather than `"\n"`. -/
structure Line where
  text : List Byte
  crlf : Bool
  deriving DecidableEq, Repr

/-- The bytes of a line in the file, terminator included. -/
def Line.raw (l : Line) : List Byte :=
  l.text ++ (if l.crlf then [CR, LF] else [LF])

/-- The text holds no newline, and what precedes a bare `"\n"` is no carriage return
(it would belong to the terminator). -/
def Line.WellFormed (l : Line) : Prop :=
  LF ∉ l.text ∧ (l.crlf = false → l.text.getLast? ≠ some CR)

instance (l : Line) : Decidable l.WellFormed := by
  unfold Line.WellFormed; infer_instance

/-- The content of a file made of the given lines. -/
def encode (lines : List Line) : List Byte :=
  (lines.map Line.raw).flatten

/-- The values a task sends on the line channel, in order. -/
def taskLines (ops : List ChanOp) : List Slice :=
  ops.filterMap fun op =>
    match op with
    | .sendLine b => some b
    | _ => none

/-- The values a task sends on the error channel, in order. -/
def taskErrs (ops : List ChanOp) : List error :=
  ops.filterMap fun op =>
    match op with
    | .sendErr e => some e
    | _ => none

/-! ## Auxiliary notions for the proofs -/

/-- Well-formedness of a scanner: the unread bytes fit the buffer, and a recorded
error is the reader's final error, seen once the reader is exhausted. -/
structure Scanner.WF (s : Scanner) : Prop where
  bound : s.start + s.pending.length ≤ s.bufLen
  drained : s.err ≠ none → s.r.data = []
  fromReader : s.err = none ∨ s.err = some s.r.final

/-- Passes of the `Scan` loop still needed, at most. -/
def Scanner.passes (s : Scanner) : Nat :=
  if s.err = none then s.r.data.length + 2 else 1

/-- What the scanner sees of a line before the newline. -/
def Line.beforeLF (l : Line) : List Byte :=
  if l.crlf then l.text ++ [CR] else l.text

/-- The bytes a scanner has not yet turned into tokens: buffered or still in the reader. -/
def Scanner.unread (s : Scanner) : Nat := s.pending.length + s.r.data.length

/-- The shape of the background task of `LinesOfGZ`: sends of non-nil lines, then at most
one send of a non-nil error, then the close of the line channel, then the close of the
error channel. -/
def TaskShape (ops : List ChanOp) : Prop :=
  ∃ (bs : List Slice) (es : List error),
    ops = bs.map ChanOp.sendLine ++ es.map ChanOp.sendErr ++ [ChanOp.closeLines, ChanOp.closeErrs] ∧
    (∀ b ∈ bs, b ≠ none) ∧ (∀ e ∈ es, e ≠ none) ∧ es.length ≤ 1

/-- The channel operations of the background task that `LinesOfGZ` starts on a file
(none when `LinesOfGZ` fails at once). -/
def fileTask (factor : Nat) (rawf : GzFile) : List ChanOp :=
  ((LinesOfGZ factor rawf).task).getD []

/-- A send of a non-nil value. -/
def ChanOp.IsSend : ChanOp → Prop
  | .sendLine l => l ≠ none
  | .sendErr e => e ≠ none
  | _ => False

/-- What a background task of `LinesOfGZ` has still to do, against the state of its two
channels: sends and both closes while both channels are open, the close of the error
channel once the line channel is closed, nothing once both are closed. -/
def TaskTail (prod : List ChanOp) (lc ec : Bool) : Prop :=
  (lc = false ∧ ec = false ∧
    ∃ sends, prod = sends ++ [ChanOp.closeLines, ChanOp.closeErrs] ∧ ∀ op ∈ sends, op.IsSend) ∨
  (lc = true ∧ ec = false ∧ prod = [ChanOp.closeErrs]) ∨
  (lc = true ∧ ec = true ∧ prod = [])

/-- A worker whose call of `LinesOfGZ` succeeded, `ls` and `es` being the values of its
file that have left the background task towards the consumer: together with what the
background task has still to send they are the sends of the whole task. -/
def Worker.Running (factor : Nat) (w : Worker) (ls : List Slice) (es : List error) : Prop :=
  w.rawf.header = none ∧ TaskTail w.prod w.lcClosed w.ecClosed ∧
    ls ++ taskLines w.prod = taskLines (fileTask factor w.rawf) ∧
    es ++ taskErrs w.prod = taskErrs (fileTask factor w.rawf)

/-- The invariant of a worker, `ls` and `es` being what the consumer has received from
it on the combined line and error channels. -/
def Worker.Inv (factor : Nat) (w : Worker) (ls : List Slice) (es : List error) : Prop :=
  match w.pc with
  | .start => w.prod = [] ∧ w.lcClosed = false ∧ w.ecClosed = false ∧ ls = [] ∧ es = []
  | .setupErr e => w.rawf.header = some e ∧ w.prod = [] ∧ ls = [] ∧ es = []
  | .selecting => w.Running factor ls es
  | .fwdLine l => l ≠ none ∧ w.Running factor (ls ++ [l]) es
  | .fwdErr e => e ≠ none ∧ w.Running factor ls (es ++ [e])
  | .done =>
    (∃ e, w.rawf.header = some e ∧ w.prod = [] ∧ ls = [] ∧ es = [some e]) ∨
    (w.Running factor ls es ∧ (w.lcClosed = true ∨ w.ecClosed = true))

/-- The lines among the consumer's receipts of one step. -/
def Delivery.lines : Option Delivery → List Slice
  | some (.line l) => [l]
  | _ => []

/-- The errors among the consumer's receipts of one step. -/
def Delivery.errs : Option Delivery → List error
  | some (.err e) => [e]
  | _ => []

/-- A bound on the number of steps a worker can still take. -/
def Worker.weight (factor : Nat) (w : Worker) : Nat :=
  3 * w.prod.length +
    match w.pc with
    | .start => 3 * (fileTask factor w.rawf).length + 2
    | .setupErr _ => 1
    | .selecting => 1
    | .fwdLine _ => 2
    | .fwdErr _ => 2
    | .done => 0

/-- What a step of a worker must satisfy to keep the invariant: no panic, and after the
step the invariant holds with the consumer's receipts extended by what the step
delivered; the step is the return of `sendFromFile` exactly when it moves the worker to
`done`. -/
def WResult.Keeps (factor : Nat) (w : Worker) (ls : List Slice) (es : List error) :
    WResult → Prop
  | .blocked => True
  | .panic => False
  | .next w1 finished out =>
    w1.Inv factor (ls ++ Delivery.lines out) (es ++ Delivery.errs out) ∧ w1.rawf = w.rawf ∧
      (finished = true → w.pc ≠ .done ∧ w1.pc = .done) ∧
      (finished = false → (w1.pc = .done ↔ w.pc = .done))

/-- The files `MultiplexGZLines` opens: those of the names before the first one that
cannot be opened. -/
def opened (fs : String → Except GoError GzFile) : List String → List GzFile
  | [] => []
  | fn :: rest =>
    match fs fn with
    | .ok f => f :: opened fs rest
    | .error _ => []

/-- The error of the first name that cannot be opened, nil if all can. -/
def firstError (fs : String → Except GoError GzFile) : List String → error
  | [] => none
  | fn :: rest =>
    match fs fn with
    | .ok _ => firstError fs rest
    | .error e => some e

/-- Whether `sendFromFile` has not yet returned. -/
def Worker.isActive (w : Worker) : Bool :=
  match w.pc with
  | .done => false
  | _ => true

/-- The number of `sendFromFile` goroutines that have not returned. -/
def MState.active (s : MState) : Nat :=
  s.workers.countP Worker.isActive

/-- The invariant of a run of `MultiplexGZLines(filenames...)`. -/
structure MState.Inv (fs : String → Except GoError GzFile) (factor : Nat)
    (filenames : List String) (s : MState) : Prop where
  factorEq : s.factor = factor
  notPanicked : s.panicked = false
  workersInv : ∀ (i : Nat) (w : Worker), s.workers[i]? = some w →
    w.Inv factor (linesFrom i s.log) (errsFrom i s.log)
  logBound : ∀ p ∈ s.log, p.1 < s.workers.length
  wgCount : s.wg = s.active +
    (match s.mainPc with
      | .returned (some _) => 1
      | _ => 0)
  progress :
    match s.mainPc with
    | .looping => s.sup = .notStarted ∧
        s.workers.map (·.rawf) ++ opened fs s.todo = opened fs filenames ∧
        firstError fs s.todo = firstError fs filenames
    | .supSpawned => s.sup ≠ .notStarted ∧
        s.workers.map (·.rawf) = opened fs filenames ∧ firstError fs filenames = none
    | .returned none => s.sup ≠ .notStarted ∧
        s.workers.map (·.rawf) = opened fs filenames ∧ firstError fs filenames = none
    | .returned (some e) => s.sup = .notStarted ∧
        s.workers.map (·.rawf) = opened fs filenames ∧ firstError fs filenames = some e
  closes :
    match s.sup with
    | .notStarted => s.lcClosed = false ∧ s.ecClosed = false ∧ s.lineCloses = 0 ∧ s.errCloses = 0
    | .waiting => s.lcClosed = false ∧ s.ecClosed = false ∧ s.lineCloses = 0 ∧ s.errCloses = 0
    | .closeLines => s.lcClosed = false ∧ s.ecClosed = false ∧ s.lineCloses = 0 ∧
        s.errCloses = 0 ∧ s.wg = 0
    | .closeErrs => s.lcClosed = true ∧ s.ecClosed = false ∧ s.lineCloses = 1 ∧
        s.errCloses = 0 ∧ s.wg = 0
    | .finished => s.lcClosed = true ∧ s.ecClosed = true ∧ s.lineCloses = 1 ∧
        s.errCloses = 1 ∧ s.wg = 0

/-- The values `LinesOfGZ` sends on its line channel for a file, in order (none when it
fails at once). -/
def fileLines (factor : Nat) (rawf : GzFile) : List Slice :=
  taskLines (fileTask factor rawf)

/-- The errors `sendFromFile` forwards to the combined error channel for a file: the
immediate error of `LinesOfGZ`, or else what `LinesOfGZ` sends on its error channel. -/
def fileErrs (factor : Nat) (rawf : GzFile) : List error :=
  match rawf.header with
  | some e => [some e]
  | none => taskErrs (fileTask factor rawf)

/-- The result of a complete run: `MultiplexGZLines` has returned the error of the first
name that cannot be opened (nil if all can), a worker was started for each file opened
and every worker has returned, having passed on to the consumer all lines and errors of
its file; with a nil error, the supervisory task has closed both combined channels,
each once; with a non-nil error, no supervisory task was started and the combined
channels stay open. -/
structure MState.Final (fs : String → Except GoError GzFile) (factor : Nat)
    (filenames : List String) (s : MState) : Prop where
  returned : s.mainPc = .returned (firstError fs filenames)
  files : s.workers.map (·.rawf) = opened fs filenames
  allDone : ∀ w ∈ s.workers, w.pc = .done
  lines : ∀ (i : Nat) (w : Worker), s.workers[i]? = some w →
    linesFrom i s.log = fileLines factor w.rawf
  errs : ∀ (i : Nat) (w : Worker), s.workers[i]? = some w →
    errsFrom i s.log = fileErrs factor w.rawf
  closed : firstError fs filenames = none →
    s.sup = .finished ∧ s.lcClosed = true ∧ s.ecClosed = true ∧
      s.lineCloses = 1 ∧ s.errCloses = 1
  neverClosed : firstError fs filenames ≠ none →
    s.sup = .notStarted ∧ s.lcClosed = false ∧ s.ecClosed = false ∧
      s.lineCloses = 0 ∧ s.errCloses = 0

/-- A bound on the steps that the names still to be opened can cause: one for the loop
iteration, plus those of the worker it starts. -/
def todoWeight (fs : String → Except GoError GzFile) (factor : Nat) : List String → Nat
  | [] => 0
  | fn :: rest =>
    1 + (match fs fn with
      | .ok f => (Worker.new f).weight factor
      | .error _ => 0) + todoWeight fs factor rest

/-- A bound on the number of steps a run can still take. -/
def MState.weight (fs : String → Except GoError GzFile) (s : MState) : Nat :=
  (match s.mainPc with
    | .looping => 2 + todoWeight fs s.factor s.todo
    | .supSpawned => 1
    | .returned _ => 0) +
  (match s.sup with
    | .notStarted => 3
    | .waiting => 3
    | .closeLines => 2
    | .closeErrs => 1
    | .finished => 0) +
  (s.workers.map (Worker.weight s.factor)).sum

/-- A gzip file with a valid header whose content is the given lines and decompresses
without error; `chunks` and `eager` describe how the decompressor hands the bytes out. -/
def lineFile (lines : List Line) (chunks : List Nat) (eager : Bool) : GzFile :=
  { header := none,
    body := { data := encode lines, final := GoError.EOF, chunks := chunks, eager := eager } }

/-- The lines of a file as Go values, terminators stripped. -/
def sliceLines (lines : List Line) : List Slice :=
  lines.map fun l => some l.text

/-- A valid gzip line file given by its lines and the way its decompressor hands the
bytes out. -/
structure FileSpec where
  lines : List Line
  chunks : List Nat
  eager : Bool
  deriving DecidableEq, Repr

/-- The file of a specification. -/
def FileSpec.file (sp : FileSpec) : GzFile := lineFile sp.lines sp.chunks sp.eager

/-- Every line is well formed and, terminator included, no longer than the scanner limit
`bufio.MaxScanTokenSize * LineBufferLengthFactor`. -/
def FileSpec.Valid (factor : Nat) (sp : FileSpec) : Prop :=
  ∀ l ∈ sp.lines, l.WellFormed ∧ l.raw.length ≤ MaxScanTokenSize * factor

instance (factor : Nat) (sp : FileSpec) : Decidable (sp.Valid factor) := by
  unfold FileSpec.Valid; infer_instance

/-- The lines `"x"`, `""` and `"yz"`, the last one terminated by `"\r\n"`. -/
def sampleLines : List Line :=
  [⟨[120], false⟩, ⟨[], false⟩, ⟨[121, 122], true⟩]

/-- A line of `2 ^ 26 + 1` bytes `'a'` without a terminator. -/
def longLine : List Byte := List.replicate (MaxScanTokenSize * LineBufferLengthFactor + 1) 97

/-- A gzip file with a valid header that decompresses without error to the given lines
followed by `last`, the bytes after the last newline (empty when the content ends with
a newline); `chunks` and `eager` describe how the decompressor hands the bytes out. -/
def textFile (lines : List Line) (last : List Byte) (chunks : List Nat) (eager : Bool) :
    GzFile :=
  { header := none,
    body := { data := encode lines ++ last, final := GoError.EOF, chunks := chunks,
              eager := eager } }

/-- A line of `bufio.MaxScanTokenSize * LineBufferLengthFactor` bytes `'a'`, terminated
by `"\n"`. -/
def limitLine : Line :=
  ⟨List.replicate (MaxScanTokenSize * LineBufferLengthFactor) 97, false⟩

/-! ## Sample files and runs -/

/-- The file `a.gz` of the scenario: the lines `"x"` and `"y"`. -/
def specA : FileSpec := ⟨[⟨[120], false⟩, ⟨[121], false⟩], [], true⟩

/-- The file `b.gz` of the scenario: the line `"z"`. -/
def specB : FileSpec := ⟨[⟨[122], false⟩], [1], false⟩

/-- A file with an empty line in the middle: `"x"`, `""`, `"y"` (the last line ends in
`"\r\n"`). -/
def specE : FileSpec := ⟨[⟨[120], false⟩, ⟨[], false⟩, ⟨[121], true⟩], [2], false⟩

/-- A file without a valid gzip header. -/
def badHeader : GzFile := ⟨some GoError.ErrHeader, ⟨[], GoError.EOF, [], false⟩⟩

/-- A file with a valid header whose stream breaks off with a checksum error after the
bytes `"x\ny"`. -/
def cutFile : GzFile := ⟨none, ⟨[120, 10, 121], GoError.ErrChecksum, [], false⟩⟩

/-- A sample file system: the five files above; any other name cannot be opened. -/
def fsDemo : String → Except GoError GzFile := fun fn =>
  if fn = "a.gz" then .ok specA.file
  else if fn = "b.gz" then .ok specB.file
  else if fn = "e.gz" then .ok specE.file
  else if fn = "bad.gz" then .ok badHeader
  else if fn = "cut.gz" then .ok cutFile
  else .error (.PathError fn)

/-- All steps of a worker. -/
def WAct.all : List WAct :=
  [.start, .recvLine, .recvErr, .producerClose, .deliverLine, .deliverErr]

/-- No step of `MultiplexGZLines`, of the supervisory task or of a started worker is
enabled. -/
def MState.Quiet (fs : String → Except GoError GzFile) (s : MState) : Prop :=
  MultiplexGZLines fs s = none ∧ MultiplexGZLines.supervisor s = none ∧
    ∀ i ∈ List.range s.workers.length, ∀ a ∈ WAct.all, s.workerStep i a = none

instance (fs : String → Except GoError GzFile) (s : MState) : Decidable (s.Quiet fs) := by
  unfold MState.Quiet; infer_instance

/-- The state a schedule leads to (the initial state if the schedule cannot run). -/
def endOf (filenames : List String) (sched : List Action) : MState :=
  ((MState.init LineBufferLengthFactor filenames).run fsDemo sched).getD
    (MState.init LineBufferLengthFactor filenames)

/-- A complete run of `MultiplexGZLines("a.gz", "b.gz")` in which `"z"` arrives between
`"x"` and `"y"`. -/
def schedAB : List Action :=
  [.main, .main, .main, .main, .worker 0 .start, .worker 1 .start, .worker 1 .recvLine,
   .worker 0 .recvLine, .worker 0 .deliverLine, .worker 1 .deliverLine, .worker 0 .recvLine,
   .worker 0 .deliverLine, .worker 0 .producerClose, .worker 0 .recvLine,
   .worker 1 .producerClose, .worker 1 .producerClose, .worker 1 .recvErr,
   .supervise, .supervise, .supervise, .worker 0 .producerClose]

/-- A complete run of `MultiplexGZLines("a.gz", "b.gz")` in which the workers start
while the loop is still running. -/
def schedBA : List Action :=
  [.main, .worker 0 .start, .worker 0 .recvLine, .main, .worker 1 .start,
   .worker 1 .recvLine, .worker 1 .producerClose, .worker 1 .producerClose, .main, .main,
   .worker 1 .deliverLine, .worker 1 .recvErr, .worker 0 .deliverLine, .worker 0 .recvLine,
   .worker 0 .producerClose, .worker 0 .producerClose, .worker 0 .deliverLine,
   .worker 0 .recvErr, .supervise, .supervise, .supervise]

/-- A complete run of `MultiplexGZLines("a.gz", "bad.gz", "cut.gz")`. -/
def schedFail : List Action :=
  [.main, .worker 0 .start, .worker 0 .recvLine, .main, .worker 1 .start, .main,
   .worker 2 .start, .worker 2 .recvLine, .main, .main, .worker 2 .deliverLine,
   .worker 2 .recvLine, .worker 2 .deliverLine, .worker 2 .recvErr,
   .worker 2 .producerClose, .worker 2 .producerClose, .worker 2 .deliverErr,
   .worker 2 .recvErr, .worker 1 .deliverErr, .worker 0 .deliverLine, .worker 0 .recvLine,
   .worker 0 .producerClose, .worker 0 .producerClose, .worker 0 .deliverLine,
   .worker 0 .recvErr, .supervise, .supervise, .supervise]

/-- A complete run of `MultiplexGZLines("b.gz", "e.gz")`. -/
def schedEmpty : List Action :=
  [.main, .worker 0 .start, .worker 0 .recvLine, .worker 0 .producerClose,
   .worker 0 .producerClose, .main, .worker 1 .start, .worker 1 .recvLine, .main, .main,
   .worker 1 .deliverLine, .worker 1 .recvLine, .worker 1 .deliverLine, .worker 1 .recvLine,
   .worker 1 .producerClose, .worker 1 .producerClose, .worker 1 .deliverLine,
   .worker 1 .recvErr, .worker 0 .deliverLine, .worker 0 .recvErr,
   .supervise, .supervise, .supervise]

/-- A complete run of `MultiplexGZLines("a.gz", "missing.gz", "b.gz")`. -/
def schedMissing : List Action :=
  [.main, .worker 0 .start, .worker 0 .recvLine, .main, .worker 0 .deliverLine,
   .worker 0 .recvLine, .worker 0 .producerClose, .worker 0 .producerClose,
   .worker 0 .deliverLine, .worker 0 .recvErr]

/-! ## `AllGZInDir`

`filepath.Match` is modelled by the pattern language its documentation gives;
`filepath.Clean`, `Join`, `Split` and `Glob` follow the Unix code of `path/filepath`.
The file system is given by what `os.Lstat` and the reading of a directory answer. -/

/-- The variable `jlgzGlobs`. -/
def jlgzGlobs : List String := ["*.gz", "*.gzip"]

/-- The patterns that the doc comment of `AllGZInDir` lists. -/
def documentedGlobs : List String := ["*.jl.gz", "*.jlgz", "*.jsonl.gz", "*.jsonlgz"]

/-- The path separator. -/
def Separator : Char := '/'

/-- A term of a `filepath.Match` pattern: `*`, `?`, a character (possibly escaped), or
a character class `[...]` or `[^...]` with its ranges. -/
inductive Term where
  | star
  | any
  | lit (c : Char)
  | cls (negated : Bool) (ranges : List (Char × Char))
  deriving DecidableEq, Repr

/-- The function `getEsc` of `path/filepath`: the next character of a class, and the
rest; `none` for a malformed class. -/
def getEsc : List Char → Option (Char × List Char)
  | [] => none
  | '\\' :: c :: d :: rest => some (c, d :: rest)
  | '\\' :: _ => none
  | c :: d :: rest => if c = '-' ∨ c = ']' then none else some (c, d :: rest)
  | _ :: [] => none

/-- The ranges of a character class up to the closing `]`, and the rest of the pattern;
`none` for a malformed class. `n` is the number of ranges read so far. -/
def parseRanges : Nat → List Char → Nat → Option (List (Char × Char) × List Char)
  | 0, _, _ => none
  | fuel + 1, chunk, n =>
    match chunk, n with
    | ']' :: rest, _ + 1 => some ([], rest)
    | _, _ =>
      match getEsc chunk with
      | none => none
      | some (lo, '-' :: chunk1) =>
        match getEsc chunk1 with
        | none => none
        | some (hi, chunk2) =>
          match parseRanges fuel chunk2 (n + 1) with
          | none => none
          | some (rs, rest) => some ((lo, hi) :: rs, rest)
      | some (lo, chunk1) =>
        match parseRanges fuel chunk1 (n + 1) with
        | none => none
        | some (rs, rest) => some ((lo, lo) :: rs, rest)

/-- The terms of a pattern; `none` stands for `ErrBadPattern`. -/
def parsePattern : Nat → List Char → Option (List Term)
  | 0, _ => none
  | _ + 1, [] => some []
  | fuel + 1, '*' :: rest => (parsePattern fuel rest).map (Term.star :: ·)
  | fuel + 1, '?' :: rest => (parsePattern fuel rest).map (Term.any :: ·)
  | _ + 1, ['\\'] => none
  | fuel + 1, '\\' :: c :: rest => (parsePattern fuel rest).map (Term.lit c :: ·)
  | fuel + 1, '[' :: '^' :: rest =>
    match parseRanges (rest.length + 1) rest 0 with
    | none => none
    | some (rs, rest1) => (parsePattern fuel rest1).map (Term.cls true rs :: ·)
  | fuel + 1, '[' :: rest =>
    match parseRanges (rest.length + 1) rest 0 with
    | none => none
    | some (rs, rest1) => (parsePattern fuel rest1).map (Term.cls false rs :: ·)
  | fuel + 1, c :: rest => (parsePattern fuel rest).map (Term.lit c :: ·)

/-- Whether a character is in one of the ranges of a class. -/
def inRanges (c : Char) (ranges : List (Char × Char)) : Bool :=
  ranges.any fun r => decide (r.1 ≤ c ∧ c ≤ r.2)

/-- The matching of `*`: `rest` must match what remains after some non-separator
characters. -/
def matchStar (rest : List Char → Bool) : List Char → Bool
  | [] => rest []
  | c :: cs => rest (c :: cs) || (c != Separator && matchStar rest cs)

/-- Whether the terms match all of the name: `*` matches any sequence of non-separator
characters, `?` any single non-separator character. -/
def matchTerms : List Term → List Char → Bool
  | [], n => n.isEmpty
  | Term.star :: ts, n => matchStar (fun m => matchTerms ts m) n
  | Term.any :: ts, n =>
    match n with
    | [] => false
    | c :: cs => c != Separator && matchTerms ts cs
  | Term.lit a :: ts, n =>
    match n with
    | [] => false
    | c :: cs => a == c && matchTerms ts cs
  | Term.cls neg rs :: ts, n =>
    match n with
    | [] => false
    | c :: cs => (inRanges c rs != neg) && matchTerms ts cs

/-- The function `filepath.Match`. -/
def Match (pattern name : String) : Except GoError Bool :=
  match parsePattern (pattern.data.length + 1) pattern.data with
  | none => .error GoError.ErrBadPattern
  | some ts => .ok (matchTerms ts name.data)

/-- Whether the pattern matches the name (a malformed pattern matches nothing). -/
def matchesGlob (pattern n : String) : Bool :=
  match Match pattern n with
  | .ok b => b
  | .error _ => false

/-- Whether `AllGZInDir` looks for the name: it matches one of `jlgzGlobs`. -/
def isWanted (n : String) : Bool :=
  jlgzGlobs.any fun fg => matchesGlob fg n

/-- The file system as `path/filepath` sees it. `lstat name` says whether
`os.Lstat(name)` succeeds. `readDir name` is `none` when `os.Stat(name)` fails, when
`name` is no directory or when `os.Open(name)` fails; else it holds the names that
`Readdirnames(-1)` returns, in the order of the directory. -/
structure FileSystem where
  lstat : String → Bool
  readDir : String → Option (List String)

/-- The elements of a path: the pieces between the separators. -/
def elements : List Char → List (List Char)
  | [] => [[]]
  | c :: cs =>
    if c = Separator then [] :: elements cs
    else
      match elements cs with
      | [] => [[c]]
      | e :: es => (c :: e) :: es

/-- The path element `..`. -/
def dotdot : List Char := ['.', '.']

/-- One pass through the loop of `filepath.Clean`, which handles one path element;
`out` holds the elements written to the buffer so far. An empty element and a `.`
element are skipped. A `..` element removes the last element written if there is one
that is not itself `..` ("can backtrack"); if not, it is dropped in a rooted path and
appended in a path that is not rooted. A real path element is appended. -/
def cleanStep (rooted : Bool) (out : List (List Char)) (e : List Char) : List (List Char) :=
  if e = [] then out
  else if e = ['.'] then out
  else if e = dotdot then
    if out ≠ [] ∧ out.getLast? ≠ some dotdot then out.dropLast
    else if rooted then out
    else out ++ [e]
  else out ++ [e]

/-- The elements with a separator between each two. -/
def joinElems : List (List Char) → List Char
  | [] => []
  | [e] => e
  | e :: e1 :: es => e ++ Separator :: joinElems (e1 :: es)

/-- The function `filepath.Clean` on the characters of a path (Unix: no volume name): an
empty path gives `.`; a rooted path keeps its leading separator; an empty result is
turned into `.`. -/
def cleanChars (path : List Char) : List Char :=
  if path = [] then ['.']
  else
    let rooted := path.head? = some Separator
    let out := (elements path).foldl (cleanStep rooted) []
    if rooted then Separator :: joinElems out
    else if out = [] then ['.']
    else joinElems out

/-- The function `filepath.Clean`. -/
def Clean (path : String) : String := ⟨cleanChars path.data⟩

/-- The call `filepath.Join(dir, name)`: the non-empty elements joined by a separator,
then cleaned; the empty string if both are empty. -/
def Join (dir name : String) : String :=
  if dir ≠ "" then Clean (dir ++ "/" ++ name)
  else if name ≠ "" then Clean name
  else ""

/-- The function `filepath.Split`: the path is cut after its last separator. -/
def Split (path : String) : String × String :=
  (⟨(path.data.reverse.dropWhile (fun c => c != Separator)).reverse⟩,
   ⟨(path.data.reverse.takeWhile (fun c => c != Separator)).reverse⟩)

/-- The function `hasMeta` of `path/filepath` (Unix): whether the path holds one of the
characters `*`, `?`, `[` and `\`. -/
def hasMeta (path : String) : Bool :=
  path.data.any fun c => c == '*' || c == '?' || c == '[' || c == '\\'

/-- The function `cleanGlobPath` of `path/filepath`: "chop off trailing separator". -/
def cleanGlobPath (path : String) : String :=
  if path = "" then "."
  else if path = "/" then path
  else ⟨path.data.dropLast⟩

/-- The order `<` of Go strings. Go compares the bytes of the UTF-8 encoding, which
orders strings as the comparison of their characters does. -/
def stringLess : List Char → List Char → Bool
  | _, [] => false
  | [], _ :: _ => true
  | a :: as, b :: bs =>
    decide (a.toNat < b.toNat) || (decide (a.toNat = b.toNat) && stringLess as bs)

/-- The call `sort.Strings(names)`. -/
def sortStrings (names : List String) : List String :=
  names.insertionSort fun a b => stringLess b.data a.data = false

/-- In `glob`: the loop `for _, n := range names`, `m` being the matches so far. An
error of `Match` ends the loop. -/
def globNames (dir pattern : String) : List String → List String → Except GoError (List String)
  | [], m => .ok m
  | n :: names, m =>
    match Match pattern n with
    | .error e => .error e
    | .ok matched => globNames dir pattern names (if matched then m ++ [Join dir n] else m)

/-- The function `glob` of `path/filepath`: the entries of the directory `dir` that
match `pattern`, in sorted order, appended to `matches`. A directory that cannot be
read adds nothing ("ignore I/O error"). -/
def glob (fs : FileSystem) (dir pattern : String) (found : List String) :
    Except GoError (List String) :=
  match fs.readDir dir with
  | none => .ok found
  | some names => globNames dir pattern (sortStrings names) found

/-- In `globWithLimit`: the loop `for _, d := range m`. -/
def globDirs (fs : FileSystem) (file : String) :
    List String → List String → Except GoError (List String)
  | [], found => .ok found
  | d :: ds, found =>
    match glob fs d file found with
    | .error e => .error e
    | .ok found1 => globDirs fs file ds found1

/-- The constant `pathSeparatorsLimit` of `globWithLimit`. -/
def pathSeparatorsLimit : Nat := 10000

/-- The function `globWithLimit` of `path/filepath`; the first argument is
`pathSeparatorsLimit - depth`. -/
def globWithLimit (fs : FileSystem) : Nat → String → Except GoError (List String)
  | 0, _ => .error GoError.ErrBadPattern
  | left + 1, pattern =>
    match Match pattern "" with
    | .error e => .error e
    | .ok _ =>
      if !hasMeta pattern then
        if fs.lstat pattern then .ok [pattern] else .ok []
      else
        let dir := cleanGlobPath (Split pattern).1
        let file := (Split pattern).2
        if !hasMeta dir then glob fs dir file []
        else if dir = pattern then .error GoError.ErrBadPattern
        else
          match globWithLimit fs left dir with
          | .error e => .error e
          | .ok m => globDirs fs file m []

/-- The function `filepath.Glob`. -/
def Glob (fs : FileSystem) (pattern : String) : Except GoError (List String) :=
  globWithLimit fs pathSeparatorsLimit pattern

/-- The loop of `AllGZInDir` over the patterns, `allFs` being the matches so far; an
error stands for `panic(err)`. -/
def globAll (fs : FileSystem) (dir : String) :
    List String → List String → Except GoError (List String)
  | [], allFs => .ok allFs
  | fg :: rest, allFs =>
    match Glob fs (Join dir fg) with
    | .error e => .error e
    | .ok found => globAll fs dir rest (allFs ++ found)

/-- The function `AllGZInDir`; an error stands for `panic(err)`. -/
def AllGZInDir (fs : FileSystem) (dir : String) : Except GoError (List String) :=
  globAll fs dir jlgzGlobs []

/-- A file system with a single directory, reached under the given name. -/
def oneDir (name : String) (entries : List String) : FileSystem :=
  { lstat := fun p => p == name,
    readDir := fun p => if p = name then some entries else none }

/-- The entries of a sample directory, in no particular order. -/
def sampleNames : List String :=
  ["e.jsonl.gz", "b.gzip", "gz", "a.gz", "f.jsonlgz", "c.jl.gz", "g.txt", ".gz", "d.jlgz"]

/-- Whether a path is rooted: it starts with a separator. -/
def isRooted (path : List Char) : Bool := decide (path.head? = some Separator)

/-- The elements that `filepath.Clean` has written when its loop ends. -/
def cleanStack (path : List Char) : List (List Char) :=
  (elements path).foldl (cleanStep (isRooted path)) []

/-- What `filepath.Clean` returns for the elements it has written. -/
def render (rooted : Bool) (out : List (List Char)) : List Char :=
  if rooted then Separator :: joinElems out
  else if out = [] then ['.']
  else joinElems out

/-- What `filepath.Clean` has written before a further real path element. -/
def dirPrefix (rooted : Bool) (out : List (List Char)) : List Char :=
  (if rooted then [Separator] else []) ++ (if out = [] then [] else joinElems out ++ [Separator])

/-- A real path element: not empty, not `.`, not `..`, without separator. -/
def RealElem (e : List Char) : Prop :=
  e ≠ [] ∧ e ≠ ['.'] ∧ e ≠ dotdot ∧ Separator ∉ e

instance (e : List Char) : Decidable (RealElem e) := by
  unfold RealElem; infer_instance

/-- No character of the list is one of `*`, `?`, `[` and `\`. -/
def NoMeta (l : List Char) : Prop :=
  ∀ c ∈ l, c ≠ '*' ∧ c ≠ '?' ∧ c ≠ '[' ∧ c ≠ '\\'

instance (l : List Char) : Decidable (NoMeta l) := by
  unfold NoMeta; infer_instance

/-- The form of what `filepath.Clean` has written: `..` elements, in a path that is not
rooted only, and then real path elements. -/
def StackForm (r : Bool) : List (List Char) → Prop
  | [] => True
  | e :: es => (e = dotdot ∧ r = false ∧ StackForm r es) ∨ (∀ x ∈ e :: es, RealElem x)

/-- A file system whose working directory holds the directories `data` and `dir2` and
the file `x`. -/
def twoDirs : FileSystem :=
  { lstat := fun _ => true,
    readDir := fun p =>
      if p = "." then some ["dir2", "x", "data"]
      else if p = "data" then some ["b.gz", "a.gz"]
      else if p = "dir2" then some ["z.gzip", "c.gz"]
      else none }

/-! ## Facts about the reader and the scanner -/

theorem IndexByte_append_cons (text rest : List Byte) (c : Byte) (h : c ∉ text) :
    IndexByte (text ++ c :: rest) c = some text.length := by
  induction text with
  | nil => simp [IndexByte]
  | cons b bs ih =>
    have hb : b ≠ c := fun e => h (by simp [e])
    have hbs : c ∉ bs := fun e => h (by simp [e])
    simp [IndexByte, hb, ih hbs]

theorem IndexByte_none (text : List Byte) (c : Byte) (h : c ∉ text) :
    IndexByte text c = none := by
  induction text with
  | nil => simp [IndexByte]
  | cons b bs ih =>
    have hb : b ≠ c := fun e => h (by simp [e])
    have hbs : c ∉ bs := fun e => h (by simp [e])
    simp [IndexByte, hb, ih hbs]

theorem Reader.Read_nil (r : Reader) (cap : Nat) (hd : r.data = []) :
    r.Read cap = ([], some r.final, r) := by
  simp [Reader.Read, hd]

theorem Reader.Read_spec (r : Reader) (cap : Nat) (hcap : 0 < cap) (hd : r.data ≠ []) :
    ∃ out e r1, r.Read cap = (out, e, r1) ∧ out ≠ [] ∧ out.length ≤ cap ∧
      out ++ r1.data = r.data ∧ r1.final = r.final ∧
      (e = none ∨ (e = some r.final ∧ r1.data = [])) := by
  have hlen : 0 < r.data.length := List.length_pos.mpr hd
  have hwant : 0 < (match r.chunks with
      | [] => r.data.length
      | c :: _ => max c 1) := by
    cases r.chunks with
    | nil => simpa using hlen
    | cons c cs => simp
  generalize hw : (match r.chunks with
      | [] => r.data.length
      | c :: _ => max c 1) = want at hwant
  have hn : 0 < min want cap := Nat.lt_min.mpr ⟨hwant, hcap⟩
  have hout : r.data.take (min want cap) ≠ [] := by
    intro h
    have h1 : (r.data.take (min want cap)).length = 0 := by rw [h]; rfl
    rw [List.length_take] at h1
    have h2 : 0 < min (min want cap) r.data.length := Nat.lt_min.mpr ⟨hn, hlen⟩
    omega
  unfold Reader.Read
  have hne : r.data.isEmpty = false := by
    cases hdd : r.data with
    | nil => exact absurd hdd hd
    | cons a as => rfl
  simp only [hne, hw, Bool.false_eq_true, if_false, Nat.ne_of_gt hcap]
  split_ifs with h
  · refine ⟨_, _, _, rfl, hout, ?_, ?_, rfl, Or.inr ⟨rfl, ?_⟩⟩
    · simp
    · simp
    · simp at h
      simpa using h.1
  · refine ⟨_, _, _, rfl, hout, ?_, ?_, rfl, Or.inl rfl⟩
    · simp
    · simp

theorem Scanner.shift_spec (s : Scanner) (hb : s.start + s.pending.length ≤ s.bufLen) :
    s.shift.pending = s.pending ∧ s.shift.r = s.r ∧ s.shift.maxTokenSize = s.maxTokenSize ∧
      s.shift.bufLen = s.bufLen ∧ s.shift.err = s.err ∧
      s.shift.start + s.shift.pending.length ≤ s.shift.bufLen ∧
      (s.shift.endIdx = s.shift.bufLen ↔ s.start = 0 ∧ s.pending.length = s.bufLen) ∧
      (s.shift.endIdx = s.shift.bufLen → s.shift.start = 0) := by
  unfold Scanner.shift Scanner.endIdx
  split_ifs with h
  · refine ⟨rfl, rfl, rfl, rfl, rfl, ?_, ?_, fun _ => rfl⟩
    · simp only; omega
    · simp only; constructor <;> intro <;> omega
  · refine ⟨rfl, rfl, rfl, rfl, rfl, hb, ?_, ?_⟩
    · constructor
      · intro he
        rcases Nat.eq_zero_or_pos s.start with h0 | h0
        · exact ⟨h0, by omega⟩
        · exact absurd ⟨h0, Or.inl he⟩ h
      · rintro ⟨h0, hp⟩; omega
    · intro he
      rcases Nat.eq_zero_or_pos s.start with h0 | h0
      · exact h0
      · exact absurd ⟨h0, Or.inl he⟩ h

theorem Scanner.grow_spec (s : Scanner) (hb : s.start + s.pending.length ≤ s.bufLen)
    (hroom : s.endIdx = s.bufLen → s.start = 0 ∧ s.bufLen < s.maxTokenSize) :
    s.grow.pending = s.pending ∧ s.grow.r = s.r ∧ s.grow.maxTokenSize = s.maxTokenSize ∧
      s.grow.err = s.err ∧ s.grow.endIdx < s.grow.bufLen ∧
      s.grow.bufLen ≤ max s.bufLen s.maxTokenSize ∧ s.bufLen ≤ s.grow.bufLen := by
  unfold Scanner.grow
  split_ifs with h hz
  · obtain ⟨h0, hr⟩ := hroom h
    unfold Scanner.endIdx at h
    refine ⟨rfl, rfl, rfl, rfl, ?_, ?_, ?_⟩
    · simp only [Scanner.endIdx, zero_add]
      apply Nat.lt_min.mpr
      refine ⟨?_, by omega⟩
      simp only [startBufSize]; omega
    · exact le_trans (Nat.min_le_right _ _) (le_max_right _ _)
    · simp only; omega
  · obtain ⟨h0, hr⟩ := hroom h
    unfold Scanner.endIdx at h
    refine ⟨rfl, rfl, rfl, rfl, ?_, ?_, ?_⟩
    · simp only [Scanner.endIdx, zero_add]
      apply Nat.lt_min.mpr
      refine ⟨?_, by omega⟩
      omega
    · exact le_trans (Nat.min_le_right _ _) (le_max_right _ _)
    · simp only
      apply Nat.le_min.mpr
      omega
  · refine ⟨rfl, rfl, rfl, rfl, ?_, le_max_left _ _, le_refl _⟩
    unfold Scanner.endIdx at h ⊢
    omega

theorem Scanner.setErr_of_none (s : Scanner) (e : GoError) (h : s.err = none) :
    s.setErr e = { s with err := some e } := by
  simp [Scanner.setErr, h]

theorem Scanner.readMore_spec (s : Scanner) (hb : s.endIdx < s.bufLen) (herr : s.err = none) :
    ∃ s1, s.readMore = .again s1 ∧ s1.WF ∧
      s1.pending ++ s1.r.data = s.pending ++ s.r.data ∧
      s1.maxTokenSize = s.maxTokenSize ∧ s1.r.final = s.r.final ∧
      s1.passes < s.passes ∧ s1.bufLen = s.bufLen := by
  have hcap : 0 < s.bufLen - s.endIdx := by omega
  unfold Scanner.endIdx at hb
  unfold Scanner.readMore
  by_cases hdata : s.r.data = []
  · rw [Reader.Read_nil _ _ hdata]
    simp only [Scanner.setErr, herr, true_or, if_true]
    refine ⟨_, rfl, ⟨?_, fun _ => hdata, Or.inr rfl⟩, ?_, rfl, rfl, ?_, rfl⟩
    · simp only [List.append_nil]; omega
    · simp only [List.append_nil]
    · simp [Scanner.passes, herr]
  · obtain ⟨out, e, r1, hread, hout, hlen, happ, hfin, he⟩ :=
      Reader.Read_spec s.r _ hcap hdata
    rw [hread]
    have houtE : out.isEmpty = false := by
      cases out with
      | nil => exact absurd rfl hout
      | cons a as => rfl
    have hshrink : r1.data.length < s.r.data.length := by
      have := congrArg List.length happ
      have hpos : 0 < out.length := List.length_pos.mpr hout
      simp at this
      omega
    unfold Scanner.endIdx at hlen
    rcases he with he | ⟨he, hnil⟩
    · subst he
      simp only [houtE, Bool.false_eq_true, if_false]
      refine ⟨_, rfl, ⟨?_, ?_, ?_⟩, ?_, rfl, hfin, ?_, rfl⟩
      · simp only [List.length_append]; omega
      · intro hc; exact absurd herr hc
      · exact Or.inl herr
      · simp only [List.append_assoc, happ]
      · simp only [Scanner.passes, herr, if_true]; omega
    · subst he
      simp only [Scanner.setErr, herr, true_or, if_true]
      refine ⟨_, rfl, ⟨?_, fun _ => hnil, Or.inr (by simp only [hfin])⟩, ?_, rfl, hfin, ?_, rfl⟩
      · simp only [List.length_append]; omega
      · simp only [List.append_assoc, happ]
      · simp [Scanner.passes, herr]

theorem Scanner.fill_again (s : Scanner) (hwf : s.WF) (herr : s.err = none)
    (hroom : s.start = 0 → s.pending.length = s.bufLen →
      s.bufLen < s.maxTokenSize ∧ s.bufLen ≤ maxInt / 2) :
    ∃ s1, s.fill = .again s1 ∧ s1.WF ∧
      s1.pending ++ s1.r.data = s.pending ++ s.r.data ∧
      s1.maxTokenSize = s.maxTokenSize ∧ s1.r.final = s.r.final ∧
      s1.passes < s.passes ∧ s1.bufLen ≤ max s.bufLen s.maxTokenSize ∧
      s.bufLen ≤ s1.bufLen := by
  obtain ⟨hb, hd, hf⟩ := hwf
  obtain ⟨h1p, h1r, h1m, h1l, h1e, h1b, h1full, h1s⟩ := s.shift_spec hb
  have hnotfull : ¬ (s.shift.endIdx = s.shift.bufLen ∧
      (s.shift.maxTokenSize ≤ s.shift.bufLen ∨ maxInt / 2 < s.shift.bufLen)) := by
    rintro ⟨he, hc⟩
    obtain ⟨h0, hp⟩ := h1full.mp he
    have := hroom h0 hp
    rw [h1m, h1l] at hc
    omega
  have hg : s.shift.endIdx = s.shift.bufLen →
      s.shift.start = 0 ∧ s.shift.bufLen < s.shift.maxTokenSize := by
    intro he
    obtain ⟨h0, hp⟩ := h1full.mp he
    have := hroom h0 hp
    rw [h1m, h1l]
    exact ⟨h1s he, this.1⟩
  obtain ⟨h2p, h2r, h2m, h2e, h2b, h2l, h2g⟩ := s.shift.grow_spec h1b hg
  obtain ⟨s3, h3, h3wf, h3p, h3m, h3f, h3pass, h3l⟩ :=
    s.shift.grow.readMore_spec h2b (by rw [h2e, h1e]; exact herr)
  refine ⟨s3, ?_, h3wf, ?_, ?_, ?_, ?_, ?_, by rw [h3l, ← h1l]; exact h2g⟩
  · unfold Scanner.fill
    simp only [herr, Option.isSome_none, Bool.false_eq_true, if_false, hnotfull]
    exact h3
  · rw [h3p, h2p, h2r, h1p, h1r]
  · rw [h3m, h2m, h1m]
  · rw [h3f, h2r, h1r]
  · have : s.shift.grow.passes = s.passes := by
      simp only [Scanner.passes, h2e, h1e, h2r, h1r]
    omega
  · rw [h3l]
    rw [h1l, h1m] at h2l
    exact h2l

theorem Scanner.scanIter_noLF (s : Scanner) (hno : LF ∉ s.pending) (herr : s.err = none) :
    ∃ t, s.scanIter = Scanner.fill { s with tok := t } := by
  unfold Scanner.scanIter
  by_cases hp : s.pending = []
  · refine ⟨s.tok, ?_⟩
    have h : (!s.pending.isEmpty || s.err.isSome) = false := by simp [hp, herr]
    simp only [h, Bool.false_eq_true, if_false]
  · refine ⟨none, ?_⟩
    have hne : s.pending.isEmpty = false := by
      cases hpp : s.pending with
      | nil => exact absurd hpp hp
      | cons a as => rfl
    simp [hne, herr, ScanLines, IndexByte_none _ _ hno]

theorem Scanner.scanIter_LF (s : Scanner) (text rest : List Byte)
    (hp : s.pending = text ++ LF :: rest) (hno : LF ∉ text) :
    s.scanIter = .ret true
      { s with start := s.start + (text.length + 1), pending := rest, tok := some (dropCR text) } := by
  unfold Scanner.scanIter
  have hne : s.pending.isEmpty = false := by
    rw [hp]; cases text <;> rfl
  have hlen : ¬ (text.length + (rest.length + 1) < text.length + 1) := by omega
  have hdrop : List.drop (text.length + 1) (text ++ LF :: rest) = rest := by
    rw [List.drop_append_eq_append_drop]
    simp
  simp [hne, ScanLines, hp, IndexByte_append_cons _ _ _ hno, hlen, hdrop]

theorem split_at_LF (pending data text rest : List Byte)
    (hin : pending ++ data = text ++ LF :: rest) (hno : LF ∉ text) :
    (∃ p, pending = text ++ LF :: p ∧ rest = p ++ data) ∨
    (LF ∉ pending ∧ ∃ c, text = pending ++ c ∧ data = c ++ LF :: rest) := by
  rcases List.append_eq_append_iff.mp hin with ⟨a, h1, h2⟩ | ⟨c, h1, h2⟩
  · right
    refine ⟨?_, a, h1, h2⟩
    intro hmem
    exact hno (by rw [h1]; exact List.mem_append_left _ hmem)
  · cases c with
    | nil =>
      right
      simp only [List.append_nil] at h1
      simp only [List.nil_append] at h2
      exact ⟨by rw [h1]; exact hno, [], by simp [h1], by simp [h2]⟩
    | cons x xs =>
      simp only [List.cons_append, List.cons.injEq] at h2
      obtain ⟨hx, hrest⟩ := h2
      subst hx
      left
      exact ⟨xs, h1, hrest⟩

theorem Scanner.scanLoop_line (fuel : Nat) (s : Scanner) (text rest : List Byte)
    (hwf : s.WF) (hin : s.pending ++ s.r.data = text ++ LF :: rest) (hno : LF ∉ text)
    (hlen : text.length < s.maxTokenSize) (hmax : s.maxTokenSize ≤ maxInt / 2 + 1)
    (hfuel : s.passes ≤ fuel) :
    ∃ s1, s.scanLoop fuel = some (true, s1) ∧ s1.WF ∧ s1.tok = some (dropCR text) ∧
      s1.pending ++ s1.r.data = rest ∧ s1.maxTokenSize = s.maxTokenSize ∧
      s1.r.final = s.r.final ∧ s1.bufLen ≤ max s.bufLen s.maxTokenSize ∧
      s.bufLen ≤ s1.bufLen := by
  induction fuel generalizing s with
  | zero =>
    unfold Scanner.passes at hfuel
    split_ifs at hfuel <;> omega
  | succ fuel ih =>
    unfold Scanner.scanLoop
    rcases split_at_LF _ _ _ _ hin hno with ⟨p, hp, hrest⟩ | ⟨hnp, c, htext, hdata⟩
    · rw [s.scanIter_LF text p hp hno]
      refine ⟨_, rfl, ⟨?_, hwf.drained, hwf.fromReader⟩, rfl, hrest.symm, rfl, rfl,
        le_max_left _ _, le_refl _⟩
      have := hwf.bound
      rw [hp] at this
      simp only [List.length_append, List.length_cons] at this
      simp only
      omega
    · have herr : s.err = none := by
        by_contra hne
        have := hwf.drained hne
        rw [this] at hdata
        cases c <;> simp at hdata
      obtain ⟨t, hiter⟩ := s.scanIter_noLF hnp herr
      rw [hiter]
      have hwf1 : Scanner.WF { s with tok := t } := ⟨hwf.bound, hwf.drained, hwf.fromReader⟩
      have hplen : s.pending.length ≤ text.length := by
        rw [htext]; simp
      obtain ⟨s2, hfill, hwf2, hin2, hm2, hf2, hpass2, hb2, hg2⟩ :=
        Scanner.fill_again { s with tok := t } hwf1 herr (by
          intro _ hfull
          simp only at hfull ⊢
          omega)
      rw [hfill]
      simp only at hin2 hm2 hf2 hb2 hg2
      have hpass : Scanner.passes { s with tok := t } = s.passes := rfl
      obtain ⟨s3, h3, hwf3, htok3, hin3, hm3, hf3, hb3, hg3⟩ :=
        ih s2 hwf2 (by rw [hin2]; exact hin) (by rw [hm2]; exact hlen)
          (by rw [hm2]; exact hmax) (by omega)
      refine ⟨s3, h3, hwf3, htok3, hin3, by rw [hm3, hm2], by rw [hf3, hf2], ?_,
        le_trans hg2 hg3⟩
      rw [hm2] at hb3
      exact le_trans hb3 (max_le hb2 (le_max_right _ _))

theorem Scanner.scanLoop_drained (fuel : Nat) (s : Scanner) (hwf : s.WF)
    (hp : s.pending = []) (hd : s.r.data = []) (hbuf : 0 < s.bufLen)
    (hfuel : s.passes ≤ fuel) :
    ∃ s1, s.scanLoop fuel = some (false, s1) ∧ s1.err = some s.r.final := by
  induction fuel generalizing s with
  | zero =>
    unfold Scanner.passes at hfuel
    split_ifs at hfuel <;> omega
  | succ fuel ih =>
    unfold Scanner.scanLoop
    by_cases herr : s.err = none
    · obtain ⟨t, hiter⟩ := s.scanIter_noLF (by rw [hp]; simp) herr
      rw [hiter]
      have hwf1 : Scanner.WF { s with tok := t } := ⟨hwf.bound, hwf.drained, hwf.fromReader⟩
      obtain ⟨s2, hfill, hwf2, hin2, hm2, hf2, hpass2, hb2, hg2⟩ :=
        Scanner.fill_again { s with tok := t } hwf1 herr (by
          intro _ hfull
          simp only [hp, List.length_nil] at hfull
          omega)
      rw [hfill]
      simp only [hp, hd, List.append_nil, List.append_eq_nil] at hin2
      simp only at hf2 hg2
      have hpass : Scanner.passes { s with tok := t } = s.passes := rfl
      obtain ⟨s3, h3, he3⟩ := ih s2 hwf2 hin2.1 hin2.2 (by omega) (by omega)
      exact ⟨s3, h3, by rw [he3, hf2]⟩
    · have hfin : s.err = some s.r.final := by
        rcases hwf.fromReader with h | h
        · exact absurd h herr
        · exact h
      refine ⟨{ s with start := 0, pending := [], tok := none }, ?_, hfin⟩
      unfold Scanner.scanIter Scanner.fill
      simp [hp, hfin, ScanLines]

theorem Scanner.fill_full (s : Scanner) (herr : s.err = none) (h0 : s.start = 0)
    (hfull : s.pending.length = s.bufLen)
    (hmax : s.maxTokenSize ≤ s.bufLen ∨ maxInt / 2 < s.bufLen) :
    s.fill = .ret false { s with err := some GoError.ErrTooLong } := by
  have hshift : s.shift = s := by
    unfold Scanner.shift
    simp [h0]
  unfold Scanner.fill
  rw [hshift]
  have hend : s.endIdx = s.bufLen := by
    unfold Scanner.endIdx; omega
  simp [herr, hend, hmax, Scanner.setErr]

theorem Scanner.scanLoop_tooLong (fuel : Nat) (s : Scanner) (big rest : List Byte)
    (hwf : s.WF) (hin : s.pending ++ s.r.data = big ++ rest) (hno : LF ∉ big)
    (hbig : big.length = s.maxTokenSize) (hrest : rest ≠ [])
    (hbuf : s.bufLen ≤ s.maxTokenSize) (hfuel : s.passes ≤ fuel) :
    ∃ s1, s.scanLoop fuel = some (false, s1) ∧ s1.err = some GoError.ErrTooLong := by
  induction fuel generalizing s with
  | zero =>
    unfold Scanner.passes at hfuel
    split_ifs at hfuel <;> omega
  | succ fuel ih =>
    unfold Scanner.scanLoop
    have hb := hwf.bound
    have hrl : 0 < rest.length := List.length_pos.mpr hrest
    have hlenEq := congrArg List.length hin
    simp only [List.length_append] at hlenEq
    have hdata : s.r.data ≠ [] := by
      intro h
      rw [h] at hlenEq
      simp only [List.length_nil] at hlenEq
      omega
    have herr : s.err = none := by
      by_contra hne
      exact hdata (hwf.drained hne)
    have hnp : LF ∉ s.pending := by
      rcases List.append_eq_append_iff.mp hin with ⟨a, h1, h2⟩ | ⟨c, h1, h2⟩
      · intro hmem
        exact hno (by rw [h1]; exact List.mem_append_left _ hmem)
      · have hc : c = [] := by
          have := congrArg List.length h1
          simp only [List.length_append] at this
          exact List.length_eq_zero.mp (by omega)
        rw [hc, List.append_nil] at h1
        rw [h1]; exact hno
    obtain ⟨t, hiter⟩ := s.scanIter_noLF hnp herr
    rw [hiter]
    have hwf1 : Scanner.WF { s with tok := t } := ⟨hwf.bound, hwf.drained, hwf.fromReader⟩
    by_cases hfull : s.start = 0 ∧ s.pending.length = s.bufLen ∧
        (s.maxTokenSize ≤ s.bufLen ∨ maxInt / 2 < s.bufLen)
    · rw [Scanner.fill_full { s with tok := t } herr hfull.1 hfull.2.1 hfull.2.2]
      exact ⟨_, rfl, rfl⟩
    · obtain ⟨s2, hfill, hwf2, hin2, hm2, hf2, hpass2, hb2, hg2⟩ :=
        Scanner.fill_again { s with tok := t } hwf1 herr (by
          intro h0 hf
          simp only at h0 hf ⊢
          by_contra hc
          exact hfull ⟨h0, hf, by omega⟩)
      rw [hfill]
      simp only at hin2 hm2 hb2
      have hpass : Scanner.passes { s with tok := t } = s.passes := rfl
      exact ih s2 hwf2 (by rw [hin2]; exact hin) (by rw [hm2]; exact hbig)
        (by rw [hm2]; exact le_trans hb2 (max_le hbuf (le_refl _))) (by omega)

theorem Scanner.passes_le (s : Scanner) : s.passes ≤ s.r.data.length + 2 := by
  unfold Scanner.passes
  split_ifs <;> omega

theorem Scanner.Scan_line (s : Scanner) (text rest : List Byte)
    (hwf : s.WF) (hin : s.pending ++ s.r.data = text ++ LF :: rest) (hno : LF ∉ text)
    (hlen : text.length < s.maxTokenSize) (hmax : s.maxTokenSize ≤ maxInt / 2 + 1) :
    ∃ s1, s.Scan = (true, s1) ∧ s1.WF ∧ s1.tok = some (dropCR text) ∧
      s1.pending ++ s1.r.data = rest ∧ s1.maxTokenSize = s.maxTokenSize ∧
      s1.r.final = s.r.final ∧ s1.bufLen ≤ max s.bufLen s.maxTokenSize ∧
      s.bufLen ≤ s1.bufLen := by
  obtain ⟨s1, h, rest1⟩ := s.scanLoop_line _ text rest hwf hin hno hlen hmax s.passes_le
  exact ⟨s1, by unfold Scanner.Scan; rw [h]; rfl, rest1⟩

theorem Scanner.Scan_drained (s : Scanner) (hwf : s.WF)
    (hp : s.pending = []) (hd : s.r.data = []) (hbuf : 0 < s.bufLen) :
    ∃ s1, s.Scan = (false, s1) ∧ s1.err = some s.r.final := by
  obtain ⟨s1, h, rest1⟩ := s.scanLoop_drained _ hwf hp hd hbuf s.passes_le
  exact ⟨s1, by unfold Scanner.Scan; rw [h]; rfl, rest1⟩

theorem Scanner.Scan_tooLong (s : Scanner) (big rest : List Byte)
    (hwf : s.WF) (hin : s.pending ++ s.r.data = big ++ rest) (hno : LF ∉ big)
    (hbig : big.length = s.maxTokenSize) (hrest : rest ≠ [])
    (hbuf : s.bufLen ≤ s.maxTokenSize) :
    ∃ s1, s.Scan = (false, s1) ∧ s1.err = some GoError.ErrTooLong := by
  obtain ⟨s1, h, rest1⟩ :=
    s.scanLoop_tooLong _ big rest hwf hin hno hbig hrest hbuf s.passes_le
  exact ⟨s1, by unfold Scanner.Scan; rw [h]; rfl, rest1⟩

theorem dropCR_append_CR (text : List Byte) : dropCR (text ++ [CR]) = text := by
  simp [dropCR]

theorem dropCR_of_ne (text : List Byte) (h : text.getLast? ≠ some CR) : dropCR text = text := by
  simp [dropCR, h]

theorem Line.raw_eq (l : Line) : l.raw = l.beforeLF ++ [LF] := by
  unfold Line.raw Line.beforeLF
  cases l.crlf <;> simp

theorem Line.dropCR_beforeLF (l : Line) (h : l.WellFormed) : dropCR l.beforeLF = l.text := by
  unfold Line.beforeLF
  cases hc : l.crlf
  · simpa using dropCR_of_ne _ (h.2 hc)
  · simpa using dropCR_append_CR _

theorem Line.LF_not_mem_beforeLF (l : Line) (h : l.WellFormed) : LF ∉ l.beforeLF := by
  unfold Line.beforeLF
  cases l.crlf
  · simpa using h.1
  · simp only [if_true, List.mem_append, List.mem_singleton, not_or]
    exact ⟨h.1, by decide⟩

theorem encode_cons (l : Line) (ls : List Line) :
    encode (l :: ls) = l.beforeLF ++ LF :: encode ls := by
  simp [encode, Line.raw_eq]

theorem scanAndSend_lines (lines : List Line) (tail : List Byte) (fuel : Nat) (s : Scanner)
    (hwf : s.WF) (hin : s.pending ++ s.r.data = encode lines ++ tail)
    (hl : ∀ l ∈ lines, l.WellFormed ∧ l.raw.length ≤ s.maxTokenSize)
    (hmax : s.maxTokenSize ≤ maxInt / 2 + 1)
    (hfuel : s.pending.length + s.r.data.length + 1 ≤ fuel) :
    ∃ s1 fuel1, s1.WF ∧ s1.pending ++ s1.r.data = tail ∧
      s1.maxTokenSize = s.maxTokenSize ∧ s1.r.final = s.r.final ∧
      s1.bufLen ≤ max s.bufLen s.maxTokenSize ∧ s.bufLen ≤ s1.bufLen ∧
      s1.pending.length + s1.r.data.length + 1 ≤ fuel1 ∧
      scanAndSend fuel s = (scanAndSend fuel1 s1).map
        (fun p => (lines.map (fun l => some l.text) ++ p.1, p.2)) := by
  induction lines generalizing fuel s with
  | nil =>
    refine ⟨s, fuel, hwf, by simpa [encode] using hin, rfl, rfl, le_max_left _ _, le_refl _,
      hfuel, ?_⟩
    cases h : scanAndSend fuel s <;> simp
  | cons l ls ih =>
    cases fuel with
    | zero => omega
    | succ fuel =>
      obtain ⟨hlw, hll⟩ := hl l (by simp)
      rw [encode_cons, List.append_assoc, List.cons_append] at hin
      have hlen : l.beforeLF.length < s.maxTokenSize := by
        rw [Line.raw_eq] at hll
        simp only [List.length_append, List.length_singleton] at hll
        omega
      obtain ⟨s1, h1, hwf1, htok, hin1, hm1, hf1, hb1, hg1⟩ :=
        s.Scan_line l.beforeLF (encode ls ++ tail) hwf hin (l.LF_not_mem_beforeLF hlw) hlen hmax
      have hmeasure : s1.pending.length + s1.r.data.length + 1 ≤ fuel := by
        have h2 := congrArg List.length hin
        have h3 := congrArg List.length hin1
        simp only [List.length_append, List.length_cons] at h2 h3
        omega
      obtain ⟨s2, fuel2, hwf2, hin2, hm2, hf2, hb2, hg2, hfu2, h2⟩ := ih fuel s1 hwf1 hin1
        (fun x hx => by rw [hm1]; exact hl x (List.mem_cons_of_mem _ hx))
        (by rw [hm1]; exact hmax) hmeasure
      refine ⟨s2, fuel2, hwf2, hin2, by rw [hm2, hm1], by rw [hf2, hf1], ?_,
        le_trans hg1 hg2, hfu2, ?_⟩
      · rw [hm1] at hb2
        exact le_trans hb2 (max_le hb1 (le_max_right _ _))
      · simp only [scanAndSend, h1, h2, Scanner.Bytes, htok, appendToEmpty,
          l.dropCR_beforeLF hlw, Option.getD_some, List.map_cons]
        cases scanAndSend fuel2 s2 <;> simp

theorem scanAndSend_drained (fuel : Nat) (s : Scanner) (hwf : s.WF)
    (hin : s.pending ++ s.r.data = []) (hbuf : 0 < s.bufLen) (hfuel : 1 ≤ fuel) :
    ∃ s1, scanAndSend fuel s = some ([], s1) ∧ s1.err = some s.r.final := by
  cases fuel with
  | zero => omega
  | succ fuel =>
    simp only [List.append_eq_nil] at hin
    obtain ⟨s1, h1, he⟩ := s.Scan_drained hwf hin.1 hin.2 hbuf
    exact ⟨s1, by simp [scanAndSend, h1], he⟩

theorem scanAndSend_tooLong (fuel : Nat) (s : Scanner) (big rest : List Byte)
    (hwf : s.WF) (hin : s.pending ++ s.r.data = big ++ rest) (hno : LF ∉ big)
    (hbig : big.length = s.maxTokenSize) (hrest : rest ≠ [])
    (hbuf : s.bufLen ≤ s.maxTokenSize) (hfuel : 1 ≤ fuel) :
    ∃ s1, scanAndSend fuel s = some ([], s1) ∧ s1.err = some GoError.ErrTooLong := by
  cases fuel with
  | zero => omega
  | succ fuel =>
    obtain ⟨s1, h1, he⟩ := s.Scan_tooLong big rest hwf hin hno hbig hrest hbuf
    exact ⟨s1, by simp [scanAndSend, h1], he⟩

theorem initial_WF (r : Reader) (max : Nat) :
    ((NewScanner r).Buffer MaxScanTokenSize max).WF :=
  ⟨by simp [NewScanner, Scanner.Buffer], fun h => absurd rfl h, Or.inl rfl⟩

theorem linesTask_lines (lines : List Line) (chunks : List Nat) (eager : Bool) (max : Nat)
    (hl : ∀ l ∈ lines, l.WellFormed ∧ l.raw.length ≤ max) (hmax : max ≤ maxInt / 2 + 1) :
    linesTask ((NewScanner
        { data := encode lines, final := GoError.EOF, chunks := chunks, eager := eager }).Buffer
        MaxScanTokenSize max)
      = lines.map (fun l => ChanOp.sendLine (some l.text))
        ++ [ChanOp.closeLines, ChanOp.closeErrs] := by
  obtain ⟨s1, fuel1, hwf1, hin1, hm1, hf1, hb1, hg1, hfu1, h1⟩ :=
    scanAndSend_lines lines [] _ _
      (initial_WF ⟨encode lines, GoError.EOF, chunks, eager⟩ max)
      (by simp [NewScanner, Scanner.Buffer]) hl hmax (le_refl _)
  obtain ⟨s2, h2, he2⟩ := scanAndSend_drained fuel1 s1 hwf1 hin1
    (lt_of_lt_of_le (by simp [NewScanner, Scanner.Buffer, MaxScanTokenSize]) hg1) (by omega)
  unfold linesTask
  rw [h1, h2]
  have herr : s2.Err = none := by
    unfold Scanner.Err
    rw [he2, hf1]
    simp [NewScanner, Scanner.Buffer]
  simp [herr, List.map_map, Function.comp_def]

theorem linesTask_longLine (pre : List Line) (long after : List Byte) (final : GoError)
    (chunks : List Nat) (eager : Bool) (max : Nat)
    (hl : ∀ l ∈ pre, l.WellFormed ∧ l.raw.length ≤ max) (hmax : max ≤ maxInt / 2 + 1)
    (hcap : MaxScanTokenSize ≤ max) (hlong : max < long.length) (hno : LF ∉ long.dropLast) :
    linesTask ((NewScanner
        { data := encode pre ++ (long ++ after), final := final, chunks := chunks,
          eager := eager }).Buffer MaxScanTokenSize max)
      = pre.map (fun l => ChanOp.sendLine (some l.text))
        ++ [ChanOp.sendErr (some GoError.ErrTooLong), ChanOp.closeLines, ChanOp.closeErrs] := by
  obtain ⟨s1, fuel1, hwf1, hin1, hm1, hf1, hb1, hg1, hfu1, h1⟩ :=
    scanAndSend_lines pre (long ++ after) _ _
      (initial_WF ⟨encode pre ++ (long ++ after), final, chunks, eager⟩ max)
      (by simp [NewScanner, Scanner.Buffer]) hl hmax (le_refl _)
  have hsplit : long ++ after = long.take max ++ (long.drop max ++ after) := by
    rw [← List.append_assoc, List.take_append_drop]
  have hnoBig : LF ∉ long.take max := by
    intro hmem
    apply hno
    rw [List.dropLast_eq_take]
    have hle : max ≤ long.length - 1 := by omega
    rw [← Nat.min_eq_left hle, ← List.take_take] at hmem
    exact List.mem_of_mem_take hmem
  have hrest : long.drop max ++ after ≠ [] := by
    intro h
    have := congrArg List.length h
    simp only [List.length_append, List.length_drop, List.length_nil] at this
    omega
  have hbuf : s1.bufLen ≤ s1.maxTokenSize := by
    rw [hm1]
    refine le_trans hb1 ?_
    simp only [NewScanner, Scanner.Buffer]
    exact max_le hcap (le_refl _)
  obtain ⟨s2, h2, he2⟩ := scanAndSend_tooLong fuel1 s1 (long.take max) (long.drop max ++ after)
    hwf1 (by rw [hin1, hsplit]) hnoBig
    (by rw [hm1, List.length_take]; simp only [NewScanner, Scanner.Buffer]; omega)
    hrest hbuf (by omega)
  unfold linesTask
  rw [h1, h2]
  have herr : s2.Err = some GoError.ErrTooLong := by
    unfold Scanner.Err
    rw [he2]
    simp
  simp [herr, List.map_map, Function.comp_def]

theorem Reader.Read_data (r : Reader) (cap : Nat) :
    (r.Read cap).1 ++ (r.Read cap).2.2.data = r.data := by
  unfold Reader.Read
  split_ifs with h1 h2
  · simp at h1; simp [h1]
  · simp
  · simp only
    split_ifs <;> simp

theorem Reader.Read_progress (r : Reader) (cap : Nat) (hout : (r.Read cap).1 ≠ []) :
    (r.Read cap).2.2.data.length < r.data.length := by
  have h := congrArg List.length (r.Read_data cap)
  have hpos : 0 < (r.Read cap).1.length := List.length_pos.mpr hout
  simp only [List.length_append] at h
  omega

@[simp] theorem Scanner.shift_pending (s : Scanner) : s.shift.pending = s.pending := by
  unfold Scanner.shift; split_ifs <;> rfl

@[simp] theorem Scanner.shift_r (s : Scanner) : s.shift.r = s.r := by
  unfold Scanner.shift; split_ifs <;> rfl

@[simp] theorem Scanner.shift_err (s : Scanner) : s.shift.err = s.err := by
  unfold Scanner.shift; split_ifs <;> rfl

@[simp] theorem Scanner.grow_pending (s : Scanner) : s.grow.pending = s.pending := by
  unfold Scanner.grow; split_ifs <;> rfl

@[simp] theorem Scanner.grow_r (s : Scanner) : s.grow.r = s.r := by
  unfold Scanner.grow; split_ifs <;> rfl

@[simp] theorem Scanner.grow_err (s : Scanner) : s.grow.err = s.err := by
  unfold Scanner.grow; split_ifs <;> rfl

theorem Scanner.readMore_general (s : Scanner) (herr : s.err = none) :
    ∃ s1, s.readMore = .again s1 ∧ s1.passes < s.passes ∧
      s1.pending ++ s1.r.data = s.pending ++ s.r.data := by
  unfold Scanner.readMore
  have hd := s.r.Read_data (s.bufLen - s.endIdx)
  have hp := s.r.Read_progress (s.bufLen - s.endIdx)
  rcases hread : s.r.Read (s.bufLen - s.endIdx) with ⟨out, e, r1⟩
  rw [hread] at hd hp
  simp only at hd hp ⊢
  cases e with
  | some e1 =>
    simp only [Scanner.setErr, herr, true_or, if_true]
    exact ⟨_, rfl, by simp [Scanner.passes, herr], by simp [List.append_assoc, hd]⟩
  | none =>
    cases out with
    | nil =>
      simp only [List.isEmpty_nil, if_true, Scanner.setErr, herr, true_or]
      exact ⟨_, rfl, by simp [Scanner.passes, herr], by simpa using hd⟩
    | cons a as =>
      simp only [List.isEmpty_cons, Bool.false_eq_true, if_false]
      refine ⟨_, rfl, ?_, by simp [List.append_assoc, hd]⟩
      have := hp (by simp)
      simp only [Scanner.passes, herr, if_true]
      omega

theorem Scanner.fill_general (s : Scanner) :
    (∃ s1, s.fill = .ret false s1) ∨
    (∃ s1, s.fill = .again s1 ∧ s1.passes < s.passes ∧
      s1.pending ++ s1.r.data = s.pending ++ s.r.data) := by
  unfold Scanner.fill
  by_cases h1 : s.err.isSome = true
  · simp only [h1, if_true]
    exact Or.inl ⟨_, rfl⟩
  · simp only [h1, Bool.false_eq_true, if_false]
    by_cases h2 : s.shift.endIdx = s.shift.bufLen ∧
        (s.shift.maxTokenSize ≤ s.shift.bufLen ∨ maxInt / 2 < s.shift.bufLen)
    · simp only [h2, and_self, if_true]
      exact Or.inl ⟨_, rfl⟩
    · simp only [h2, if_false]
      right
      have herr : s.err = none := by
        cases he : s.err with
        | none => rfl
        | some e => simp [he] at h1
      obtain ⟨s1, h, hp, hd⟩ := s.shift.grow.readMore_general (by simp [herr])
      refine ⟨s1, h, ?_, by simpa using hd⟩
      have : s.shift.grow.passes = s.passes := by simp [Scanner.passes]
      omega

theorem ScanLines_none (data : List Byte) (atEOF : Bool) (h : (ScanLines data atEOF).2 = none) :
    (ScanLines data atEOF).1 = 0 := by
  unfold ScanLines at h ⊢
  cases atEOF <;> cases data <;> cases hi : IndexByte _ LF <;> simp_all

theorem ScanLines_some (data : List Byte) (atEOF : Bool)
    (h : (ScanLines data atEOF).2.isSome = true) : 1 ≤ (ScanLines data atEOF).1 := by
  unfold ScanLines at h ⊢
  cases atEOF <;> cases data <;> cases hi : IndexByte _ LF <;> simp_all

theorem Scanner.scanIter_general (s : Scanner) :
    (∃ s1, s.scanIter = .ret false s1) ∨
    (∃ s1, s.scanIter = .ret true s1 ∧ s1.unread < s.unread) ∨
    (∃ s1, s.scanIter = .again s1 ∧ s1.passes < s.passes ∧
      s1.pending ++ s1.r.data = s.pending ++ s.r.data) := by
  unfold Scanner.scanIter
  split_ifs with h1
  · have hn := ScanLines_none s.pending s.err.isSome
    have hs := ScanLines_some s.pending s.err.isSome
    rcases hsl : ScanLines s.pending s.err.isSome with ⟨adv, token⟩
    rw [hsl] at hn hs
    simp only at hn hs ⊢
    split_ifs with h2 h3
    · exact Or.inl ⟨_, rfl⟩
    · right; left
      refine ⟨_, rfl, ?_⟩
      have := hs h3
      simp only [Scanner.unread, List.length_drop]
      omega
    · have htok : token = none := by
        cases token with
        | none => rfl
        | some t => simp at h3
      have hadv := hn htok
      subst hadv
      rcases Scanner.fill_general
        { s with start := s.start + 0, pending := s.pending.drop 0, tok := token } with
        ⟨s1, h⟩ | ⟨s1, h, hp, hd⟩
      · exact Or.inl ⟨s1, h⟩
      · right; right
        exact ⟨s1, h, by simpa [Scanner.passes] using hp, by simpa using hd⟩
  · rcases s.fill_general with ⟨s1, h⟩ | ⟨s1, h, hp, hd⟩
    · exact Or.inl ⟨s1, h⟩
    · right; right
      exact ⟨s1, h, hp, hd⟩

theorem Scanner.scanLoop_general (fuel : Nat) (s : Scanner) (hfuel : s.passes ≤ fuel) :
    (∃ s1, s.scanLoop fuel = some (false, s1)) ∨
    (∃ s1, s.scanLoop fuel = some (true, s1) ∧ s1.unread < s.unread) := by
  induction fuel generalizing s with
  | zero =>
    unfold Scanner.passes at hfuel
    split_ifs at hfuel <;> omega
  | succ fuel ih =>
    unfold Scanner.scanLoop
    rcases s.scanIter_general with ⟨s1, h⟩ | ⟨s1, h, hu⟩ | ⟨s1, h, hp, hd⟩
    · rw [h]; exact Or.inl ⟨s1, rfl⟩
    · rw [h]; exact Or.inr ⟨s1, rfl, hu⟩
    · rw [h]
      simp only
      have hun : s1.unread = s.unread := by
        have := congrArg List.length hd
        simp only [List.length_append] at this
        exact this
      rcases ih s1 (by omega) with ⟨s2, h2⟩ | ⟨s2, h2, hu2⟩
      · exact Or.inl ⟨s2, h2⟩
      · exact Or.inr ⟨s2, h2, by omega⟩

theorem Scanner.Scan_general (s : Scanner) :
    (∃ s1, s.Scan = (false, s1)) ∨ (∃ s1, s.Scan = (true, s1) ∧ s1.unread < s.unread) := by
  unfold Scanner.Scan
  rcases s.scanLoop_general _ s.passes_le with ⟨s1, h⟩ | ⟨s1, h, hu⟩
  · rw [h]; exact Or.inl ⟨s1, rfl⟩
  · rw [h]; exact Or.inr ⟨s1, rfl, hu⟩

theorem scanAndSend_general (fuel : Nat) (s : Scanner) (hfuel : s.unread + 1 ≤ fuel) :
    ∃ bs s1, scanAndSend fuel s = some (bs, s1) ∧ ∀ b ∈ bs, b ≠ none := by
  induction fuel generalizing s with
  | zero => omega
  | succ fuel ih =>
    unfold scanAndSend
    rcases s.Scan_general with ⟨s1, h⟩ | ⟨s1, h, hu⟩
    · rw [h]; exact ⟨[], s1, rfl, by simp⟩
    · rw [h]
      obtain ⟨bs, s2, h2, hb⟩ := ih s1 (by omega)
      simp only [h2]
      refine ⟨_, s2, rfl, ?_⟩
      intro b hmem
      rcases List.mem_cons.mp hmem with hb1 | hb1
      · rw [hb1]; simp [appendToEmpty]
      · exact hb b hb1

theorem linesTask_shape (contents : Scanner) : TaskShape (linesTask contents) := by
  obtain ⟨bs, s1, h, hb⟩ := scanAndSend_general
    (contents.pending.length + contents.r.data.length + 1) contents (le_refl _)
  unfold linesTask
  rw [h]
  simp only
  by_cases he : s1.Err = none
  · exact ⟨bs, [], by simp [he], hb, by simp, by simp⟩
  · exact ⟨bs, [s1.Err], by simp [he], hb, by simpa using he, by simp⟩

theorem fileTask_shape (factor : Nat) (rawf : GzFile) (h : rawf.header = none) :
    TaskShape (fileTask factor rawf) := by
  unfold fileTask LinesOfGZ gzipNewReader
  simp only [h, Option.getD_some]
  exact linesTask_shape _

theorem LinesOfGZ_err (factor : Nat) (rawf : GzFile) :
    (LinesOfGZ factor rawf).err = rawf.header := by
  unfold LinesOfGZ gzipNewReader
  cases rawf.header <;> rfl

theorem taskLines_append (a b : List ChanOp) : taskLines (a ++ b) = taskLines a ++ taskLines b := by
  simp [taskLines, List.filterMap_append]

theorem taskErrs_append (a b : List ChanOp) : taskErrs (a ++ b) = taskErrs a ++ taskErrs b := by
  simp [taskErrs, List.filterMap_append]

theorem TaskTail_of_shape (ops : List ChanOp) (h : TaskShape ops) : TaskTail ops false false := by
  obtain ⟨bs, es, hops, hb, he, -⟩ := h
  refine Or.inl ⟨rfl, rfl, bs.map ChanOp.sendLine ++ es.map ChanOp.sendErr, hops, ?_⟩
  intro op hop
  rcases List.mem_append.mp hop with h1 | h1
  · obtain ⟨b, hbm, rfl⟩ := List.mem_map.mp h1
    exact hb b hbm
  · obtain ⟨e, hem, rfl⟩ := List.mem_map.mp h1
    exact he e hem

theorem TaskTail_sendLine (l : Slice) (rest : List ChanOp) (lc ec : Bool)
    (h : TaskTail (ChanOp.sendLine l :: rest) lc ec) :
    lc = false ∧ ec = false ∧ l ≠ none ∧ TaskTail rest false false := by
  rcases h with ⟨h1, h2, sends, hs, hall⟩ | ⟨-, -, h3⟩ | ⟨-, -, h3⟩
  · cases sends with
    | nil => simp at hs
    | cons x xs =>
      simp only [List.cons_append, List.cons.injEq] at hs
      obtain ⟨hx, hrest⟩ := hs
      subst hx
      have hl : (ChanOp.sendLine l).IsSend := hall _ (by simp)
      exact ⟨h1, h2, hl, Or.inl ⟨rfl, rfl, xs, hrest, fun op hop => hall op (by simp [hop])⟩⟩
  · simp at h3
  · simp at h3

theorem TaskTail_sendErr (e : error) (rest : List ChanOp) (lc ec : Bool)
    (h : TaskTail (ChanOp.sendErr e :: rest) lc ec) :
    lc = false ∧ ec = false ∧ e ≠ none ∧ TaskTail rest false false := by
  rcases h with ⟨h1, h2, sends, hs, hall⟩ | ⟨-, -, h3⟩ | ⟨-, -, h3⟩
  · cases sends with
    | nil => simp at hs
    | cons x xs =>
      simp only [List.cons_append, List.cons.injEq] at hs
      obtain ⟨hx, hrest⟩ := hs
      subst hx
      have hl : (ChanOp.sendErr e).IsSend := hall _ (by simp)
      exact ⟨h1, h2, hl, Or.inl ⟨rfl, rfl, xs, hrest, fun op hop => hall op (by simp [hop])⟩⟩
  · simp at h3
  · simp at h3

theorem TaskTail_closeLines (rest : List ChanOp) (lc ec : Bool)
    (h : TaskTail (ChanOp.closeLines :: rest) lc ec) :
    lc = false ∧ ec = false ∧ TaskTail rest true false := by
  rcases h with ⟨h1, h2, sends, hs, hall⟩ | ⟨-, -, h3⟩ | ⟨-, -, h3⟩
  · cases sends with
    | nil =>
      simp only [List.nil_append, List.cons.injEq, true_and] at hs
      exact ⟨h1, h2, Or.inr (Or.inl ⟨rfl, rfl, hs⟩)⟩
    | cons x xs =>
      simp only [List.cons_append, List.cons.injEq] at hs
      have := hall x (by simp)
      rw [← hs.1] at this
      exact absurd this (by simp [ChanOp.IsSend])
  · simp at h3
  · simp at h3

theorem TaskTail_closeErrs (rest : List ChanOp) (lc ec : Bool)
    (h : TaskTail (ChanOp.closeErrs :: rest) lc ec) :
    lc = true ∧ ec = false ∧ TaskTail rest true true := by
  rcases h with ⟨h1, h2, sends, hs, hall⟩ | ⟨h1, h2, h3⟩ | ⟨-, -, h3⟩
  · cases sends with
    | nil => simp at hs
    | cons x xs =>
      simp only [List.cons_append, List.cons.injEq] at hs
      have := hall x (by simp)
      rw [← hs.1] at this
      exact absurd this (by simp [ChanOp.IsSend])
  · simp only [List.cons.injEq, true_and] at h3
    exact ⟨h1, h2, Or.inr (Or.inr ⟨rfl, rfl, h3⟩)⟩
  · simp at h3

theorem TaskTail_closed (prod : List ChanOp) (lc ec : Bool) (h : TaskTail prod lc ec)
    (hc : lc = true ∨ ec = true) : taskLines prod = [] ∧ taskErrs prod = [] := by
  rcases h with ⟨h1, h2, -⟩ | ⟨-, -, h3⟩ | ⟨-, -, h3⟩
  · rcases hc with hc | hc
    · rw [h1] at hc; cases hc
    · rw [h2] at hc; cases hc
  · subst h3; exact ⟨rfl, rfl⟩
  · subst h3; exact ⟨rfl, rfl⟩

theorem TaskTail_nil (lc ec : Bool) (h : TaskTail [] lc ec) : lc = true ∧ ec = true := by
  rcases h with ⟨-, -, sends, hs, -⟩ | ⟨-, -, h3⟩ | ⟨h1, h2, -⟩
  · cases sends <;> simp at hs
  · simp at h3
  · exact ⟨h1, h2⟩

theorem Running_closeLines (factor : Nat) (rawf : GzFile) (pc pc1 : Pc) (rest : List ChanOp)
    (lc ec : Bool) (ls : List Slice) (es : List error)
    (h : Worker.Running factor ⟨rawf, pc, ChanOp.closeLines :: rest, lc, ec⟩ ls es) :
    lc = false ∧ Worker.Running factor ⟨rawf, pc1, rest, true, ec⟩ ls es := by
  obtain ⟨hh, ht, hl, he⟩ := h
  obtain ⟨h1, h2, h3⟩ := TaskTail_closeLines _ _ _ ht
  simp only at h2
  subst h2
  exact ⟨h1, hh, h3, by simpa [taskLines] using hl, by simpa [taskErrs] using he⟩

theorem Running_closeErrs (factor : Nat) (rawf : GzFile) (pc pc1 : Pc) (rest : List ChanOp)
    (lc ec : Bool) (ls : List Slice) (es : List error)
    (h : Worker.Running factor ⟨rawf, pc, ChanOp.closeErrs :: rest, lc, ec⟩ ls es) :
    ec = false ∧ Worker.Running factor ⟨rawf, pc1, rest, lc, true⟩ ls es := by
  obtain ⟨hh, ht, hl, he⟩ := h
  obtain ⟨h1, h2, h3⟩ := TaskTail_closeErrs _ _ _ ht
  simp only at h1
  subst h1
  exact ⟨h2, hh, h3, by simpa [taskLines] using hl, by simpa [taskErrs] using he⟩

theorem Running_sendLine (factor : Nat) (rawf : GzFile) (pc pc1 : Pc) (l : Slice)
    (rest : List ChanOp) (lc ec : Bool) (ls : List Slice) (es : List error)
    (h : Worker.Running factor ⟨rawf, pc, ChanOp.sendLine l :: rest, lc, ec⟩ ls es) :
    lc = false ∧ l ≠ none ∧ Worker.Running factor ⟨rawf, pc1, rest, lc, ec⟩ (ls ++ [l]) es := by
  obtain ⟨hh, ht, hl, he⟩ := h
  obtain ⟨h1, h2, h3, h4⟩ := TaskTail_sendLine _ _ _ _ ht
  simp only at h1 h2
  subst h1 h2
  exact ⟨rfl, h3, hh, h4, by simpa [taskLines] using hl, by simpa [taskErrs] using he⟩

theorem Running_sendErr (factor : Nat) (rawf : GzFile) (pc pc1 : Pc) (e : error)
    (rest : List ChanOp) (lc ec : Bool) (ls : List Slice) (es : List error)
    (h : Worker.Running factor ⟨rawf, pc, ChanOp.sendErr e :: rest, lc, ec⟩ ls es) :
    ec = false ∧ e ≠ none ∧ Worker.Running factor ⟨rawf, pc1, rest, lc, ec⟩ ls (es ++ [e]) := by
  obtain ⟨hh, ht, hl, he⟩ := h
  obtain ⟨h1, h2, h3, h4⟩ := TaskTail_sendErr _ _ _ _ ht
  simp only at h1 h2
  subst h1 h2
  exact ⟨rfl, h3, hh, h4, by simpa [taskLines] using hl, by simpa [taskErrs] using he⟩

theorem Running_pc (factor : Nat) (rawf : GzFile) (pc pc1 : Pc) (prod : List ChanOp)
    (lc ec : Bool) (ls : List Slice) (es : List error)
    (h : Worker.Running factor ⟨rawf, pc, prod, lc, ec⟩ ls es) :
    Worker.Running factor ⟨rawf, pc1, prod, lc, ec⟩ ls es := h

theorem keeps_blocked (factor : Nat) (w : Worker) (ls : List Slice) (es : List error) :
    WResult.blocked.Keeps factor w ls es := trivial

theorem keeps_next (factor : Nat) (w w1 : Worker) (ls : List Slice) (es : List error)
    (fin : Bool) (out : Option Delivery)
    (h1 : w1.Inv factor (ls ++ Delivery.lines out) (es ++ Delivery.errs out))
    (h2 : w1.rawf = w.rawf) (h3 : fin = true → w.pc ≠ .done ∧ w1.pc = .done)
    (h4 : fin = false → (w1.pc = .done ↔ w.pc = .done)) :
    (WResult.next w1 fin out).Keeps factor w ls es := ⟨h1, h2, h3, h4⟩

theorem inv_silent (factor : Nat) (w : Worker) (ls : List Slice) (es : List error)
    (h : w.Inv factor ls es) :
    w.Inv factor (ls ++ Delivery.lines none) (es ++ Delivery.errs none) := by
  simpa [Delivery.lines, Delivery.errs] using h

theorem Worker.step_keeps (factor : Nat) (lcC ecC recv : Bool) (w : Worker) (a : WAct)
    (ls : List Slice) (es : List error) (hinv : w.Inv factor ls es)
    (hclosed : (lcC = true ∨ ecC = true) → w.pc = .done) :
    (sendFromFile factor lcC ecC recv w a).Keeps factor w ls es := by
  obtain ⟨rawf, pc, prod, lc, ec⟩ := w
  cases a with
  | start =>
    cases pc <;> simp only [sendFromFile] <;> try exact keeps_blocked _ _ _ _
    simp only [Worker.Inv] at hinv
    obtain ⟨hp, hlc, hec, hls, hes⟩ := hinv
    change prod = [] at hp
    change lc = false at hlc
    change ec = false at hec
    subst hp hlc hec hls hes
    have herr := LinesOfGZ_err factor rawf
    cases hh : rawf.header with
    | some e =>
      rw [hh] at herr
      simp only [herr]
      refine keeps_next _ _ _ _ _ _ _ (inv_silent _ _ _ _ ?_) rfl (by simp) (by simp)
      exact ⟨hh, rfl, rfl, rfl⟩
    | none =>
      rw [hh] at herr
      simp only [herr]
      refine keeps_next _ _ _ _ _ _ _ (inv_silent _ _ _ _ ?_) rfl (by simp) (by simp)
      exact ⟨hh, TaskTail_of_shape _ (fileTask_shape factor rawf hh), by simp [fileTask],
        by simp [fileTask]⟩
  | recvLine =>
    cases pc <;> simp only [sendFromFile] <;> try exact keeps_blocked _ _ _ _
    have hrun : Worker.Running factor ⟨rawf, Pc.selecting, prod, lc, ec⟩ ls es := hinv
    have hdone : lc = true → (WResult.next ⟨rawf, Pc.done, prod, lc, ec⟩ true none).Keeps factor
        ⟨rawf, Pc.selecting, prod, lc, ec⟩ ls es := fun hlc =>
      keeps_next _ _ _ _ _ _ _ (inv_silent _ _ _ _ (Or.inr ⟨hrun, Or.inl hlc⟩)) rfl
        (by simp) (by simp)
    cases prod with
    | nil =>
      have := (TaskTail_nil _ _ hrun.2.1).1
      change lc = true at this
      subst this
      simp only [if_true]
      exact hdone rfl
    | cons op rest =>
      cases op with
      | sendLine l =>
        obtain ⟨h1, h2, h3⟩ := Running_sendLine factor rawf _ (Pc.fwdLine l) l rest lc ec ls es hrun
        subst h1
        simp only [Bool.false_eq_true, if_false, h2]
        refine keeps_next _ _ _ _ _ _ _ ?_ rfl (by simp) (by simp)
        simp only [Delivery.lines, Delivery.errs, List.append_nil]
        exact ⟨h2, h3⟩
      | sendErr e =>
        simp only
        split_ifs with hlc
        · exact hdone hlc
        · exact keeps_blocked _ _ _ _
      | closeLines =>
        simp only
        split_ifs with hlc
        · exact hdone hlc
        · exact keeps_blocked _ _ _ _
      | closeErrs =>
        simp only
        split_ifs with hlc
        · exact hdone hlc
        · exact keeps_blocked _ _ _ _
  | recvErr =>
    cases pc <;> simp only [sendFromFile] <;> try exact keeps_blocked _ _ _ _
    have hrun : Worker.Running factor ⟨rawf, Pc.selecting, prod, lc, ec⟩ ls es := hinv
    have hdone : ec = true → (WResult.next ⟨rawf, Pc.done, prod, lc, ec⟩ true none).Keeps factor
        ⟨rawf, Pc.selecting, prod, lc, ec⟩ ls es := fun hec =>
      keeps_next _ _ _ _ _ _ _ (inv_silent _ _ _ _ (Or.inr ⟨hrun, Or.inr hec⟩)) rfl
        (by simp) (by simp)
    cases prod with
    | nil =>
      have := (TaskTail_nil _ _ hrun.2.1).2
      change ec = true at this
      subst this
      simp only [if_true]
      exact hdone rfl
    | cons op rest =>
      cases op with
      | sendErr e =>
        obtain ⟨h1, h2, h3⟩ := Running_sendErr factor rawf _ (Pc.fwdErr e) e rest lc ec ls es hrun
        subst h1
        simp only [Bool.false_eq_true, if_false, h2]
        refine keeps_next _ _ _ _ _ _ _ ?_ rfl (by simp) (by simp)
        simp only [Delivery.lines, Delivery.errs, List.append_nil]
        exact ⟨h2, h3⟩
      | sendLine l =>
        simp only
        split_ifs with hec
        · exact hdone hec
        · exact keeps_blocked _ _ _ _
      | closeLines =>
        simp only
        split_ifs with hec
        · exact hdone hec
        · exact keeps_blocked _ _ _ _
      | closeErrs =>
        simp only
        split_ifs with hec
        · exact hdone hec
        · exact keeps_blocked _ _ _ _
  | producerClose =>
    cases prod with
    | nil => exact keeps_blocked _ _ _ _
    | cons op rest =>
      cases op with
      | sendLine l => exact keeps_blocked _ _ _ _
      | sendErr e => exact keeps_blocked _ _ _ _
      | closeLines =>
        simp only [sendFromFile]
        cases pc with
        | start => simp [Worker.Inv] at hinv
        | setupErr e => simp [Worker.Inv] at hinv
        | selecting =>
          obtain ⟨h1, h2⟩ := Running_closeLines factor rawf _ Pc.selecting rest lc ec ls es hinv
          subst h1
          simp only [Bool.false_eq_true, if_false]
          exact keeps_next _ _ _ _ _ _ _ (inv_silent _ _ _ _ h2) rfl (by simp) (by simp)
        | fwdLine l =>
          obtain ⟨h1, h2⟩ := Running_closeLines factor rawf _ (Pc.fwdLine l) rest lc ec _ es hinv.2
          subst h1
          simp only [Bool.false_eq_true, if_false]
          exact keeps_next _ _ _ _ _ _ _ (inv_silent _ _ _ _ ⟨hinv.1, h2⟩) rfl (by simp) (by simp)
        | fwdErr e =>
          obtain ⟨h1, h2⟩ := Running_closeLines factor rawf _ (Pc.fwdErr e) rest lc ec ls _ hinv.2
          subst h1
          simp only [Bool.false_eq_true, if_false]
          exact keeps_next _ _ _ _ _ _ _ (inv_silent _ _ _ _ ⟨hinv.1, h2⟩) rfl (by simp) (by simp)
        | done =>
          rcases hinv with ⟨e, -, hp, -⟩ | ⟨hrun, hc⟩
          · simp at hp
          · obtain ⟨h1, h2⟩ := Running_closeLines factor rawf _ Pc.done rest lc ec ls es hrun
            subst h1
            simp only [Bool.false_eq_true, if_false]
            exact keeps_next _ _ _ _ _ _ _ (inv_silent _ _ _ _ (Or.inr ⟨h2, Or.inl rfl⟩)) rfl
              (by simp) (by simp)
      | closeErrs =>
        simp only [sendFromFile]
        cases pc with
        | start => simp [Worker.Inv] at hinv
        | setupErr e => simp [Worker.Inv] at hinv
        | selecting =>
          obtain ⟨h1, h2⟩ := Running_closeErrs factor rawf _ Pc.selecting rest lc ec ls es hinv
          subst h1
          simp only [Bool.false_eq_true, if_false]
          exact keeps_next _ _ _ _ _ _ _ (inv_silent _ _ _ _ h2) rfl (by simp) (by simp)
        | fwdLine l =>
          obtain ⟨h1, h2⟩ := Running_closeErrs factor rawf _ (Pc.fwdLine l) rest lc ec _ es hinv.2
          subst h1
          simp only [Bool.false_eq_true, if_false]
          exact keeps_next _ _ _ _ _ _ _ (inv_silent _ _ _ _ ⟨hinv.1, h2⟩) rfl (by simp) (by simp)
        | fwdErr e =>
          obtain ⟨h1, h2⟩ := Running_closeErrs factor rawf _ (Pc.fwdErr e) rest lc ec ls _ hinv.2
          subst h1
          simp only [Bool.false_eq_true, if_false]
          exact keeps_next _ _ _ _ _ _ _ (inv_silent _ _ _ _ ⟨hinv.1, h2⟩) rfl (by simp) (by simp)
        | done =>
          rcases hinv with ⟨e, -, hp, -⟩ | ⟨hrun, hc⟩
          · simp at hp
          · obtain ⟨h1, h2⟩ := Running_closeErrs factor rawf _ Pc.done rest lc ec ls es hrun
            subst h1
            simp only [Bool.false_eq_true, if_false]
            exact keeps_next _ _ _ _ _ _ _ (inv_silent _ _ _ _ (Or.inr ⟨h2, Or.inr rfl⟩)) rfl
              (by simp) (by simp)
  | deliverLine =>
    cases pc <;> simp only [sendFromFile] <;> try exact keeps_blocked _ _ _ _
    rename_i l
    have hlc : lcC = false := by
      cases hl : lcC with
      | false => rfl
      | true => simpa using hclosed (Or.inl hl)
    simp only [hlc, Bool.false_eq_true, if_false]
    split_ifs
    · refine keeps_next _ _ _ _ _ _ _ ?_ rfl (by simp) (by simp)
      simp only [Delivery.lines, Delivery.errs, List.append_nil]
      exact hinv.2
    · exact keeps_blocked _ _ _ _
  | deliverErr =>
    cases pc <;> simp only [sendFromFile] <;> try exact keeps_blocked _ _ _ _
    · rename_i e
      have hec : ecC = false := by
        cases hl : ecC with
        | false => rfl
        | true => simpa using hclosed (Or.inr hl)
      simp only [hec, Bool.false_eq_true, if_false]
      split_ifs
      · refine keeps_next _ _ _ _ _ _ _ ?_ rfl (by simp) (by simp)
        simp only [Delivery.lines, Delivery.errs, List.append_nil]
        obtain ⟨h1, h2, h3, h4⟩ := hinv
        change rawf.header = some e at h1
        change prod = [] at h2
        subst h3 h4
        exact Or.inl ⟨e, h1, h2, rfl, rfl⟩
      · exact keeps_blocked _ _ _ _
    · rename_i e
      have hec : ecC = false := by
        cases hl : ecC with
        | false => rfl
        | true => simpa using hclosed (Or.inr hl)
      simp only [hec, Bool.false_eq_true, if_false]
      split_ifs
      · refine keeps_next _ _ _ _ _ _ _ ?_ rfl (by simp) (by simp)
        simp only [Delivery.lines, Delivery.errs, List.append_nil]
        exact hinv.2
      · exact keeps_blocked _ _ _ _

theorem Worker.step_lowers_weight (factor : Nat) (lcC ecC recv : Bool) (w w1 : Worker) (a : WAct)
    (fin : Bool) (out : Option Delivery)
    (h : sendFromFile factor lcC ecC recv w a = .next w1 fin out) :
    w1.weight factor < w.weight factor := by
  obtain ⟨rawf, pc, prod, lc, ec⟩ := w
  cases a with
  | start =>
    cases pc <;> simp only [sendFromFile] at h <;> try exact absurd h (by simp)
    cases he : (LinesOfGZ factor rawf).err with
    | some e =>
      simp only [he, WResult.next.injEq] at h
      rw [← h.1]
      simp only [Worker.weight]
      omega
    | none =>
      simp only [he, WResult.next.injEq] at h
      rw [← h.1]
      simp only [Worker.weight, fileTask]
      omega
  | recvLine =>
    cases pc <;> simp only [sendFromFile] at h <;> try exact absurd h (by simp)
    cases prod with
    | nil =>
      simp only at h
      split_ifs at h
      simp only [WResult.next.injEq] at h
      rw [← h.1]
      simp only [Worker.weight]
      omega
    | cons op rest =>
      cases op <;> simp only at h <;> split_ifs at h <;>
        simp only [WResult.next.injEq] at h <;> rw [← h.1] <;>
        simp only [Worker.weight, List.length_cons] <;> omega
  | recvErr =>
    cases pc <;> simp only [sendFromFile] at h <;> try exact absurd h (by simp)
    cases prod with
    | nil =>
      simp only at h
      split_ifs at h
      simp only [WResult.next.injEq] at h
      rw [← h.1]
      simp only [Worker.weight]
      omega
    | cons op rest =>
      cases op <;> simp only at h <;> split_ifs at h <;>
        simp only [WResult.next.injEq] at h <;> rw [← h.1] <;>
        simp only [Worker.weight, List.length_cons] <;> omega
  | producerClose =>
    cases prod with
    | nil => simp [sendFromFile] at h
    | cons op rest =>
      cases op <;> simp only [sendFromFile] at h <;> try exact absurd h (by simp)
      all_goals
        split_ifs at h
        simp only [WResult.next.injEq] at h
        rw [← h.1]
        simp only [Worker.weight, List.length_cons]
        omega
  | deliverLine =>
    cases pc <;> simp only [sendFromFile] at h <;> try exact absurd h (by simp)
    split_ifs at h
    simp only [WResult.next.injEq] at h
    rw [← h.1]
    simp only [Worker.weight]
    omega
  | deliverErr =>
    cases pc <;> simp only [sendFromFile] at h <;> try exact absurd h (by simp)
    all_goals
      split_ifs at h
      simp only [WResult.next.injEq] at h
      rw [← h.1]
      simp only [Worker.weight]
      omega

theorem linesFrom_append (i : Nat) (a b : List (Nat × Delivery)) :
    linesFrom i (a ++ b) = linesFrom i a ++ linesFrom i b := by
  simp [linesFrom, List.filterMap_append]

theorem errsFrom_append (i : Nat) (a b : List (Nat × Delivery)) :
    errsFrom i (a ++ b) = errsFrom i a ++ errsFrom i b := by
  simp [errsFrom, List.filterMap_append]

theorem linesFrom_out_self (i : Nat) (out : Option Delivery) :
    linesFrom i (out.map (fun d => (i, d))).toList = Delivery.lines out := by
  cases out with
  | none => rfl
  | some d => cases d <;> simp [linesFrom, Delivery.lines]

theorem errsFrom_out_self (i : Nat) (out : Option Delivery) :
    errsFrom i (out.map (fun d => (i, d))).toList = Delivery.errs out := by
  cases out with
  | none => rfl
  | some d => cases d <;> simp [errsFrom, Delivery.errs]

theorem linesFrom_out_other (i j : Nat) (h : j ≠ i) (out : Option Delivery) :
    linesFrom j (out.map (fun d => (i, d))).toList = [] := by
  cases out with
  | none => rfl
  | some d => cases d <;> simp [linesFrom, Ne.symm h]

theorem errsFrom_out_other (i j : Nat) (h : j ≠ i) (out : Option Delivery) :
    errsFrom j (out.map (fun d => (i, d))).toList = [] := by
  cases out with
  | none => rfl
  | some d => cases d <;> simp [errsFrom, Ne.symm h]

theorem linesFrom_of_bound (i : Nat) (log : List (Nat × Delivery))
    (h : ∀ p ∈ log, p.1 < i) : linesFrom i log = [] := by
  unfold linesFrom
  rw [List.filterMap_eq_nil_iff]
  rintro ⟨j, d⟩ hp
  have := h _ hp
  cases d with
  | line l => simp; omega
  | err e => rfl

theorem errsFrom_of_bound (i : Nat) (log : List (Nat × Delivery))
    (h : ∀ p ∈ log, p.1 < i) : errsFrom i log = [] := by
  unfold errsFrom
  rw [List.filterMap_eq_nil_iff]
  rintro ⟨j, d⟩ hp
  have := h _ hp
  cases d with
  | line l => rfl
  | err e => simp; omega

theorem countP_set {α : Type} (p : α → Bool) (l : List α) (i : Nat) (w w1 : α)
    (h : l[i]? = some w) :
    (l.set i w1).countP p + (if p w then 1 else 0) = l.countP p + (if p w1 then 1 else 0) := by
  induction l generalizing i with
  | nil => simp at h
  | cons x xs ih =>
    cases i with
    | zero =>
      simp only [List.getElem?_cons_zero, Option.some.injEq] at h
      subst h
      simp only [List.set_cons_zero, List.countP_cons]
      omega
    | succ i =>
      simp only [List.getElem?_cons_succ] at h
      have := ih i h
      simp only [List.set_cons_succ, List.countP_cons]
      omega

theorem map_set_same {α β : Type} (f : α → β) (l : List α) (i : Nat) (w w1 : α)
    (h : l[i]? = some w) (hf : f w1 = f w) : (l.set i w1).map f = l.map f := by
  induction l generalizing i with
  | nil => simp at h
  | cons x xs ih =>
    cases i with
    | zero =>
      simp only [List.getElem?_cons_zero, Option.some.injEq] at h
      subst h
      simp [hf]
    | succ i =>
      simp only [List.getElem?_cons_succ] at h
      simp [ih i h]

theorem MState.Inv.allDone {fs : String → Except GoError GzFile} {factor : Nat}
    {filenames : List String} {s : MState} (h : s.Inv fs factor filenames)
    (hc : s.lcClosed = true ∨ s.ecClosed = true) :
    s.wg = 0 := by
  have hcl := h.closes
  cases hs : s.sup <;> rw [hs] at hcl <;> simp only at hcl
  · rcases hc with hc | hc
    · rw [hcl.1] at hc; cases hc
    · rw [hcl.2.1] at hc; cases hc
  · rcases hc with hc | hc
    · rw [hcl.1] at hc; cases hc
    · rw [hcl.2.1] at hc; cases hc
  · exact hcl.2.2.2.2
  · exact hcl.2.2.2.2
  · exact hcl.2.2.2.2

theorem MState.Inv.done_of_wg {fs : String → Except GoError GzFile} {factor : Nat}
    {filenames : List String} {s : MState} (h : s.Inv fs factor filenames)
    (hwg : s.wg = 0) (i : Nat) (w : Worker) (hw : s.workers[i]? = some w) : w.pc = .done := by
  have h1 := h.wgCount
  have h2 : s.active = 0 := by omega
  unfold MState.active at h2
  rw [List.countP_eq_zero] at h2
  have := h2 w (List.getElem?_mem hw)
  unfold Worker.isActive at this
  cases hpc : w.pc <;> simp [hpc] at this
  rfl

theorem Worker.isActive_iff (w : Worker) : w.isActive = true ↔ w.pc ≠ .done := by
  unfold Worker.isActive
  cases w.pc <;> simp

theorem MState.init_inv (fs : String → Except GoError GzFile) (factor : Nat)
    (filenames : List String) : (MState.init factor filenames).Inv fs factor filenames where
  factorEq := rfl
  notPanicked := rfl
  workersInv := by intro i w h; simp [MState.init] at h
  logBound := by intro p h; simp [MState.init] at h
  wgCount := by simp [MState.init, MState.active]
  progress := by simp [MState.init]
  closes := by simp [MState.init]

theorem MState.mainStep_inv (fs : String → Except GoError GzFile) (factor : Nat)
    (filenames : List String) (s s1 : MState) (h : s.Inv fs factor filenames)
    (hs : MultiplexGZLines fs s = some s1) : s1.Inv fs factor filenames := by
  obtain ⟨hf, hnp, hw, hlb, hwg, hpr, hcl⟩ := h
  unfold MultiplexGZLines at hs
  cases hpc : s.mainPc with
  | looping =>
    rw [hpc] at hpr hwg
    simp only [hpc] at hs
    obtain ⟨hsup, hopen, hfe⟩ := hpr
    rw [hsup] at hcl
    simp only at hcl
    cases htodo : s.todo with
    | nil =>
      simp only [htodo, Option.some.injEq] at hs
      subst hs
      rw [htodo] at hopen hfe
      simp only [opened, List.append_nil, firstError] at hopen hfe
      exact ⟨hf, hnp, hw, hlb, by simpa [MState.active] using hwg,
        ⟨by simp, hopen, hfe.symm⟩, hcl⟩
    | cons fn rest =>
      rw [htodo] at hopen hfe
      simp only [htodo] at hs
      cases hfs : fs fn with
      | error e =>
        simp only [hfs, Option.some.injEq] at hs
        subst hs
        simp only [opened, hfs, List.append_nil, firstError] at hopen hfe
        refine ⟨hf, hnp, hw, hlb, ?_, ⟨hsup, hopen, hfe.symm⟩, ?_⟩
        · simp only [MState.active] at hwg ⊢
          omega
        · simp only [hsup]
          exact hcl
      | ok rawf =>
        simp only [hfs, Option.some.injEq] at hs
        subst hs
        simp only [opened, hfs, firstError] at hopen hfe
        refine ⟨hf, hnp, ?_, ?_, ?_, ⟨hsup, ?_, hfe⟩, ?_⟩
        · intro i w hiw
          simp only at hiw ⊢
          rcases Nat.lt_or_ge i s.workers.length with hlt | hge
          · rw [List.getElem?_append_left hlt] at hiw
            exact hw i w hiw
          · rw [List.getElem?_append_right hge] at hiw
            have hi : i = s.workers.length := by
              rcases Nat.eq_or_lt_of_le hge with h1 | h1
              · exact h1.symm
              · have : i - s.workers.length ≠ 0 := by omega
                cases hk : i - s.workers.length with
                | zero => exact absurd hk this
                | succ k => rw [hk] at hiw; simp at hiw
            subst hi
            simp only [Nat.sub_self, List.getElem?_cons_zero, Option.some.injEq] at hiw
            subst hiw
            rw [linesFrom_of_bound _ _ hlb, errsFrom_of_bound _ _ hlb]
            exact ⟨rfl, rfl, rfl, rfl, rfl⟩
        · intro p hp
          have := hlb p hp
          simp only [List.length_append, List.length_singleton]
          omega
        · have hnew : (Worker.new rawf).isActive = true := rfl
          simp only [MState.active, List.countP_append, List.countP_cons, List.countP_nil,
            hnew, if_true] at hwg ⊢
          omega
        · simpa using hopen
        · simp only [hsup]
          exact hcl
  | supSpawned =>
    rw [hpc] at hpr hwg
    simp only [hpc, Option.some.injEq] at hs
    subst hs
    exact ⟨hf, hnp, hw, hlb, by simpa [MState.active] using hwg, hpr, hcl⟩
  | returned e =>
    simp [hpc] at hs

theorem MState.supStep_inv (fs : String → Except GoError GzFile) (factor : Nat)
    (filenames : List String) (s s1 : MState) (h : s.Inv fs factor filenames)
    (hs : MultiplexGZLines.supervisor s = some s1) : s1.Inv fs factor filenames := by
  obtain ⟨hf, hnp, hw, hlb, hwg, hpr, hcl⟩ := h
  have hsupne : ∀ s2 : MState, s2.mainPc = s.mainPc → s2.workers = s.workers →
      s2.todo = s.todo → s2.sup ≠ .notStarted → s.sup ≠ .notStarted →
      (match s2.mainPc with
        | .looping => s2.sup = .notStarted ∧
            s2.workers.map (·.rawf) ++ opened fs s2.todo = opened fs filenames ∧
            firstError fs s2.todo = firstError fs filenames
        | .supSpawned => s2.sup ≠ .notStarted ∧
            s2.workers.map (·.rawf) = opened fs filenames ∧ firstError fs filenames = none
        | .returned none => s2.sup ≠ .notStarted ∧
            s2.workers.map (·.rawf) = opened fs filenames ∧ firstError fs filenames = none
        | .returned (some e) => s2.sup = .notStarted ∧
            s2.workers.map (·.rawf) = opened fs filenames ∧
            firstError fs filenames = some e) := by
    intro s2 h1 h2 h3 h4 h5
    rw [h1, h2, h3]
    cases hpc : s.mainPc with
    | looping => rw [hpc] at hpr; exact absurd hpr.1 h5
    | supSpawned => rw [hpc] at hpr; exact ⟨h4, hpr.2⟩
    | returned e =>
      rw [hpc] at hpr
      cases e with
      | none => exact ⟨h4, hpr.2⟩
      | some e => exact absurd hpr.1 h5
  unfold MultiplexGZLines.supervisor at hs
  cases hsup : s.sup with
  | notStarted => simp [hsup] at hs
  | waiting =>
    rw [hsup] at hcl
    simp only [hsup] at hs
    split_ifs at hs with hz
    simp only [Option.some.injEq] at hs
    subst hs
    exact ⟨hf, hnp, hw, hlb, hwg, hsupne _ rfl rfl rfl (by simp) (by simp [hsup]),
      ⟨hcl.1, hcl.2.1, hcl.2.2.1, hcl.2.2.2, hz⟩⟩
  | closeLines =>
    rw [hsup] at hcl
    simp only [hsup, hcl.1, Bool.false_eq_true, if_false, Option.some.injEq] at hs
    subst hs
    exact ⟨hf, hnp, hw, hlb, hwg, hsupne _ rfl rfl rfl (by simp) (by simp [hsup]),
      ⟨rfl, hcl.2.1, by simp [hcl.2.2.1], hcl.2.2.2.1, hcl.2.2.2.2⟩⟩
  | closeErrs =>
    rw [hsup] at hcl
    simp only [hsup, hcl.2.1, Bool.false_eq_true, if_false, Option.some.injEq] at hs
    subst hs
    exact ⟨hf, hnp, hw, hlb, hwg, hsupne _ rfl rfl rfl (by simp) (by simp [hsup]),
      ⟨hcl.1, rfl, hcl.2.2.1, by simp [hcl.2.2.2.1], hcl.2.2.2.2⟩⟩
  | finished => simp [hsup] at hs

theorem MState.Inv.update {fs : String → Except GoError GzFile} {factor : Nat}
    {filenames : List String} {s : MState} (h : s.Inv fs factor filenames)
    (i : Nat) (w w1 : Worker) (out : Option Delivery) (wg1 : Nat)
    (hw : s.workers[i]? = some w)
    (hinv1 : w1.Inv factor (linesFrom i s.log ++ Delivery.lines out)
      (errsFrom i s.log ++ Delivery.errs out))
    (hrawf : w1.rawf = w.rawf)
    (hwg1 : wg1 + (if w.isActive then 1 else 0) = s.wg + (if w1.isActive then 1 else 0))
    (hsame : w1.isActive = w.isActive ∨ s.wg ≠ 0) :
    MState.Inv fs factor filenames
      { s with workers := s.workers.set i w1,
               log := s.log ++ (out.map (fun d => (i, d))).toList,
               wg := wg1 } := by
  obtain ⟨hf, hnp, hwi, hlb, hwg, hpr, hcl⟩ := h
  have hilt : i < s.workers.length := by
    rcases List.getElem?_eq_some.mp hw with ⟨hlt, -⟩
    exact hlt
  refine ⟨hf, hnp, ?_, ?_, ?_, ?_, ?_⟩
  · intro j wj hj
    simp only at hj ⊢
    by_cases hji : j = i
    · subst hji
      rw [List.getElem?_set_self hilt, Option.some.injEq] at hj
      subst hj
      rw [linesFrom_append, errsFrom_append, linesFrom_out_self, errsFrom_out_self]
      exact hinv1
    · rw [List.getElem?_set_ne (Ne.symm hji)] at hj
      rw [linesFrom_append, errsFrom_append, linesFrom_out_other i j hji,
        errsFrom_out_other i j hji, List.append_nil, List.append_nil]
      exact hwi j wj hj
  · intro p hp
    simp only [List.length_set] at hp ⊢
    rcases List.mem_append.mp hp with h1 | h1
    · exact hlb p h1
    · cases out with
      | none => simp at h1
      | some d =>
        simp only [Option.map_some', Option.toList_some, List.mem_singleton] at h1
        rw [h1]
        exact hilt
  · have hc := countP_set Worker.isActive s.workers i w w1 hw
    simp only [MState.active] at hwg ⊢
    omega
  · have hm : (s.workers.set i w1).map (·.rawf) = s.workers.map (·.rawf) :=
      map_set_same _ _ _ _ _ hw hrawf
    simp only [hm]
    exact hpr
  · simp only
    cases hs : s.sup <;> rw [hs] at hcl <;> simp only at hcl ⊢
    · exact hcl
    · exact hcl
    all_goals
      obtain ⟨c1, c2, c3, c4, c5⟩ := hcl
      refine ⟨c1, c2, c3, c4, ?_⟩
      rcases hsame with hsame | hsame
      · rw [hsame] at hwg1
        omega
      · exact absurd c5 hsame

theorem MState.workerStep_inv (fs : String → Except GoError GzFile) (factor : Nat)
    (filenames : List String) (s s1 : MState) (i : Nat) (a : WAct)
    (h : s.Inv fs factor filenames) (hs : s.workerStep i a = some s1) :
    s1.Inv fs factor filenames := by
  unfold MState.workerStep at hs
  have hfe := h.factorEq
  subst hfe
  cases hw : s.workers[i]? with
  | none => simp [hw] at hs
  | some w =>
    simp only [hw] at hs
    have hclosed : (s.lcClosed = true ∨ s.ecClosed = true) → w.pc = .done := fun hc =>
      h.done_of_wg (h.allDone hc) i w hw
    have hk := Worker.step_keeps s.factor s.lcClosed s.ecClosed s.receiving w a _ _
      (h.workersInv i w hw) hclosed
    cases hr : sendFromFile s.factor s.lcClosed s.ecClosed s.receiving w a with
    | blocked => simp [hr] at hs
    | panic => rw [hr] at hk; exact absurd hk (by simp [WResult.Keeps])
    | next w1 fin out =>
      rw [hr] at hk
      obtain ⟨hinv1, hrawf, hfin, hnfin⟩ := hk
      simp only [hr] at hs
      cases fin with
      | true =>
        obtain ⟨hwa, hw1d⟩ := hfin rfl
        have hact : w.isActive = true := (Worker.isActive_iff w).mpr hwa
        have hact1 : w1.isActive = false := by
          cases hb : w1.isActive with
          | false => rfl
          | true => exact absurd hw1d ((Worker.isActive_iff w1).mp hb)
        have hpos : 0 < s.active := by
          unfold MState.active
          exact List.countP_pos_iff.mpr ⟨w, List.getElem?_mem hw, hact⟩
        have hwgpos : s.wg ≠ 0 := by
          have := h.wgCount
          omega
        simp only [if_true, hwgpos, if_false, Option.some.injEq] at hs
        subst hs
        exact h.update i w w1 out (s.wg - 1) hw hinv1 hrawf
          (by simp only [hact, hact1, if_true, Bool.false_eq_true, if_false]; omega)
          (Or.inr hwgpos)
      | false =>
        have hact : w1.isActive = w.isActive := by
          have := hnfin rfl
          cases hb : w.isActive with
          | true =>
            have h1 := (Worker.isActive_iff w).mp hb
            cases hb1 : w1.isActive with
            | true => rfl
            | false =>
              have : w1.pc = .done := by
                by_contra hne
                have := (Worker.isActive_iff w1).mpr hne
                rw [hb1] at this
                cases this
              exact absurd (this ▸ (hnfin rfl).mp this) h1
          | false =>
            have h1 : w.pc = .done := by
              by_contra hne
              have := (Worker.isActive_iff w).mpr hne
              rw [hb] at this
              cases this
            have h2 := (hnfin rfl).mpr h1
            cases hb1 : w1.isActive with
            | false => rfl
            | true => exact absurd h2 ((Worker.isActive_iff w1).mp hb1)
        simp only [Bool.false_eq_true, if_false, Option.some.injEq] at hs
        subst hs
        exact h.update i w w1 out s.wg hw hinv1 hrawf (by rw [hact]) (Or.inl hact)

theorem MState.step_inv (fs : String → Except GoError GzFile) (factor : Nat)
    (filenames : List String) (s s1 : MState) (a : Action)
    (h : s.Inv fs factor filenames) (hs : s.step fs a = some s1) :
    s1.Inv fs factor filenames := by
  unfold MState.step at hs
  simp only [h.notPanicked, Bool.false_eq_true, if_false] at hs
  cases a with
  | main => exact MState.mainStep_inv fs factor filenames s s1 h hs
  | worker i act => exact MState.workerStep_inv fs factor filenames s s1 i act h hs
  | supervise => exact MState.supStep_inv fs factor filenames s s1 h hs

theorem MState.run_inv (fs : String → Except GoError GzFile) (factor : Nat)
    (filenames : List String) (acts : List Action) (s s1 : MState)
    (h : s.Inv fs factor filenames) (hs : s.run fs acts = some s1) :
    s1.Inv fs factor filenames := by
  induction acts generalizing s with
  | nil =>
    simp only [MState.run, Option.some.injEq] at hs
    subst hs
    exact h
  | cons a as ih =>
    simp only [MState.run] at hs
    cases hstep : s.step fs a with
    | none => simp [hstep] at hs
    | some s2 =>
      simp only [hstep] at hs
      exact ih s2 (MState.step_inv fs factor filenames s s2 a h hstep) hs

theorem fileTask_header (factor : Nat) (rawf : GzFile) (e : GoError)
    (h : rawf.header = some e) : fileTask factor rawf = [] := by
  simp [fileTask, LinesOfGZ, gzipNewReader, h]

/-- A worker that has not returned can take a step once the consumer is receiving and
the combined channels are open. -/
theorem Worker.enabled (factor : Nat) (w : Worker) (ls : List Slice) (es : List error)
    (hinv : w.Inv factor ls es) (hpc : w.pc ≠ .done) :
    ∃ a, sendFromFile factor false false true w a ≠ .blocked := by
  obtain ⟨rawf, pc, prod, lc, ec⟩ := w
  cases pc with
  | start =>
    refine ⟨.start, ?_⟩
    simp only [sendFromFile]
    cases (LinesOfGZ factor rawf).err <;> simp
  | setupErr e => exact ⟨.deliverErr, by simp [sendFromFile]⟩
  | fwdLine l => exact ⟨.deliverLine, by simp [sendFromFile]⟩
  | fwdErr e => exact ⟨.deliverErr, by simp [sendFromFile]⟩
  | done => exact absurd rfl hpc
  | selecting =>
    have hrun : Worker.Running factor ⟨rawf, Pc.selecting, prod, lc, ec⟩ ls es := hinv
    cases prod with
    | nil =>
      have := (TaskTail_nil _ _ hrun.2.1).1
      change lc = true at this
      subst this
      exact ⟨.recvLine, by simp [sendFromFile]⟩
    | cons op rest =>
      cases op with
      | sendLine l =>
        obtain ⟨h1, h2, -⟩ := Running_sendLine factor rawf _ Pc.selecting l rest lc ec ls es hrun
        subst h1
        exact ⟨.recvLine, by simp [sendFromFile, h2]⟩
      | sendErr e =>
        obtain ⟨h1, h2, -⟩ := Running_sendErr factor rawf _ Pc.selecting e rest lc ec ls es hrun
        subst h1
        exact ⟨.recvErr, by simp [sendFromFile, h2]⟩
      | closeLines =>
        obtain ⟨h1, -⟩ := Running_closeLines factor rawf _ Pc.selecting rest lc ec ls es hrun
        subst h1
        exact ⟨.producerClose, by simp [sendFromFile]⟩
      | closeErrs =>
        obtain ⟨h1, -⟩ := Running_closeErrs factor rawf _ Pc.selecting rest lc ec ls es hrun
        subst h1
        exact ⟨.producerClose, by simp [sendFromFile]⟩

theorem MState.workerStep_ne_none (s : MState) (i : Nat) (a : WAct) (w : Worker)
    (hw : s.workers[i]? = some w)
    (h : sendFromFile s.factor s.lcClosed s.ecClosed s.receiving w a ≠ .blocked) :
    s.workerStep i a ≠ none := by
  unfold MState.workerStep
  simp only [hw]
  cases hr : sendFromFile s.factor s.lcClosed s.ecClosed s.receiving w a with
  | blocked => exact absurd hr h
  | panic => simp
  | next w1 fin out =>
    simp only
    split_ifs <;> simp

theorem Worker.Inv.done_lines {factor : Nat} {w : Worker} {ls : List Slice} {es : List error}
    (h : w.Inv factor ls es) (hpc : w.pc = .done) :
    ls = fileLines factor w.rawf ∧ es = fileErrs factor w.rawf := by
  unfold Worker.Inv at h
  rw [hpc] at h
  simp only at h
  rcases h with ⟨e, hh, -, hl, he⟩ | ⟨⟨hh, ht, hl, he⟩, hc⟩
  · subst hl he
    simp [fileLines, fileErrs, hh, fileTask_header factor w.rawf e hh, taskLines]
  · obtain ⟨h1, h2⟩ := TaskTail_closed _ _ _ ht hc
    rw [h1, List.append_nil] at hl
    rw [h2, List.append_nil] at he
    simp [fileLines, fileErrs, hh, hl, he]

theorem MState.Inv.final {fs : String → Except GoError GzFile} {factor : Nat}
    {filenames : List String} {s : MState} (h : s.Inv fs factor filenames)
    (ht : s.Terminal fs) : s.Final fs factor filenames := by
  have hnp := h.notPanicked
  have hfe := h.factorEq
  have hmain : MultiplexGZLines fs s = none := by
    have := ht .main
    simpa [MState.step, hnp] using this
  have hworker : ∀ i a, s.workerStep i a = none := by
    intro i a
    have := ht (.worker i a)
    simpa [MState.step, hnp] using this
  have hsup : MultiplexGZLines.supervisor s = none := by
    have := ht .supervise
    simpa [MState.step, hnp] using this
  obtain ⟨e, hret⟩ : ∃ e, s.mainPc = .returned e := by
    unfold MultiplexGZLines at hmain
    cases hpc : s.mainPc with
    | looping =>
      rw [hpc] at hmain
      simp only at hmain
      cases htodo : s.todo with
      | nil => simp [htodo] at hmain
      | cons fn rest =>
        simp only [htodo] at hmain
        cases hfs : fs fn <;> simp [hfs] at hmain
    | supSpawned => simp [hpc] at hmain
    | returned e => exact ⟨e, rfl⟩
  have hrecv : s.receiving = true := by simp [MState.receiving, hret]
  have hpr := h.progress
  rw [hret] at hpr
  -- every worker has returned
  have hdone : ∀ (i : Nat) (w : Worker), s.workers[i]? = some w → w.pc = .done := by
    intro i w hw
    by_contra hne
    have hopen : s.lcClosed = false ∧ s.ecClosed = false := by
      constructor
      · cases hc : s.lcClosed with
        | false => rfl
        | true => exact absurd (h.done_of_wg (h.allDone (Or.inl hc)) i w hw) hne
      · cases hc : s.ecClosed with
        | false => rfl
        | true => exact absurd (h.done_of_wg (h.allDone (Or.inr hc)) i w hw) hne
    obtain ⟨a, ha⟩ := Worker.enabled factor w _ _ (h.workersInv i w hw) hne
    have := MState.workerStep_ne_none s i a w hw (by rw [hfe, hopen.1, hopen.2, hrecv]; exact ha)
    exact this (hworker i a)
  have hactive : s.active = 0 := by
    unfold MState.active
    rw [List.countP_eq_zero]
    intro w hw
    obtain ⟨i, hi⟩ := List.mem_iff_getElem?.mp hw
    simp [Worker.isActive, hdone i w hi]
  have hwg := h.wgCount
  rw [hret, hactive] at hwg
  have hcl := h.closes
  refine ⟨?_, ?_, ?_, ?_, ?_, ?_, ?_⟩
  · cases e with
    | none => rw [hret, hpr.2.2]
    | some e => rw [hret, hpr.2.2]
  · cases e with
    | none => exact hpr.2.1
    | some e => exact hpr.2.1
  · intro w hw
    obtain ⟨i, hi⟩ := List.mem_iff_getElem?.mp hw
    exact hdone i w hi
  · intro i w hw
    exact ((h.workersInv i w hw).done_lines (hdone i w hw)).1
  · intro i w hw
    exact ((h.workersInv i w hw).done_lines (hdone i w hw)).2
  · intro hnone
    cases e with
    | some e => rw [hpr.2.2] at hnone; cases hnone
    | none =>
      simp only [zero_add] at hwg
      unfold MultiplexGZLines.supervisor at hsup
      cases hs : s.sup with
      | notStarted => exact absurd hs hpr.1
      | waiting => simp [hs, hwg] at hsup
      | closeLines =>
        rw [hs] at hsup
        simp only at hsup
        split_ifs at hsup
      | closeErrs =>
        rw [hs] at hsup
        simp only at hsup
        split_ifs at hsup
      | finished =>
        rw [hs] at hcl
        exact ⟨rfl, hcl.1, hcl.2.1, hcl.2.2.1, hcl.2.2.2.1⟩
  · intro hsome
    cases e with
    | none => exact absurd hpr.2.2 hsome
    | some e =>
      rw [hpr.1] at hcl
      exact ⟨hpr.1, hcl.1, hcl.2.1, hcl.2.2.1, hcl.2.2.2⟩

theorem sum_map_set {α : Type} (f : α → Nat) (l : List α) (i : Nat) (w w1 : α)
    (h : l[i]? = some w) :
    ((l.set i w1).map f).sum + f w = (l.map f).sum + f w1 := by
  induction l generalizing i with
  | nil => simp at h
  | cons x xs ih =>
    cases i with
    | zero =>
      simp only [List.getElem?_cons_zero, Option.some.injEq] at h
      subst h
      simp only [List.set_cons_zero, List.map_cons, List.sum_cons]
      omega
    | succ i =>
      simp only [List.getElem?_cons_succ] at h
      have := ih i h
      simp only [List.set_cons_succ, List.map_cons, List.sum_cons]
      omega

theorem MState.step_decreases (fs : String → Except GoError GzFile) (factor : Nat)
    (filenames : List String) (s s1 : MState) (a : Action)
    (h : s.Inv fs factor filenames) (hs : s.step fs a = some s1) :
    s1.weight fs < s.weight fs := by
  have h1 := MState.step_inv fs factor filenames s s1 a h hs
  unfold MState.step at hs
  simp only [h.notPanicked, Bool.false_eq_true, if_false] at hs
  cases a with
  | main =>
    simp only at hs
    unfold MultiplexGZLines at hs
    have hpr := h.progress
    cases hpc : s.mainPc with
    | looping =>
      rw [hpc] at hpr
      simp only [hpc] at hs
      cases htodo : s.todo with
      | nil =>
        simp only [htodo, Option.some.injEq] at hs
        subst hs
        simp only [MState.weight, hpc, htodo, hpr.1, todoWeight]
        omega
      | cons fn rest =>
        simp only [htodo] at hs
        cases hfs : fs fn with
        | error e =>
          simp only [hfs, Option.some.injEq] at hs
          subst hs
          simp only [MState.weight, hpc, htodo, todoWeight, hfs]
          omega
        | ok rawf =>
          simp only [hfs, Option.some.injEq] at hs
          subst hs
          simp only [MState.weight, hpc, htodo, todoWeight, hfs, List.map_append, List.map_cons,
            List.map_nil, List.sum_append, List.sum_cons, List.sum_nil]
          omega
    | supSpawned =>
      simp only [hpc, Option.some.injEq] at hs
      subst hs
      simp only [MState.weight, hpc]
      omega
    | returned e => simp [hpc] at hs
  | supervise =>
    simp only at hs
    unfold MultiplexGZLines.supervisor at hs
    have hcl := h.closes
    cases hsup : s.sup with
    | notStarted => simp [hsup] at hs
    | waiting =>
      simp only [hsup] at hs
      split_ifs at hs
      simp only [Option.some.injEq] at hs
      subst hs
      simp only [MState.weight, hsup]
      omega
    | closeLines =>
      rw [hsup] at hcl
      simp only [hsup, hcl.1, Bool.false_eq_true, if_false, Option.some.injEq] at hs
      subst hs
      simp only [MState.weight, hsup]
      omega
    | closeErrs =>
      rw [hsup] at hcl
      simp only [hsup, hcl.2.1, Bool.false_eq_true, if_false, Option.some.injEq] at hs
      subst hs
      simp only [MState.weight, hsup]
      omega
    | finished => simp [hsup] at hs
  | worker i act =>
    simp only at hs
    unfold MState.workerStep at hs
    cases hw : s.workers[i]? with
    | none => simp [hw] at hs
    | some w =>
      simp only [hw] at hs
      cases hr : sendFromFile s.factor s.lcClosed s.ecClosed s.receiving w act with
      | blocked => simp [hr] at hs
      | panic =>
        simp only [hr, Option.some.injEq] at hs
        subst hs
        exact absurd h1.notPanicked (by simp)
      | next w1 fin out =>
        have hlt := Worker.step_lowers_weight _ _ _ _ _ _ _ _ _ hr
        have hsum := sum_map_set (Worker.weight s.factor) s.workers i w w1 hw
        simp only [hr] at hs
        split_ifs at hs with h2 h3
        · simp only [Option.some.injEq] at hs
          subst hs
          exact absurd h1.notPanicked (by simp)
        · simp only [Option.some.injEq] at hs
          subst hs
          simp only [MState.weight]
          omega
        · simp only [Option.some.injEq] at hs
          subst hs
          simp only [MState.weight]
          omega

theorem MState.run_weight (fs : String → Except GoError GzFile) (factor : Nat)
    (filenames : List String) (acts : List Action) (s s1 : MState)
    (h : s.Inv fs factor filenames) (hs : s.run fs acts = some s1) :
    acts.length + s1.weight fs ≤ s.weight fs := by
  induction acts generalizing s with
  | nil =>
    simp only [MState.run, Option.some.injEq] at hs
    subst hs
    simp
  | cons a as ih =>
    simp only [MState.run] at hs
    cases hstep : s.step fs a with
    | none => simp [hstep] at hs
    | some s2 =>
      simp only [hstep] at hs
      have h1 := ih s2 (MState.step_inv fs factor filenames s s2 a h hstep) hs
      have h2 := MState.step_decreases fs factor filenames s s2 a h hstep
      simp only [List.length_cons]
      omega

theorem allLines_cons (p : Nat × Delivery) (log : List (Nat × Delivery)) :
    allLines (p :: log) = Delivery.lines (some p.2) ++ allLines log := by
  obtain ⟨j, d⟩ := p
  cases d <;> simp [allLines, Delivery.lines]

theorem allErrs_cons (p : Nat × Delivery) (log : List (Nat × Delivery)) :
    allErrs (p :: log) = Delivery.errs (some p.2) ++ allErrs log := by
  obtain ⟨j, d⟩ := p
  cases d <;> simp [allErrs, Delivery.errs]

theorem linesFrom_cons (i : Nat) (p : Nat × Delivery) (log : List (Nat × Delivery)) :
    linesFrom i (p :: log) =
      (if p.1 = i then Delivery.lines (some p.2) else []) ++ linesFrom i log := by
  obtain ⟨j, d⟩ := p
  by_cases h : j = i <;> cases d <;> simp [linesFrom, Delivery.lines, List.filterMap_cons, h]

theorem errsFrom_cons (i : Nat) (p : Nat × Delivery) (log : List (Nat × Delivery)) :
    errsFrom i (p :: log) =
      (if p.1 = i then Delivery.errs (some p.2) else []) ++ errsFrom i log := by
  obtain ⟨j, d⟩ := p
  by_cases h : j = i <;> cases d <;> simp [errsFrom, Delivery.errs, List.filterMap_cons, h]

theorem flatten_tagged_perm {α : Type} (j : Nat) (x : List α) (f : Nat → List α)
    (idx : List Nat) (hnd : idx.Nodup) (hj : j ∈ idx) :
    ((idx.map (fun i => (if j = i then x else []) ++ f i)).flatten).Perm
      (x ++ (idx.map f).flatten) := by
  induction idx with
  | nil => simp at hj
  | cons a as ih =>
    simp only [List.map_cons, List.flatten_cons]
    have hnd' := (List.nodup_cons.mp hnd)
    by_cases hja : j = a
    · subst hja
      simp only [if_true, List.append_assoc]
      refine List.Perm.append_left _ (List.Perm.append_left _ ?_)
      have : as.map (fun i => (if j = i then x else []) ++ f i) = as.map f := by
        apply List.map_congr_left
        intro i hi
        have : j ≠ i := fun h => hnd'.1 (h ▸ hi)
        simp [this]
      rw [this]
    · simp only [hja, if_false, List.nil_append]
      have hj' : j ∈ as := by
        rcases List.mem_cons.mp hj with h | h
        · exact absurd h hja
        · exact h
      have := ih hnd'.2 hj'
      refine (List.Perm.append_left (f a) this).trans ?_
      rw [← List.append_assoc, ← List.append_assoc]
      exact List.Perm.append_right _ List.perm_append_comm

theorem flatten_nil_map {α : Type} (idx : List Nat) :
    (idx.map (fun _ => ([] : List α))).flatten = [] := by
  induction idx with
  | nil => rfl
  | cons a as ih => simp [ih]

theorem allLines_perm (n : Nat) (log : List (Nat × Delivery)) (hb : ∀ p ∈ log, p.1 < n) :
    (allLines log).Perm (((List.range n).map (fun i => linesFrom i log)).flatten) := by
  induction log with
  | nil =>
    have : (fun i => linesFrom i ([] : List (Nat × Delivery))) = fun _ => [] := rfl
    rw [this, flatten_nil_map]
    exact List.Perm.refl _
  | cons p log ih =>
    rw [allLines_cons]
    have hp := hb p (by simp)
    have ih' := ih (fun q hq => hb q (by simp [hq]))
    have hfun : (fun i => linesFrom i (p :: log)) =
        fun i => (if p.1 = i then Delivery.lines (some p.2) else []) ++ linesFrom i log := by
      funext i
      exact linesFrom_cons i p log
    rw [hfun]
    refine List.Perm.trans ?_ (flatten_tagged_perm p.1 _ _ _ (List.nodup_range n)
      (List.mem_range.mpr hp)).symm
    exact List.Perm.append_left _ ih'

theorem allErrs_perm (n : Nat) (log : List (Nat × Delivery)) (hb : ∀ p ∈ log, p.1 < n) :
    (allErrs log).Perm (((List.range n).map (fun i => errsFrom i log)).flatten) := by
  induction log with
  | nil =>
    have : (fun i => errsFrom i ([] : List (Nat × Delivery))) = fun _ => [] := rfl
    rw [this, flatten_nil_map]
    exact List.Perm.refl _
  | cons p log ih =>
    rw [allErrs_cons]
    have hp := hb p (by simp)
    have ih' := ih (fun q hq => hb q (by simp [hq]))
    have hfun : (fun i => errsFrom i (p :: log)) =
        fun i => (if p.1 = i then Delivery.errs (some p.2) else []) ++ errsFrom i log := by
      funext i
      exact errsFrom_cons i p log
    rw [hfun]
    refine List.Perm.trans ?_ (flatten_tagged_perm p.1 _ _ _ (List.nodup_range n)
      (List.mem_range.mpr hp)).symm
    exact List.Perm.append_left _ ih'

theorem range_map_getElem {α β : Type} (l : List α) (f : α → β) (g : Nat → β)
    (h : ∀ (i : Nat) (a : α), l[i]? = some a → g i = f a) :
    (List.range l.length).map g = l.map f := by
  apply List.ext_getElem?
  intro i
  by_cases hi : i < l.length
  · rw [List.getElem?_map, List.getElem?_map, List.getElem?_range hi,
      List.getElem?_eq_getElem hi]
    simp only [Option.map_some']
    exact congrArg some (h i l[i] (List.getElem?_eq_getElem hi))
  · have hi' : l.length ≤ i := Nat.le_of_not_lt hi
    rw [List.getElem?_eq_none (by simpa using hi'), List.getElem?_eq_none (by simpa using hi')]

theorem fileTask_lineFile (factor : Nat) (lines : List Line) (chunks : List Nat) (eager : Bool)
    (hl : ∀ l ∈ lines, l.WellFormed ∧ l.raw.length ≤ MaxScanTokenSize * factor)
    (hmax : MaxScanTokenSize * factor ≤ maxInt / 2 + 1) :
    fileTask factor (lineFile lines chunks eager) =
      lines.map (fun l => ChanOp.sendLine (some l.text))
        ++ [ChanOp.closeLines, ChanOp.closeErrs] := by
  unfold fileTask LinesOfGZ gzipNewReader lineFile
  simp only [Option.getD_some]
  exact linesTask_lines lines chunks eager _ hl hmax

theorem fileLines_lineFile (factor : Nat) (lines : List Line) (chunks : List Nat) (eager : Bool)
    (hl : ∀ l ∈ lines, l.WellFormed ∧ l.raw.length ≤ MaxScanTokenSize * factor)
    (hmax : MaxScanTokenSize * factor ≤ maxInt / 2 + 1) :
    fileLines factor (lineFile lines chunks eager) = sliceLines lines := by
  unfold fileLines
  rw [fileTask_lineFile factor lines chunks eager hl hmax, taskLines_append]
  have : ∀ ls : List Line, List.filterMap (fun x : Line => some (some x.text)) ls
      = List.map (fun l => some l.text) ls := by
    intro ls
    induction ls with
    | nil => rfl
    | cons a as ih => simp [List.filterMap_cons, ih]
  simp [taskLines, sliceLines, List.filterMap_map, Function.comp_def, this]

theorem fileErrs_lineFile (factor : Nat) (lines : List Line) (chunks : List Nat) (eager : Bool)
    (hl : ∀ l ∈ lines, l.WellFormed ∧ l.raw.length ≤ MaxScanTokenSize * factor)
    (hmax : MaxScanTokenSize * factor ≤ maxInt / 2 + 1) :
    fileErrs factor (lineFile lines chunks eager) = [] := by
  unfold fileErrs
  simp only [lineFile]
  have := fileTask_lineFile factor lines chunks eager hl hmax
  unfold lineFile at this
  rw [this, taskErrs_append]
  simp [taskErrs, List.filterMap_map, Function.comp_def]

theorem opened_of_forall₂ (fs : String → Except GoError GzFile) (filenames : List String)
    (files : List GzFile)
    (h : List.Forall₂ (fun fn f => fs fn = Except.ok f) filenames files) :
    opened fs filenames = files ∧ firstError fs filenames = none := by
  induction h with
  | nil => exact ⟨rfl, rfl⟩
  | cons hx _ ih =>
    simp only [opened, firstError, hx]
    exact ⟨by rw [ih.1], ih.2⟩

theorem MState.reach (fs : String → Except GoError GzFile) (factor : Nat)
    (filenames : List String) (acts : List Action) (s : MState)
    (hrun : (MState.init factor filenames).run fs acts = some s) :
    s.Inv fs factor filenames ∧
      acts.length + s.weight fs ≤ (MState.init factor filenames).weight fs ∧
      (s.Terminal fs → s.Final fs factor filenames) := by
  have hinv := MState.run_inv fs factor filenames acts _ s (MState.init_inv fs factor filenames) hrun
  exact ⟨hinv, MState.run_weight fs factor filenames acts _ s
    (MState.init_inv fs factor filenames) hrun, fun ht => hinv.final ht⟩

theorem MState.Final.perFile {fs : String → Except GoError GzFile} {factor : Nat}
    {filenames : List String} {s : MState} (hF : s.Final fs factor filenames)
    (i : Nat) (f : GzFile) (hf : (opened fs filenames)[i]? = some f) :
    linesFrom i s.log = fileLines factor f ∧ errsFrom i s.log = fileErrs factor f := by
  rw [← hF.files, List.getElem?_map] at hf
  cases hw : s.workers[i]? with
  | none => simp [hw] at hf
  | some w =>
    simp only [hw, Option.map_some', Option.some.injEq] at hf
    subst hf
    exact ⟨hF.lines i w hw, hF.errs i w hw⟩

theorem MState.Final.content {fs : String → Except GoError GzFile} {factor : Nat}
    {filenames : List String} {s : MState} (hF : s.Final fs factor filenames)
    (hI : s.Inv fs factor filenames) :
    (allLines s.log).Perm (((opened fs filenames).map (fileLines factor)).flatten) ∧
      (allErrs s.log).Perm (((opened fs filenames).map (fileErrs factor)).flatten) := by
  have hlen : s.workers.length = (opened fs filenames).length := by
    rw [← hF.files, List.length_map]
  constructor
  · have h1 := allLines_perm s.workers.length s.log hI.logBound
    have h2 : (List.range s.workers.length).map (fun i => linesFrom i s.log)
        = (opened fs filenames).map (fileLines factor) := by
      rw [hlen]
      exact range_map_getElem _ _ _ (fun i f hf => (hF.perFile i f hf).1)
    rw [h2] at h1
    exact h1
  · have h1 := allErrs_perm s.workers.length s.log hI.logBound
    have h2 : (List.range s.workers.length).map (fun i => errsFrom i s.log)
        = (opened fs filenames).map (fileErrs factor) := by
      rw [hlen]
      exact range_map_getElem _ _ _ (fun i f hf => (hF.perFile i f hf).2)
    rw [h2] at h1
    exact h1

theorem taskErrs_sendErr (es : List error) : taskErrs (es.map ChanOp.sendErr) = es := by
  induction es with
  | nil => rfl
  | cons a as ih =>
    have : taskErrs (ChanOp.sendErr a :: as.map ChanOp.sendErr)
        = a :: taskErrs (as.map ChanOp.sendErr) := rfl
    rw [List.map_cons, this, ih]

theorem fileErrs_length_le (factor : Nat) (f : GzFile) : (fileErrs factor f).length ≤ 1 := by
  unfold fileErrs
  cases hh : f.header with
  | some e => simp
  | none =>
    simp only
    obtain ⟨bs, es, hops, -, -, hlen⟩ := fileTask_shape factor f hh
    rw [hops, taskErrs_append, taskErrs_append]
    have h1 : taskErrs (bs.map ChanOp.sendLine) = [] := by
      simp [taskErrs, List.filterMap_map, Function.comp_def]
    have h2 : taskErrs (es.map ChanOp.sendErr) = es := taskErrs_sendErr es
    have h3 : taskErrs [ChanOp.closeLines, ChanOp.closeErrs] = [] := rfl
    rw [h1, h2, h3]
    simpa using hlen

theorem fileErrs_ne_nil (factor : Nat) (f : GzFile) : ∀ e ∈ fileErrs factor f, e ≠ none := by
  unfold fileErrs
  cases hh : f.header with
  | some e => simp
  | none =>
    simp only
    obtain ⟨bs, es, hops, -, hne, -⟩ := fileTask_shape factor f hh
    intro e he
    rw [hops] at he
    simp only [taskErrs, List.mem_filterMap, List.mem_append, List.mem_map] at he
    obtain ⟨op, hop, hopE⟩ := he
    rcases hop with (⟨b, -, rfl⟩ | ⟨e', he', rfl⟩) | hop
    · simp at hopE
    · simp only [Option.some.injEq] at hopE
      subst hopE
      exact hne _ he'
    · simp only [List.mem_cons, List.mem_singleton, List.not_mem_nil, or_false] at hop
      rcases hop with rfl | rfl <;> simp at hopE

theorem fileLines_ne_nil (factor : Nat) (f : GzFile) : ∀ b ∈ fileLines factor f, b ≠ none := by
  unfold fileLines
  cases hh : f.header with
  | some e => simp [fileTask_header factor f e hh, taskLines]
  | none =>
    obtain ⟨bs, es, hops, hne, -, -⟩ := fileTask_shape factor f hh
    intro b hb
    rw [hops] at hb
    simp only [taskLines, List.mem_filterMap, List.mem_append, List.mem_map] at hb
    obtain ⟨op, hop, hopE⟩ := hb
    rcases hop with (⟨b', hb', rfl⟩ | ⟨e', -, rfl⟩) | hop
    · simp only [Option.some.injEq] at hopE
      subst hopE
      exact hne _ hb'
    · simp at hopE
    · simp only [List.mem_cons, List.mem_singleton, List.not_mem_nil, or_false] at hop
      rcases hop with rfl | rfl <;> simp at hopE

theorem fileLines_header (factor : Nat) (f : GzFile) (h : f.header ≠ none) :
    fileLines factor f = [] ∧ (fileErrs factor f).length = 1 := by
  cases hh : f.header with
  | none => exact absurd hh h
  | some e => simp [fileLines, fileErrs, hh, fileTask_header factor f e hh, taskLines]

theorem forall₂_length {α β : Type} {R : α → β → Prop} {l1 : List α} {l2 : List β}
    (h : List.Forall₂ R l1 l2) : l1.length = l2.length := by
  induction h with
  | nil => rfl
  | cons _ _ ih => simp [ih]

theorem MState.Inv.noFailure {fs : String → Except GoError GzFile} {factor : Nat}
    {filenames : List String} {s : MState} (h : s.Inv fs factor filenames)
    (hfe : firstError fs filenames = none) :
    (∀ e, s.mainPc = .returned e → e = none) ∧ s.wg = s.active ∧
      (s.sup ≠ .notStarted → s.workers.map (·.rawf) = opened fs filenames) := by
  have hpr := h.progress
  have hwg := h.wgCount
  cases hpc : s.mainPc with
  | looping =>
    rw [hpc] at hpr hwg
    exact ⟨fun e he => (by cases he), by simpa using hwg, fun hs => absurd hpr.1 hs⟩
  | supSpawned =>
    rw [hpc] at hpr hwg
    exact ⟨fun e he => (by cases he), by simpa using hwg, fun _ => hpr.2.1⟩
  | returned e =>
    rw [hpc] at hpr hwg
    cases e with
    | none => exact ⟨fun e he => (by cases he; rfl), by simpa using hwg, fun _ => hpr.2.1⟩
    | some e =>
      rw [hfe] at hpr
      exact absurd hpr.2.2 (by simp)

theorem MState.Inv.closeFacts {fs : String → Except GoError GzFile} {factor : Nat}
    {filenames : List String} {s : MState} (h : s.Inv fs factor filenames) :
    s.lineCloses ≤ 1 ∧ s.errCloses ≤ 1 ∧
      (s.lcClosed = true ↔ s.lineCloses = 1) ∧ (s.ecClosed = true ↔ s.errCloses = 1) ∧
      ((s.sup = .closeLines ∨ s.sup = .closeErrs ∨ s.sup = .finished) → s.wg = 0) ∧
      ((0 < s.lineCloses ∨ 0 < s.errCloses) →
        s.sup ≠ .notStarted ∧ s.wg = 0) := by
  have hcl := h.closes
  cases hs : s.sup <;> rw [hs] at hcl <;> simp only at hcl <;>
    obtain ⟨h1, h2, h3, h4⟩ := hcl <;> simp_all

theorem MState.Inv.noSendAfterClose {fs : String → Except GoError GzFile} {factor : Nat}
    {filenames : List String} {s : MState} (h : s.Inv fs factor filenames)
    (hc : s.lcClosed = true ∨ s.ecClosed = true) (i : Nat) (a : WAct) (s1 : MState)
    (hs : s.step fs (.worker i a) = some s1) : s1.log = s.log := by
  unfold MState.step at hs
  simp only [h.notPanicked, Bool.false_eq_true, if_false] at hs
  unfold MState.workerStep at hs
  cases hw : s.workers[i]? with
  | none => simp [hw] at hs
  | some w =>
    simp only [hw] at hs
    have hdone := h.done_of_wg (h.allDone hc) i w hw
    obtain ⟨rawf, pc, prod, lc, ec⟩ := w
    change pc = Pc.done at hdone
    subst hdone
    cases a <;> simp only [sendFromFile] at hs <;> try exact absurd hs (by simp)
    cases prod with
    | nil => simp at hs
    | cons op rest =>
      cases op <;> simp only at hs <;> try exact absurd hs (by simp)
      all_goals
        split_ifs at hs
        all_goals
          simp only [Bool.false_eq_true, if_false, Option.some.injEq] at hs
          subst hs
          simp

/-- C5: in every run of `MultiplexGZLines` in which every file opens, at every moment:
no panic has occurred (no send on a closed channel, no second close), each combined
channel has been closed at most once, the wait-group counter is the number of
`sendFromFile` goroutines started and not yet returned, the supervisory task is past
`wg.Wait()` only with the counter at zero, a close has happened only with a worker
started for every file and all workers returned, and once a combined channel is closed
no worker step delivers a value; every run is finite, and when nothing more can happen
both combined channels have been closed, each exactly once. -/
theorem MultiplexGZLines_closes_once (fs : String → Except GoError GzFile) (factor : Nat)
    (filenames : List String) (files : List GzFile)
    (hopen : List.Forall₂ (fun fn f => fs fn = Except.ok f) filenames files)
    (acts : List Action) (s : MState)
    (hrun : (MState.init factor filenames).run fs acts = some s) :
    s.panicked = false ∧ s.lineCloses ≤ 1 ∧ s.errCloses ≤ 1 ∧
      (s.lcClosed = true ↔ s.lineCloses = 1) ∧ (s.ecClosed = true ↔ s.errCloses = 1) ∧
      s.wg = s.active ∧
      ((s.sup = .closeLines ∨ s.sup = .closeErrs ∨ s.sup = .finished) → s.wg = 0) ∧
      ((0 < s.lineCloses ∨ 0 < s.errCloses) →
        s.workers.length = filenames.length ∧ ∀ w ∈ s.workers, w.pc = .done) ∧
      ((s.lcClosed = true ∨ s.ecClosed = true) →
        ∀ i a s1, s.step fs (.worker i a) = some s1 → s1.log = s.log) ∧
      acts.length ≤ (MState.init factor filenames).weight fs ∧
      (s.Terminal fs →
        s.lineCloses = 1 ∧ s.errCloses = 1 ∧ s.lcClosed = true ∧ s.ecClosed = true) := by
  obtain ⟨hinv, hbound, hfinal⟩ := MState.reach fs factor filenames acts s hrun
  obtain ⟨hop, hfe⟩ := opened_of_forall₂ fs filenames files hopen
  obtain ⟨hret, hwg, hworkers⟩ := hinv.noFailure hfe
  obtain ⟨c1, c2, c3, c4, c5, c6⟩ := hinv.closeFacts
  refine ⟨hinv.notPanicked, c1, c2, c3, c4, hwg, c5, ?_, ?_, by omega, ?_⟩
  · intro hc
    obtain ⟨hs, hz⟩ := c6 hc
    constructor
    · have := congrArg List.length (hworkers hs)
      rw [List.length_map, hop] at this
      rw [this, forall₂_length hopen]
    · intro w hw
      obtain ⟨i, hi⟩ := List.mem_iff_getElem?.mp hw
      exact hinv.done_of_wg hz i w hi
  · intro hc i a s1 hs
    exact hinv.noSendAfterClose hc i a s1 hs
  · intro ht
    obtain ⟨h1, h2, h3, h4, h5⟩ := (hfinal ht).closed hfe
    exact ⟨h4, h5, h2, h3⟩

theorem forall₂_map_file (fs : String → Except GoError GzFile) (filenames : List String)
    (specs : List FileSpec)
    (h : List.Forall₂ (fun fn sp => fs fn = Except.ok (FileSpec.file sp)) filenames specs) :
    List.Forall₂ (fun fn f => fs fn = Except.ok f) filenames (specs.map FileSpec.file) := by
  induction h with
  | nil => exact List.Forall₂.nil
  | cons hx _ ih => exact List.Forall₂.cons hx ih

theorem flatten_eq_nil_of {α : Type} (l : List (List α)) (h : ∀ x ∈ l, x = []) :
    l.flatten = [] := by
  induction l with
  | nil => rfl
  | cons a as ih =>
    rw [List.flatten_cons, h a (by simp), ih (fun x hx => h x (by simp [hx]))]
    rfl

theorem length_flatten_map {α β : Type} (l : List α) (f : α → List β) :
    ((l.map f).flatten).length = (l.map (fun a => (f a).length)).sum := by
  induction l with
  | nil => rfl
  | cons a as ih => simp [ih]

theorem valid_content (factor : Nat) (specs : List FileSpec)
    (hvalid : ∀ sp ∈ specs, sp.Valid factor)
    (hfactor : MaxScanTokenSize * factor ≤ maxInt / 2 + 1) :
    (specs.map FileSpec.file).map (fileLines factor) = specs.map (fun sp => sliceLines sp.lines) ∧
      ((specs.map FileSpec.file).map (fileErrs factor)).flatten = [] := by
  constructor
  · rw [List.map_map]
    apply List.map_congr_left
    intro sp hsp
    exact fileLines_lineFile factor sp.lines sp.chunks sp.eager (hvalid sp hsp) hfactor
  · apply flatten_eq_nil_of
    intro x hx
    rw [List.map_map] at hx
    obtain ⟨sp, hsp, rfl⟩ := List.mem_map.mp hx
    exact fileErrs_lineFile factor sp.lines sp.chunks sp.eager (hvalid sp hsp) hfactor

/-- C2: for file names that all open and all hold valid gzip line files, in every run of
`MultiplexGZLines`: the immediate error, once returned, is nil; the run is finite; and
when nothing more can happen the consumer has received on the combined line channel a
permutation of all lines of all files (so their number is the sum of the files' line
counts), the lines of each file in their original order, and nothing on the combined
error channel, and both combined channels are closed. -/
theorem MultiplexGZLines_valid_files (fs : String → Except GoError GzFile) (factor : Nat)
    (filenames : List String) (specs : List FileSpec)
    (hopen : List.Forall₂ (fun fn sp => fs fn = Except.ok (FileSpec.file sp)) filenames specs)
    (hvalid : ∀ sp ∈ specs, sp.Valid factor)
    (hfactor : MaxScanTokenSize * factor ≤ maxInt / 2 + 1)
    (acts : List Action) (s : MState)
    (hrun : (MState.init factor filenames).run fs acts = some s) :
    (∀ e, s.mainPc = .returned e → e = none) ∧
      acts.length ≤ (MState.init factor filenames).weight fs ∧
      (s.Terminal fs →
        s.mainPc = .returned none ∧
        (allLines s.log).Perm ((specs.map (fun sp => sliceLines sp.lines)).flatten) ∧
        (allLines s.log).length = (specs.map (fun sp => sp.lines.length)).sum ∧
        (∀ (i : Nat) (sp : FileSpec), specs[i]? = some sp →
          linesFrom i s.log = sliceLines sp.lines) ∧
        allErrs s.log = [] ∧ s.lcClosed = true ∧ s.ecClosed = true) := by
  obtain ⟨hinv, hbound, hfinal⟩ := MState.reach fs factor filenames acts s hrun
  obtain ⟨hop, hfe⟩ := opened_of_forall₂ fs filenames _ (forall₂_map_file fs filenames specs hopen)
  obtain ⟨hret, -, -⟩ := hinv.noFailure hfe
  obtain ⟨hvl, hve⟩ := valid_content factor specs hvalid hfactor
  refine ⟨hret, by omega, ?_⟩
  intro ht
  have hF := hfinal ht
  obtain ⟨hpl, hpe⟩ := hF.content hinv
  rw [hop, hvl] at hpl
  rw [hop, hve] at hpe
  refine ⟨by rw [hF.returned, hfe], hpl, ?_, ?_, List.Perm.eq_nil hpe,
    ((hF.closed hfe).2.1), ((hF.closed hfe).2.2.1)⟩
  · rw [hpl.length_eq, length_flatten_map]
    simp [sliceLines]
  · intro i sp hsp
    have hf : (opened fs filenames)[i]? = some sp.file := by
      rw [hop, List.getElem?_map, hsp]
      rfl
    rw [(hF.perFile i sp.file hf).1]
    exact fileLines_lineFile factor sp.lines sp.chunks sp.eager
      (hvalid sp (List.getElem?_mem hsp)) hfactor

/-- C4: for file names that all open, whatever the files hold, in every run of
`MultiplexGZLines`: the run is finite, and when nothing more can happen the consumer has
received from each file, in order, exactly the lines `LinesOfGZ` sends for it and
exactly the errors of its streamer: the immediate error of `LinesOfGZ` if the header is
invalid (and then no line), else what `LinesOfGZ` sends on its error channel, which is
at most one value, never nil; so one error for each failing file, none for the others,
and all lines of the non-failing files, whatever happens to the other files. -/
theorem MultiplexGZLines_failing_files (fs : String → Except GoError GzFile) (factor : Nat)
    (filenames : List String) (files : List GzFile)
    (hopen : List.Forall₂ (fun fn f => fs fn = Except.ok f) filenames files)
    (acts : List Action) (s : MState)
    (hrun : (MState.init factor filenames).run fs acts = some s) :
    acts.length ≤ (MState.init factor filenames).weight fs ∧
      (s.Terminal fs →
        s.mainPc = .returned none ∧
        (∀ (i : Nat) (f : GzFile), files[i]? = some f →
          linesFrom i s.log = fileLines factor f ∧ errsFrom i s.log = fileErrs factor f ∧
          (fileErrs factor f).length ≤ 1 ∧ (∀ e ∈ fileErrs factor f, e ≠ none) ∧
          (f.header ≠ none → fileLines factor f = [] ∧ (fileErrs factor f).length = 1)) ∧
        (allLines s.log).Perm ((files.map (fileLines factor)).flatten) ∧
        (allErrs s.log).Perm ((files.map (fileErrs factor)).flatten) ∧
        (allErrs s.log).length = files.countP (fun f => decide (fileErrs factor f ≠ []))) := by
  obtain ⟨hinv, hbound, hfinal⟩ := MState.reach fs factor filenames acts s hrun
  obtain ⟨hop, hfe⟩ := opened_of_forall₂ fs filenames files hopen
  refine ⟨by omega, ?_⟩
  intro ht
  have hF := hfinal ht
  obtain ⟨hpl, hpe⟩ := hF.content hinv
  rw [hop] at hpl hpe
  refine ⟨by rw [hF.returned, hfe], ?_, hpl, hpe, ?_⟩
  · intro i f hf
    have hf' : (opened fs filenames)[i]? = some f := by rw [hop]; exact hf
    exact ⟨(hF.perFile i f hf').1, (hF.perFile i f hf').2, fileErrs_length_le factor f,
      fileErrs_ne_nil factor f, fileLines_header factor f⟩
  · rw [hpe.length_eq, length_flatten_map]
    clear hpl hpe hop hopen
    induction files with
    | nil => rfl
    | cons f fs' ih =>
      simp only [List.map_cons, List.sum_cons, List.countP_cons, ih]
      have := fileErrs_length_le factor f
      cases hfe : fileErrs factor f with
      | nil => simp
      | cons a as =>
        rw [hfe] at this
        simp only [List.length_cons] at this ⊢
        have : as.length = 0 := by omega
        simp [this]
        omega

/-- C6: for a gzip file with a valid header whose content is lines within the scanner
limit followed by a line longer than `bufio.MaxScanTokenSize * LineBufferLengthFactor`
(terminator included; `65536 * 1024` bytes at the default factor) and by anything
after it, `LinesOfGZ` sends exactly the lines before the long one, in order, then the
one error `bufio.ErrTooLong` on the error channel, then closes both channels. -/
theorem LinesOfGZ_long_line (factor : Nat) (pre : List Line) (long after : List Byte)
    (final : GoError) (chunks : List Nat) (eager : Bool)
    (hfactor : MaxScanTokenSize * factor ≤ maxInt / 2 + 1) (hpos : 1 ≤ factor)
    (hl : ∀ l ∈ pre, l.WellFormed ∧ l.raw.length ≤ MaxScanTokenSize * factor)
    (hlong : MaxScanTokenSize * factor < long.length) (hno : LF ∉ long.dropLast) :
    MaxScanTokenSize * LineBufferLengthFactor = 67108864 ∧
    LinesOfGZ factor
        { header := none,
          body := { data := encode pre ++ (long ++ after), final := final, chunks := chunks,
                    eager := eager } } =
      { ch := some ⟨0⟩, errs := some ⟨1⟩, err := none,
        task := some (pre.map (fun l => ChanOp.sendLine (some l.text))
          ++ [ChanOp.sendErr (some GoError.ErrTooLong), ChanOp.closeLines,
              ChanOp.closeErrs]) } := by
  refine ⟨by decide, ?_⟩
  unfold LinesOfGZ gzipNewReader
  simp only
  rw [linesTask_longLine pre long after final chunks eager _ hl hfactor
    (by simp only [MaxScanTokenSize] at hpos ⊢; omega) hlong hno]

theorem LinesOfGZ_long_line_witness :
    MaxScanTokenSize * LineBufferLengthFactor = 67108864 ∧
    LinesOfGZ LineBufferLengthFactor
        { header := none,
          body := { data := encode sampleLines ++ (longLine ++ [LF, 120, LF]),
                    final := GoError.EOF, chunks := [], eager := true } } =
      { ch := some ⟨0⟩, errs := some ⟨1⟩, err := none,
        task := some (sampleLines.map (fun l => ChanOp.sendLine (some l.text))
          ++ [ChanOp.sendErr (some GoError.ErrTooLong), ChanOp.closeLines,
              ChanOp.closeErrs]) } :=
  LinesOfGZ_long_line LineBufferLengthFactor sampleLines longLine [LF, 120, LF] GoError.EOF []
    true (by decide) (by decide) (by decide) (by simp [longLine])
    (by
      intro h
      have h1 := List.mem_of_mem_dropLast h
      simp [longLine, LF] at h1)

/-- C7: when `gzip.NewReader` fails on the file, `LinesOfGZ` returns its error as a
non-nil immediate error together with a nil line channel and a nil error channel and
starts no background task; and whenever `LinesOfGZ` returns a nil immediate error, both
channels are non-nil (and the background task is started). -/
theorem LinesOfGZ_bad_header (factor : Nat) (rawf : GzFile) :
    (∀ e, gzipNewReader rawf = .error e →
      (LinesOfGZ factor rawf).err = some e ∧ (LinesOfGZ factor rawf).ch = none ∧
        (LinesOfGZ factor rawf).errs = none ∧ (LinesOfGZ factor rawf).task = none) ∧
    ((LinesOfGZ factor rawf).err = none →
      (LinesOfGZ factor rawf).ch ≠ none ∧ (LinesOfGZ factor rawf).errs ≠ none ∧
        (LinesOfGZ factor rawf).task ≠ none) := by
  cases h : gzipNewReader rawf with
  | error e => simp [LinesOfGZ, h]
  | ok r => simp [LinesOfGZ, h]

theorem Worker.recvLine_returns (factor : Nat) (lcC ecC recv : Bool) (w w1 : Worker)
    (ls : List Slice) (es : List error) (out : Option Delivery)
    (hinv : w.Inv factor ls es)
    (h : sendFromFile factor lcC ecC recv w .recvLine = .next w1 true out) : w.lcClosed = true := by
  obtain ⟨rawf, pc, prod, lc, ec⟩ := w
  cases pc <;> simp only [sendFromFile] at h <;> try exact absurd h (by simp)
  have hrun : Worker.Running factor ⟨rawf, Pc.selecting, prod, lc, ec⟩ ls es := hinv
  cases prod with
  | nil =>
    simp only at h
    split_ifs at h with hlc
    exact hlc
  | cons op rest =>
    cases op with
    | sendLine l =>
      obtain ⟨h1, h2, -⟩ := Running_sendLine factor rawf _ Pc.selecting l rest lc ec ls es hrun
      simp [h1, h2] at h
    | sendErr e =>
      simp only at h
      split_ifs at h with hlc
      exact hlc
    | closeLines =>
      simp only at h
      split_ifs at h with hlc
      exact hlc
    | closeErrs =>
      simp only at h
      split_ifs at h with hlc
      exact hlc

/-- C10: the copy `append([]byte{}, token...)` is never nil, also for an empty token, so
every value `LinesOfGZ` sends on its line channel is non-nil; in every run of
`MultiplexGZLines` (all files opening), a `sendFromFile` that returns from
`case l := <-lc` does so with the line channel closed; and for a valid gzip line file at
any place in the list, whatever its lines (empty ones included), when nothing more can
happen the consumer has received from it all its lines, in order. -/
theorem sendFromFile_forwards_empty_lines (fs : String → Except GoError GzFile)
    (factor : Nat) (filenames : List String) (files : List GzFile)
    (hopen : List.Forall₂ (fun fn f => fs fn = Except.ok f) filenames files)
    (i : Nat) (sp : FileSpec) (hi : files[i]? = some sp.file) (hvalid : sp.Valid factor)
    (hfactor : MaxScanTokenSize * factor ≤ maxInt / 2 + 1)
    (acts : List Action) (s : MState)
    (hrun : (MState.init factor filenames).run fs acts = some s) :
    (∀ b : Slice, appendToEmpty b ≠ none) ∧ appendToEmpty (some []) = some [] ∧
      (∀ f : GzFile, ∀ b ∈ fileLines factor f, b ≠ none) ∧
      (∀ (j : Nat) (w w1 : Worker) (out : Option Delivery), s.workers[j]? = some w →
        sendFromFile s.factor s.lcClosed s.ecClosed s.receiving w .recvLine = .next w1 true out →
        w.lcClosed = true) ∧
      acts.length ≤ (MState.init factor filenames).weight fs ∧
      (s.Terminal fs → linesFrom i s.log = sliceLines sp.lines) := by
  obtain ⟨hinv, hbound, hfinal⟩ := MState.reach fs factor filenames acts s hrun
  obtain ⟨hop, hfe⟩ := opened_of_forall₂ fs filenames files hopen
  refine ⟨fun b => by simp [appendToEmpty], rfl, fileLines_ne_nil factor, ?_, by omega, ?_⟩
  · intro j w w1 out hw hstep
    rw [hinv.factorEq] at hstep
    exact Worker.recvLine_returns factor _ _ _ w w1 _ _ out (hinv.workersInv j w hw) hstep
  · intro ht
    have hf : (opened fs filenames)[i]? = some sp.file := by rw [hop]; exact hi
    rw [((hfinal ht).perFile i sp.file hf).1]
    exact fileLines_lineFile factor sp.lines sp.chunks sp.eager hvalid hfactor

theorem opened_append_bad (fs : String → Except GoError GzFile) (pre : List String)
    (bad : String) (post : List String) (files : List GzFile) (e : GoError)
    (hpre : List.Forall₂ (fun fn f => fs fn = Except.ok f) pre files)
    (hbad : fs bad = Except.error e) :
    opened fs (pre ++ bad :: post) = files ∧ firstError fs (pre ++ bad :: post) = some e := by
  induction hpre with
  | nil => simp [opened, firstError, hbad]
  | cons hx _ ih =>
    rw [List.cons_append]
    simp only [opened, firstError, hx]
    exact ⟨congrArg _ ih.1, ih.2⟩

theorem MState.Inv.workers_le {fs : String → Except GoError GzFile} {factor : Nat}
    {filenames : List String} {s : MState} (h : s.Inv fs factor filenames) :
    s.workers.length ≤ (opened fs filenames).length := by
  have hpr := h.progress
  cases hpc : s.mainPc with
  | looping =>
    rw [hpc] at hpr
    have := congrArg List.length hpr.2.1
    simp only [List.length_append, List.length_map] at this
    omega
  | supSpawned =>
    rw [hpc] at hpr
    have := congrArg List.length hpr.2.1
    simp only [List.length_map] at this
    omega
  | returned e =>
    rw [hpc] at hpr
    cases e with
    | none =>
      have := congrArg List.length hpr.2.1
      simp only [List.length_map] at this
      omega
    | some e =>
      have := congrArg List.length hpr.2.1
      simp only [List.length_map] at this
      omega

theorem MState.Inv.failure {fs : String → Except GoError GzFile} {factor : Nat}
    {filenames : List String} {s : MState} (h : s.Inv fs factor filenames) (e : GoError)
    (hfe : firstError fs filenames = some e) :
    ∀ e1, s.mainPc = .returned e1 → e1 = some e := by
  have hpr := h.progress
  intro e1 he1
  rw [he1] at hpr
  cases e1 with
  | none =>
    rw [hfe] at hpr
    exact absurd hpr.2.2 (by simp)
  | some e2 =>
    rw [hfe] at hpr
    exact hpr.2.2.symm

/-- C3, amended: for file names of which one cannot be opened, those before it being
valid gzip line files, in every run of `MultiplexGZLines`: the immediate error, once
returned, is the open error of the bad name; no worker is ever started for the bad name
or a name after it; the run is finite; and when nothing more can happen the consumer has
received exactly the lines of the files named before the bad one, those of each file in
order, and nothing on the combined error channel. -/
theorem MultiplexGZLines_open_failure (fs : String → Except GoError GzFile) (factor : Nat)
    (pre : List String) (bad : String) (post : List String) (specs : List FileSpec)
    (e : GoError)
    (hpre : List.Forall₂ (fun fn sp => fs fn = Except.ok (FileSpec.file sp)) pre specs)
    (hbad : fs bad = Except.error e)
    (hvalid : ∀ sp ∈ specs, sp.Valid factor)
    (hfactor : MaxScanTokenSize * factor ≤ maxInt / 2 + 1)
    (acts : List Action) (s : MState)
    (hrun : (MState.init factor (pre ++ bad :: post)).run fs acts = some s) :
    (∀ e1, s.mainPc = .returned e1 → e1 = some e) ∧
      s.workers.length ≤ pre.length ∧
      acts.length ≤ (MState.init factor (pre ++ bad :: post)).weight fs ∧
      (s.Terminal fs →
        s.mainPc = .returned (some e) ∧
        s.workers.length = pre.length ∧
        (∀ (i : Nat) (sp : FileSpec), specs[i]? = some sp →
          linesFrom i s.log = sliceLines sp.lines) ∧
        (allLines s.log).Perm ((specs.map (fun sp => sliceLines sp.lines)).flatten) ∧
        allErrs s.log = []) := by
  obtain ⟨hinv, hbound, hfinal⟩ := MState.reach fs factor _ acts s hrun
  obtain ⟨hop, hfe⟩ := opened_append_bad fs pre bad post _ e
    (forall₂_map_file fs pre specs hpre) hbad
  obtain ⟨hvl, hve⟩ := valid_content factor specs hvalid hfactor
  have hlen : (specs.map FileSpec.file).length = pre.length := by
    rw [List.length_map, forall₂_length hpre]
  refine ⟨hinv.failure e hfe, ?_, by omega, ?_⟩
  · have := hinv.workers_le
    rw [hop, hlen] at this
    exact this
  · intro ht
    have hF := hfinal ht
    obtain ⟨hpl, hpe⟩ := hF.content hinv
    rw [hop, hvl] at hpl
    rw [hop, hve] at hpe
    refine ⟨by rw [hF.returned, hfe], ?_, ?_, hpl, List.Perm.eq_nil hpe⟩
    · have := congrArg List.length hF.files
      rw [List.length_map, hop, hlen] at this
      exact this
    · intro i sp hsp
      have hf : (opened fs (pre ++ bad :: post))[i]? = some sp.file := by
        rw [hop, List.getElem?_map, hsp]
        rfl
      rw [(hF.perFile i sp.file hf).1]
      exact fileLines_lineFile factor sp.lines sp.chunks sp.eager
        (hvalid sp (List.getElem?_mem hsp)) hfactor

theorem log_nil_of_no_workers {fs : String → Except GoError GzFile} {factor : Nat}
    {filenames : List String} {s : MState} (h : s.Inv fs factor filenames)
    (hop : opened fs filenames = []) : s.log = [] := by
  have hle := h.workers_le
  rw [hop] at hle
  have hz : s.workers.length = 0 := by simpa using hle
  cases hlog : s.log with
  | nil => rfl
  | cons p ps =>
    have := h.logBound p (by rw [hlog]; simp)
    omega

theorem MState.terminal_of_quiet (fs : String → Except GoError GzFile) (s : MState)
    (h : s.Quiet fs) : s.Terminal fs := by
  obtain ⟨hm, hs, hw⟩ := h
  intro a
  unfold MState.step
  split_ifs
  · rfl
  · cases a with
    | main => exact hm
    | supervise => exact hs
    | worker i act =>
      simp only
      by_cases hi : i < s.workers.length
      · refine hw i (List.mem_range.mpr hi) act ?_
        cases act <;> simp [WAct.all]
      · unfold MState.workerStep
        rw [List.getElem?_eq_none (by omega)]

theorem MultiplexGZLines_valid_files_witness :
    (MState.init LineBufferLengthFactor ["a.gz", "b.gz"]).run fsDemo schedAB
        = some (endOf ["a.gz", "b.gz"] schedAB) ∧
      (endOf ["a.gz", "b.gz"] schedAB).Terminal fsDemo ∧
      (endOf ["a.gz", "b.gz"] schedAB).mainPc = .returned none ∧
      allLines (endOf ["a.gz", "b.gz"] schedAB).log = [some [120], some [122], some [121]] ∧
      (allLines (endOf ["a.gz", "b.gz"] schedAB).log).Perm
        [some [120], some [121], some [122]] ∧
      (allLines (endOf ["a.gz", "b.gz"] schedAB).log).length = 3 ∧
      linesFrom 0 (endOf ["a.gz", "b.gz"] schedAB).log = [some [120], some [121]] ∧
      linesFrom 1 (endOf ["a.gz", "b.gz"] schedAB).log = [some [122]] ∧
      allErrs (endOf ["a.gz", "b.gz"] schedAB).log = [] ∧
      (endOf ["a.gz", "b.gz"] schedAB).lcClosed = true ∧
      (endOf ["a.gz", "b.gz"] schedAB).ecClosed = true := by
  have hrun : (MState.init LineBufferLengthFactor ["a.gz", "b.gz"]).run fsDemo schedAB
      = some (endOf ["a.gz", "b.gz"] schedAB) := by decide
  have hterm := MState.terminal_of_quiet fsDemo (endOf ["a.gz", "b.gz"] schedAB) (by decide)
  have h := MultiplexGZLines_valid_files fsDemo LineBufferLengthFactor ["a.gz", "b.gz"]
    [specA, specB] (List.Forall₂.cons rfl (List.Forall₂.cons rfl List.Forall₂.nil))
    (by decide) (by decide) schedAB _ hrun
  obtain ⟨h1, h2, h3, h4, h5, h6, h7⟩ := h.2.2 hterm
  exact ⟨hrun, hterm, h1, by decide, h2, h3, h4 0 specA rfl, h4 1 specB rfl, h5, h6, h7⟩

theorem MultiplexGZLines_failing_files_witness :
    (MState.init LineBufferLengthFactor ["a.gz", "bad.gz", "cut.gz"]).run fsDemo schedFail
        = some (endOf ["a.gz", "bad.gz", "cut.gz"] schedFail) ∧
      (endOf ["a.gz", "bad.gz", "cut.gz"] schedFail).Terminal fsDemo ∧
      (endOf ["a.gz", "bad.gz", "cut.gz"] schedFail).mainPc = .returned none ∧
      linesFrom 0 (endOf ["a.gz", "bad.gz", "cut.gz"] schedFail).log
        = [some [120], some [121]] ∧
      errsFrom 0 (endOf ["a.gz", "bad.gz", "cut.gz"] schedFail).log = [] ∧
      linesFrom 1 (endOf ["a.gz", "bad.gz", "cut.gz"] schedFail).log = [] ∧
      errsFrom 1 (endOf ["a.gz", "bad.gz", "cut.gz"] schedFail).log
        = [some GoError.ErrHeader] ∧
      linesFrom 2 (endOf ["a.gz", "bad.gz", "cut.gz"] schedFail).log
        = [some [120], some [121]] ∧
      errsFrom 2 (endOf ["a.gz", "bad.gz", "cut.gz"] schedFail).log
        = [some GoError.ErrChecksum] ∧
      (allErrs (endOf ["a.gz", "bad.gz", "cut.gz"] schedFail).log).length = 2 := by
  have hrun : (MState.init LineBufferLengthFactor ["a.gz", "bad.gz", "cut.gz"]).run fsDemo
      schedFail = some (endOf ["a.gz", "bad.gz", "cut.gz"] schedFail) := by decide
  have hterm := MState.terminal_of_quiet fsDemo
    (endOf ["a.gz", "bad.gz", "cut.gz"] schedFail) (by decide)
  have h := MultiplexGZLines_failing_files fsDemo LineBufferLengthFactor
    ["a.gz", "bad.gz", "cut.gz"] [specA.file, badHeader, cutFile]
    (List.Forall₂.cons rfl (List.Forall₂.cons rfl (List.Forall₂.cons rfl List.Forall₂.nil)))
    schedFail _ hrun
  obtain ⟨h1, h2, h3, h4, h5⟩ := h.2 hterm
  refine ⟨hrun, hterm, h1, ?_, ?_, ?_, ?_, ?_, ?_, ?_⟩
  · rw [(h2 0 specA.file rfl).1]; decide
  · rw [(h2 0 specA.file rfl).2.1]; decide
  · rw [(h2 1 badHeader rfl).1]; decide
  · rw [(h2 1 badHeader rfl).2.1]; decide
  · rw [(h2 2 cutFile rfl).1]; decide
  · rw [(h2 2 cutFile rfl).2.1]; decide
  · rw [h5]; decide

theorem MultiplexGZLines_closes_once_witness :
    (MState.init LineBufferLengthFactor ["a.gz", "b.gz"]).run fsDemo schedBA
        = some (endOf ["a.gz", "b.gz"] schedBA) ∧
      (endOf ["a.gz", "b.gz"] schedBA).Terminal fsDemo ∧
      (endOf ["a.gz", "b.gz"] schedBA).panicked = false ∧
      (endOf ["a.gz", "b.gz"] schedBA).lineCloses = 1 ∧
      (endOf ["a.gz", "b.gz"] schedBA).errCloses = 1 ∧
      (endOf ["a.gz", "b.gz"] schedBA).lcClosed = true ∧
      (endOf ["a.gz", "b.gz"] schedBA).ecClosed = true ∧
      (endOf ["a.gz", "b.gz"] schedBA).wg = 0 ∧
      (endOf ["a.gz", "b.gz"] schedBA).workers.length = 2 ∧
      ∀ w ∈ (endOf ["a.gz", "b.gz"] schedBA).workers, w.pc = .done := by
  have hrun : (MState.init LineBufferLengthFactor ["a.gz", "b.gz"]).run fsDemo schedBA
      = some (endOf ["a.gz", "b.gz"] schedBA) := by decide
  have hterm := MState.terminal_of_quiet fsDemo (endOf ["a.gz", "b.gz"] schedBA) (by decide)
  have h := MultiplexGZLines_closes_once fsDemo LineBufferLengthFactor ["a.gz", "b.gz"]
    [specA.file, specB.file] (List.Forall₂.cons rfl (List.Forall₂.cons rfl List.Forall₂.nil))
    schedBA _ hrun
  obtain ⟨h1, h2, h3, h4, h5, h6, h7, h8, h9, h10, h11⟩ := h
  obtain ⟨t1, t2, t3, t4⟩ := h11 hterm
  have hw := h8 (Or.inl (by omega))
  exact ⟨hrun, hterm, h1, t1, t2, t3, t4, h7 (Or.inr (Or.inr (by decide))), hw.1, hw.2⟩

theorem sendFromFile_forwards_empty_lines_witness :
    (MState.init LineBufferLengthFactor ["b.gz", "e.gz"]).run fsDemo schedEmpty
        = some (endOf ["b.gz", "e.gz"] schedEmpty) ∧
      (endOf ["b.gz", "e.gz"] schedEmpty).Terminal fsDemo ∧
      fileLines LineBufferLengthFactor specE.file = [some [120], some [], some [121]] ∧
      linesFrom 1 (endOf ["b.gz", "e.gz"] schedEmpty).log
        = [some [120], some [], some [121]] := by
  have hrun : (MState.init LineBufferLengthFactor ["b.gz", "e.gz"]).run fsDemo schedEmpty
      = some (endOf ["b.gz", "e.gz"] schedEmpty) := by decide
  have hterm := MState.terminal_of_quiet fsDemo (endOf ["b.gz", "e.gz"] schedEmpty) (by decide)
  have h := sendFromFile_forwards_empty_lines fsDemo LineBufferLengthFactor ["b.gz", "e.gz"]
    [specB.file, specE.file] (List.Forall₂.cons rfl (List.Forall₂.cons rfl List.Forall₂.nil))
    1 specE rfl (by decide) (by decide) schedEmpty _ hrun
  exact ⟨hrun, hterm, by decide, h.2.2.2.2.2 hterm⟩

theorem MultiplexGZLines_open_failure_witness :
    (MState.init LineBufferLengthFactor ["a.gz", "missing.gz", "b.gz"]).run fsDemo schedMissing
        = some (endOf ["a.gz", "missing.gz", "b.gz"] schedMissing) ∧
      (endOf ["a.gz", "missing.gz", "b.gz"] schedMissing).Terminal fsDemo ∧
      (endOf ["a.gz", "missing.gz", "b.gz"] schedMissing).mainPc
        = .returned (some (GoError.PathError "missing.gz")) ∧
      (endOf ["a.gz", "missing.gz", "b.gz"] schedMissing).workers.length = 1 ∧
      linesFrom 0 (endOf ["a.gz", "missing.gz", "b.gz"] schedMissing).log
        = [some [120], some [121]] ∧
      (allLines (endOf ["a.gz", "missing.gz", "b.gz"] schedMissing).log).Perm
        [some [120], some [121]] ∧
      allErrs (endOf ["a.gz", "missing.gz", "b.gz"] schedMissing).log = [] := by
  have hrun : (MState.init LineBufferLengthFactor ["a.gz", "missing.gz", "b.gz"]).run fsDemo
      schedMissing = some (endOf ["a.gz", "missing.gz", "b.gz"] schedMissing) := by decide
  have hterm := MState.terminal_of_quiet fsDemo
    (endOf ["a.gz", "missing.gz", "b.gz"] schedMissing) (by decide)
  have h := MultiplexGZLines_open_failure fsDemo LineBufferLengthFactor ["a.gz"] "missing.gz"
    ["b.gz"] [specA] (GoError.PathError "missing.gz")
    (List.Forall₂.cons rfl List.Forall₂.nil) rfl (by decide) (by decide) schedMissing _ hrun
  obtain ⟨h1, h2, h3, h4, h5⟩ := h.2.2.2 hterm
  exact ⟨hrun, hterm, h1, h2, h3 0 specA rfl, h4, h5⟩

/-- C3 as stated is false: with `"missing.gz"` first in the list, `MultiplexGZLines`
returns its open error at once and never opens the valid file `"a.gz"` after it; the
run that consists of this one step is complete, and in no run does the consumer receive
anything, although `"a.gz"` holds the lines `"x"` and `"y"`. -/
theorem MultiplexGZLines_open_failure_counterexample :
    fsDemo "missing.gz" = Except.error (GoError.PathError "missing.gz") ∧
      fsDemo "a.gz" = Except.ok specA.file ∧
      fileLines LineBufferLengthFactor specA.file = [some [120], some [121]] ∧
      (MState.init LineBufferLengthFactor ["missing.gz", "a.gz"]).run fsDemo [Action.main]
        = some (endOf ["missing.gz", "a.gz"] [Action.main]) ∧
      (endOf ["missing.gz", "a.gz"] [Action.main]).Terminal fsDemo ∧
      (endOf ["missing.gz", "a.gz"] [Action.main]).mainPc
        = .returned (some (GoError.PathError "missing.gz")) ∧
      allLines (endOf ["missing.gz", "a.gz"] [Action.main]).log = [] ∧
      ¬ ∃ acts s, (MState.init LineBufferLengthFactor ["missing.gz", "a.gz"]).run fsDemo acts
          = some s ∧ allLines s.log ≠ [] := by
  refine ⟨rfl, rfl, by decide, by decide,
    MState.terminal_of_quiet fsDemo _ (by decide), by decide, by decide, ?_⟩
  rintro ⟨acts, s, hrun, hne⟩
  obtain ⟨hinv, -, -⟩ := MState.reach fsDemo LineBufferLengthFactor _ acts s hrun
  have hop : opened fsDemo ["missing.gz", "a.gz"] = [] := rfl
  rw [log_nil_of_no_workers hinv hop] at hne
  exact hne rfl

theorem matchTerms_lits (s n : List Char) :
    matchTerms (s.map Term.lit) n = decide (n = s) := by
  induction s generalizing n with
  | nil => cases n <;> simp [matchTerms]
  | cons a as ih =>
    cases n with
    | nil => simp [matchTerms]
    | cons c cs =>
      simp only [List.map_cons, matchTerms, ih, List.cons.injEq]
      rw [Bool.eq_iff_iff]
      simp only [Bool.and_eq_true, beq_iff_eq, decide_eq_true_eq]
      constructor
      · rintro ⟨h1, h2⟩; exact ⟨h1.symm, h2⟩
      · rintro ⟨h1, h2⟩; exact ⟨h1.symm, h2⟩

theorem matchTerms_star_lits (s n : List Char) :
    matchTerms (Term.star :: s.map Term.lit) n = true ↔
      ∃ q, n = q ++ s ∧ Separator ∉ q := by
  induction n with
  | nil =>
    simp only [matchTerms, matchStar, matchTerms_lits, decide_eq_true_eq]
    constructor
    · intro h; exact ⟨[], by simp [h], by simp⟩
    · rintro ⟨q, hq, -⟩
      have := congrArg List.length hq
      simp only [List.length_nil, List.length_append] at this
      exact (List.length_eq_zero.mp (by omega)).symm
  | cons c cs ih =>
    simp only [matchTerms, matchStar, matchTerms_lits] at ih ⊢
    simp only [Bool.or_eq_true, Bool.and_eq_true, bne_iff_ne, ne_eq, ih, decide_eq_true_eq]
    constructor
    · rintro (h | ⟨hc, q, hq, hs⟩)
      · exact ⟨[], by simp [h], by simp⟩
      · exact ⟨c :: q, by simp [hq], by simp [hs, Ne.symm hc]⟩
    · rintro ⟨q, hq, hs⟩
      cases q with
      | nil => left; simpa using hq
      | cons x xs =>
        simp only [List.cons_append, List.cons.injEq] at hq
        right
        obtain ⟨hx, hcs⟩ := hq
        subst hx
        simp only [List.mem_cons, not_or] at hs
        exact ⟨fun h => hs.1 h.symm, xs, hcs, hs.2⟩

theorem Match_gz (n : String) :
    Match "*.gz" n = .ok (matchTerms (Term.star :: ['.', 'g', 'z'].map Term.lit) n.data) := rfl

theorem Match_gzip (n : String) :
    Match "*.gzip" n
      = .ok (matchTerms (Term.star :: ['.', 'g', 'z', 'i', 'p'].map Term.lit) n.data) := rfl

theorem Match_gz_iff (n : String) :
    Match "*.gz" n = .ok true ↔ ∃ q, n.data = q ++ ['.', 'g', 'z'] ∧ Separator ∉ q := by
  rw [Match_gz, ← matchTerms_star_lits]
  constructor
  · intro h; injection h
  · intro h; rw [h]

theorem Match_gzip_iff (n : String) :
    Match "*.gzip" n = .ok true ↔
      ∃ q, n.data = q ++ ['.', 'g', 'z', 'i', 'p'] ∧ Separator ∉ q := by
  rw [Match_gzip, ← matchTerms_star_lits]
  constructor
  · intro h; injection h
  · intro h; rw [h]

theorem not_both (n : String) :
    ¬ (Match "*.gz" n = .ok true ∧ Match "*.gzip" n = .ok true) := by
  rintro ⟨h1, h2⟩
  obtain ⟨q1, hq1, -⟩ := (Match_gz_iff n).mp h1
  obtain ⟨q2, hq2, -⟩ := (Match_gzip_iff n).mp h2
  have := congrArg List.getLast? (hq1.symm.trans hq2)
  simp at this

theorem matchesGlob_iff (pattern n : String) :
    matchesGlob pattern n = true ↔ Match pattern n = .ok true := by
  unfold matchesGlob
  cases h : Match pattern n with
  | error e => simp
  | ok b => cases b <;> simp

theorem isWanted_iff (n : String) :
    isWanted n = true ↔ matchesGlob "*.gz" n = true ∨ matchesGlob "*.gzip" n = true := by
  simp [isWanted, jlgzGlobs]

theorem filter_disjoint_length {α : Type} (l : List α) (p q r : α → Bool)
    (hr : ∀ a, r a = (p a || q a)) (hd : ∀ a, ¬ (p a = true ∧ q a = true)) :
    (l.filter p).length + (l.filter q).length = (l.filter r).length := by
  induction l with
  | nil => rfl
  | cons a as ih =>
    have h1 := hr a
    have h2 := hd a
    simp only [List.filter_cons, h1]
    cases hp : p a <;> cases hq : q a <;> simp_all <;> omega

theorem elements_ne_nil (p : List Char) : elements p ≠ [] := by
  cases p with
  | nil => simp [elements]
  | cons c cs =>
    unfold elements
    split_ifs
    · simp
    · split <;> simp

theorem elements_cons_of_ne (c : Char) (cs e : List Char) (es : List (List Char))
    (hc : c ≠ Separator) (h : elements cs = e :: es) :
    elements (c :: cs) = (c :: e) :: es := by
  simp [elements, hc, h]

theorem elements_append_sep (a b : List Char) :
    elements (a ++ Separator :: b) = elements a ++ elements b := by
  induction a with
  | nil => simp [elements]
  | cons c cs ih =>
    by_cases hc : c = Separator
    · simp [elements, hc, ih]
    · cases h : elements cs with
      | nil => exact absurd h (elements_ne_nil cs)
      | cons e es =>
        have h1 : elements (cs ++ Separator :: b) = e :: (es ++ elements b) := by
          rw [ih, h]; rfl
        rw [List.cons_append, elements_cons_of_ne _ _ _ _ hc h1, elements_cons_of_ne _ _ _ _ hc h]
        rfl

theorem elements_of_not_mem (e : List Char) (h : Separator ∉ e) : elements e = [e] := by
  induction e with
  | nil => rfl
  | cons c cs ih =>
    have hc : c ≠ Separator := fun hh => h (by simp [hh])
    have hcs : Separator ∉ cs := fun hh => h (by simp [hh])
    simp [elements, hc, ih hcs]

theorem mem_elements (p e : List Char) (he : e ∈ elements p) :
    Separator ∉ e ∧ ∀ c ∈ e, c ∈ p := by
  induction p generalizing e with
  | nil =>
    simp only [elements, List.mem_singleton] at he
    subst he
    simp
  | cons c cs ih =>
    by_cases hc : c = Separator
    · simp only [elements, hc, if_true, List.mem_cons] at he
      rcases he with he | he
      · subst he; simp
      · obtain ⟨h1, h2⟩ := ih e he
        exact ⟨h1, fun x hx => List.mem_cons_of_mem _ (h2 x hx)⟩
    · simp only [elements, hc, if_false] at he
      cases h : elements cs with
      | nil => exact absurd h (elements_ne_nil cs)
      | cons e1 es =>
        rw [h] at he
        simp only [List.mem_cons] at he
        rcases he with he | he
        · obtain ⟨h1, h2⟩ := ih e1 (by rw [h]; simp)
          subst he
          refine ⟨?_, ?_⟩
          · simp only [List.mem_cons, not_or]
            exact ⟨fun hh => hc hh.symm, h1⟩
          · intro x hx
            simp only [List.mem_cons] at hx ⊢
            rcases hx with hx | hx
            · exact Or.inl hx
            · exact Or.inr (h2 x hx)
        · obtain ⟨h1, h2⟩ := ih e (by rw [h]; simp [he])
          exact ⟨h1, fun x hx => List.mem_cons_of_mem _ (h2 x hx)⟩

theorem cleanStep_real (r : Bool) (out : List (List Char)) (e : List Char) (h : RealElem e) :
    cleanStep r out e = out ++ [e] := by
  obtain ⟨h1, h2, h3, -⟩ := h
  simp [cleanStep, h1, h2, h3]

theorem cleanStep_mem (r : Bool) (out : List (List Char)) (e x : List Char)
    (hx : x ∈ cleanStep r out e) : x ∈ out ∨ (x = e ∧ e ≠ []) := by
  unfold cleanStep at hx
  split_ifs at hx with h1 h2 h3 h4 h5
  · exact Or.inl hx
  · exact Or.inl hx
  · exact Or.inl (List.mem_of_mem_dropLast hx)
  · exact Or.inl hx
  · simp only [List.mem_append, List.mem_singleton] at hx
    rcases hx with hx | hx
    · exact Or.inl hx
    · exact Or.inr ⟨hx, h1⟩
  · simp only [List.mem_append, List.mem_singleton] at hx
    rcases hx with hx | hx
    · exact Or.inl hx
    · exact Or.inr ⟨hx, h1⟩

theorem foldl_cleanStep_mem (r : Bool) (es : List (List Char)) (out : List (List Char))
    (x : List Char) (hx : x ∈ es.foldl (cleanStep r) out) :
    x ∈ out ∨ (x ∈ es ∧ x ≠ []) := by
  induction es generalizing out with
  | nil => exact Or.inl hx
  | cons e es ih =>
    simp only [List.foldl_cons] at hx
    rcases ih _ hx with h | ⟨h, hne⟩
    · rcases cleanStep_mem r out e x h with h1 | ⟨h1, h2⟩
      · exact Or.inl h1
      · exact Or.inr ⟨by simp [h1], by rw [h1]; exact h2⟩
    · exact Or.inr ⟨List.mem_cons_of_mem _ h, hne⟩

theorem cleanStack_mem (path x : List Char) (hx : x ∈ cleanStack path) :
    x ≠ [] ∧ Separator ∉ x ∧ ∀ c ∈ x, c ∈ path := by
  unfold cleanStack at hx
  rcases foldl_cleanStep_mem _ _ _ _ hx with h | ⟨h, hne⟩
  · simp at h
  · obtain ⟨h1, h2⟩ := mem_elements path x h
    exact ⟨hne, h1, h2⟩

theorem joinElems_append_singleton (s : List (List Char)) (x : List Char) :
    joinElems (s ++ [x]) = (if s = [] then [] else joinElems s ++ [Separator]) ++ x := by
  induction s with
  | nil => simp [joinElems]
  | cons e es ih =>
    cases es with
    | nil => simp [joinElems]
    | cons e1 es1 =>
      have ih1 : joinElems (e1 :: (es1 ++ [x])) = joinElems (e1 :: es1) ++ [Separator] ++ x := by
        simpa using ih
      show joinElems (e :: e1 :: (es1 ++ [x])) = _
      simp only [joinElems, ih1]
      simp

theorem mem_joinElems (s : List (List Char)) (c : Char) (hc : c ∈ joinElems s) :
    c = Separator ∨ ∃ e ∈ s, c ∈ e := by
  induction s with
  | nil => simp [joinElems] at hc
  | cons e es ih =>
    cases es with
    | nil =>
      simp only [joinElems] at hc
      exact Or.inr ⟨e, by simp, hc⟩
    | cons e1 es1 =>
      simp only [joinElems, List.mem_append, List.mem_cons] at hc
      rcases hc with hc | hc | hc
      · exact Or.inr ⟨e, by simp, hc⟩
      · exact Or.inl hc
      · rcases ih hc with h | ⟨e2, he2, h⟩
        · exact Or.inl h
        · exact Or.inr ⟨e2, List.mem_cons_of_mem _ he2, h⟩

theorem joinElems_ne_nil (s : List (List Char)) (hs : s ≠ []) (h : ∀ e ∈ s, e ≠ []) :
    joinElems s ≠ [] := by
  cases s with
  | nil => exact absurd rfl hs
  | cons e es =>
    cases es with
    | nil => simpa [joinElems] using h e (by simp)
    | cons e1 es1 => simp [joinElems]

theorem render_append_singleton (r : Bool) (s : List (List Char)) (x : List Char) :
    render r (s ++ [x]) = dirPrefix r s ++ x := by
  unfold render dirPrefix
  rw [joinElems_append_singleton]
  cases r <;> simp

theorem cleanChars_eq (path : List Char) :
    cleanChars path = render (isRooted path) (cleanStack path) := by
  unfold cleanChars render cleanStack isRooted
  by_cases hp : path = []
  · subst hp
    simp [elements, cleanStep]
  · simp only [hp, if_false]
    by_cases hr : path.head? = some Separator
    · simp [hr]
    · simp [hr]

theorem Clean_eq (dir : String) :
    Clean dir = ⟨render (isRooted dir.data) (cleanStack dir.data)⟩ := by
  unfold Clean
  rw [cleanChars_eq]

theorem isRooted_append (a b : List Char) (ha : a ≠ []) : isRooted (a ++ b) = isRooted a := by
  cases a with
  | nil => exact absurd rfl ha
  | cons c cs => simp [isRooted]

theorem isRooted_of_not_mem (e : List Char) (h : Separator ∉ e) : isRooted e = false := by
  cases e with
  | nil => simp [isRooted]
  | cons c cs =>
    have hc : c ≠ Separator := fun hh => h (by simp [hh])
    simp [isRooted, hc]

theorem cleanStack_append_real (a x : List Char) (ha : a ≠ []) (hx : RealElem x) :
    cleanStack (a ++ Separator :: x) = cleanStack a ++ [x] := by
  unfold cleanStack
  rw [isRooted_append a _ ha, elements_append_sep, elements_of_not_mem x hx.2.2.2,
    List.foldl_append]
  simp only [List.foldl_cons, List.foldl_nil]
  exact cleanStep_real _ _ _ hx

theorem cleanStack_real (x : List Char) (hx : RealElem x) : cleanStack x = [x] := by
  unfold cleanStack
  rw [elements_of_not_mem x hx.2.2.2]
  simp only [List.foldl_cons, List.foldl_nil]
  simpa using cleanStep_real _ [] _ hx

theorem Join_real (dir x : String) (hx : RealElem x.data) :
    Join dir x = ⟨dirPrefix (isRooted dir.data) (cleanStack dir.data) ++ x.data⟩ := by
  unfold Join
  by_cases hd : dir = ""
  · subst hd
    have hxe : x ≠ "" := by
      intro h; subst h; exact hx.1 rfl
    simp only [ne_eq, not_true, if_false, hxe, not_false_eq_true, if_true]
    rw [Clean_eq, cleanStack_real _ hx, isRooted_of_not_mem _ hx.2.2.2]
    rfl
  · have hdd : dir.data ≠ [] := by
      intro h; apply hd; exact String.ext h
    simp only [ne_eq, hd, not_false_eq_true, if_true]
    rw [Clean_eq]
    have hdata : (dir ++ "/" ++ x).data = dir.data ++ Separator :: x.data := by
      simp [String.data_append, Separator]
    rw [hdata, isRooted_append _ _ hdd, cleanStack_append_real _ _ hdd hx,
      render_append_singleton]

theorem hasMeta_eq_false_iff (p : String) : hasMeta p = false ↔ NoMeta p.data := by
  unfold hasMeta NoMeta
  rw [List.any_eq_false]
  constructor
  · intro h c hc
    have := h c hc
    simp only [Bool.or_eq_true, beq_iff_eq, not_or] at this
    exact ⟨this.1.1.1, this.1.1.2, this.1.2, this.2⟩
  · intro h c hc
    obtain ⟨h1, h2, h3, h4⟩ := h c hc
    simp [h1, h2, h3, h4]

theorem takeWhile_dropWhile_append {α : Type} (p : α → Bool) (a b : List α)
    (ha : ∀ x ∈ a, p x = true) (hb : b = [] ∨ ∃ y ys, b = y :: ys ∧ p y = false) :
    (a ++ b).takeWhile p = a ∧ (a ++ b).dropWhile p = b := by
  induction a with
  | nil =>
    rcases hb with hb | ⟨y, ys, hb, hy⟩
    · subst hb; simp
    · subst hb; simp [List.takeWhile, List.dropWhile, hy]
  | cons x xs ih =>
    have hx := ha x (by simp)
    obtain ⟨h1, h2⟩ := ih (fun z hz => ha z (List.mem_cons_of_mem _ hz))
    simp [List.takeWhile, List.dropWhile, hx, h1, h2]

theorem Split_append (P f : List Char) (hP : P = [] ∨ ∃ Q, P = Q ++ [Separator])
    (hf : Separator ∉ f) : Split ⟨P ++ f⟩ = (⟨P⟩, ⟨f⟩) := by
  have ha : ∀ x ∈ f.reverse, (fun c => c != Separator) x = true := by
    intro x hx
    have hxf : x ∈ f := List.mem_reverse.mp hx
    simp only [bne_iff_ne, ne_eq]
    intro h; subst h; exact hf hxf
  have hb : P.reverse = [] ∨ ∃ y ys, P.reverse = y :: ys ∧ (fun c => c != Separator) y = false := by
    rcases hP with hP | ⟨Q, hQ⟩
    · left; simp [hP]
    · right
      refine ⟨Separator, Q.reverse, by simp [hQ], by simp⟩
  obtain ⟨h1, h2⟩ := takeWhile_dropWhile_append _ f.reverse P.reverse ha hb
  unfold Split
  simp only [List.reverse_append, h1, h2, List.reverse_reverse]

theorem dirPrefix_cases (r : Bool) (s : List (List Char)) :
    dirPrefix r s = [] ∨ ∃ Q, dirPrefix r s = Q ++ [Separator] := by
  unfold dirPrefix
  cases r
  · by_cases hs : s = []
    · left; simp [hs]
    · right; exact ⟨joinElems s, by simp [hs]⟩
  · right
    by_cases hs : s = []
    · exact ⟨[], by simp [hs]⟩
    · exact ⟨Separator :: joinElems s, by simp [hs]⟩

theorem cleanGlobPath_dirPrefix (r : Bool) (s : List (List Char)) (hs : ∀ e ∈ s, e ≠ []) :
    cleanGlobPath ⟨dirPrefix r s⟩ = ⟨render r s⟩ := by
  unfold cleanGlobPath dirPrefix render
  by_cases hn : s = []
  · subst hn
    cases r
    · rfl
    · rfl
  · have hj := joinElems_ne_nil s hn hs
    have hlen : 0 < (joinElems s).length := List.length_pos.mpr hj
    cases r
    · have h1 : (⟨joinElems s ++ [Separator]⟩ : String) ≠ "" := by
        intro h
        have := congrArg String.data h
        simp at this
      have h2 : (⟨joinElems s ++ [Separator]⟩ : String) ≠ "/" := by
        intro h
        have h3 : (joinElems s ++ [Separator]).length = 1 :=
          congrArg (fun t => t.data.length) h
        simp only [List.length_append, List.length_singleton] at h3
        omega
      simp [hn, h1, h2]
    · have h1 : (⟨Separator :: (joinElems s ++ [Separator])⟩ : String) ≠ "" := by
        intro h
        have := congrArg String.data h
        simp at this
      have h2 : (⟨Separator :: (joinElems s ++ [Separator])⟩ : String) ≠ "/" := by
        intro h
        have h3 : (Separator :: (joinElems s ++ [Separator])).length = 1 :=
          congrArg (fun t => t.data.length) h
        simp only [List.length_cons, List.length_append, List.length_singleton] at h3
        omega
      simp only [hn, if_true, if_false, List.singleton_append, h1, h2]
      congr 1
      rw [← List.cons_append, List.dropLast_concat]

theorem NoMeta_render (r : Bool) (s : List (List Char)) (hs : ∀ e ∈ s, NoMeta e) :
    NoMeta (render r s) := by
  have hj : NoMeta (joinElems s) := by
    intro c hc
    rcases mem_joinElems s c hc with h | ⟨e, he, h⟩
    · subst h; decide
    · exact hs e he c h
  unfold render
  cases r
  · by_cases hn : s = []
    · simp only [hn, if_true, Bool.false_eq_true, if_false]; decide
    · simpa [hn] using hj
  · intro c hc
    simp only [if_true, List.mem_cons] at hc
    rcases hc with hc | hc
    · subst hc; decide
    · exact hj c hc

theorem NoMeta_dirPrefix (r : Bool) (s : List (List Char)) (hs : ∀ e ∈ s, NoMeta e) :
    NoMeta (dirPrefix r s) := by
  have hj : NoMeta (joinElems s) := by
    intro c hc
    rcases mem_joinElems s c hc with h | ⟨e, he, h⟩
    · subst h; decide
    · exact hs e he c h
  have hsep : Separator ≠ '*' ∧ Separator ≠ '?' ∧ Separator ≠ '[' ∧ Separator ≠ '\\' := by decide
  unfold dirPrefix
  intro c hc
  simp only [List.mem_append] at hc
  rcases hc with hc | hc
  · cases r
    · simp at hc
    · simp only [if_true, List.mem_singleton] at hc
      subst hc; exact hsep
  · by_cases hn : s = []
    · simp [hn] at hc
    · simp only [hn, if_false, List.mem_append, List.mem_singleton] at hc
      rcases hc with hc | hc
      · exact hj c hc
      · subst hc; exact hsep

theorem NoMeta_cleanStack (path : List Char) (h : NoMeta path) :
    ∀ e ∈ cleanStack path, NoMeta e := by
  intro e he c hc
  exact h c ((cleanStack_mem path e he).2.2 c hc)

theorem parsePattern_lit (fuel : Nat) (c : Char) (rest : List Char)
    (hc : c ≠ '*' ∧ c ≠ '?' ∧ c ≠ '[' ∧ c ≠ '\\') :
    parsePattern (fuel + 1) (c :: rest) = (parsePattern fuel rest).map (Term.lit c :: ·) := by
  obtain ⟨h1, h2, h3, h4⟩ := hc
  conv_lhs => unfold parsePattern
  split <;> simp_all

theorem parsePattern_noMeta (p rest : List Char) (fuel : Nat) (hp : NoMeta p) :
    parsePattern (p.length + fuel) (p ++ rest)
      = (parsePattern fuel rest).map (p.map Term.lit ++ ·) := by
  induction p with
  | nil =>
    simp only [List.length_nil, Nat.zero_add, List.nil_append, List.map_nil]
    cases parsePattern fuel rest <;> rfl
  | cons c cs ih =>
    have hc := hp c (by simp)
    have hcs : NoMeta cs := fun x hx => hp x (List.mem_cons_of_mem _ hx)
    have hl : (c :: cs).length + fuel = (cs.length + fuel) + 1 := by
      simp only [List.length_cons]; omega
    rw [hl, List.cons_append, parsePattern_lit _ _ _ hc, ih hcs]
    cases parsePattern fuel rest <;> simp

theorem parsePattern_star (P s : List Char) (hP : NoMeta P) (hs : NoMeta s) :
    parsePattern ((P ++ '*' :: s).length + 1) (P ++ '*' :: s)
      = some (P.map Term.lit ++ Term.star :: s.map Term.lit) := by
  have hl : (P ++ '*' :: s).length + 1 = P.length + ((s.length + 1) + 1) := by
    simp only [List.length_append, List.length_cons]
    omega
  rw [hl, parsePattern_noMeta P _ _ hP]
  have h1 : parsePattern (s.length + 1 + 1) ('*' :: s)
      = (parsePattern (s.length + 1) s).map (Term.star :: ·) := by
    simp [parsePattern]
  have h2 : parsePattern (s.length + 1) s = some (s.map Term.lit) := by
    have := parsePattern_noMeta s [] 1 hs
    simp only [List.append_nil] at this
    rw [this]
    simp [parsePattern]
  rw [h1, h2]
  simp

theorem Match_star (P s : List Char) (hP : NoMeta P) (hs : NoMeta s) (x : String) :
    Match ⟨P ++ '*' :: s⟩ x
      = .ok (matchTerms (P.map Term.lit ++ Term.star :: s.map Term.lit) x.data) := by
  unfold Match
  simp only
  rw [parsePattern_star P s hP hs]

theorem hasMeta_star (P s : List Char) : hasMeta ⟨P ++ '*' :: s⟩ = true := by
  unfold hasMeta
  rw [List.any_eq_true]
  exact ⟨'*', by simp, by decide⟩

theorem globNames_ok (dir pattern : String) (names m : List String)
    (hp : ∀ n, ∃ b, Match pattern n = .ok b) :
    globNames dir pattern names m
      = .ok (m ++ (names.filter (matchesGlob pattern)).map (Join dir)) := by
  induction names generalizing m with
  | nil => simp [globNames]
  | cons n ns ih =>
    obtain ⟨b, hb⟩ := hp n
    have hm : matchesGlob pattern n = b := by
      unfold matchesGlob; rw [hb]
    simp only [globNames, hb, ih, List.filter_cons, hm]
    cases b <;> simp

theorem Glob_Join (fs : FileSystem) (dir fg : String) (s : List Char) (names : List String)
    (hmeta : hasMeta dir = false) (hfg : fg.data = '*' :: s) (hs : NoMeta s)
    (hsep : Separator ∉ s) (hdir : fs.readDir (Clean dir) = some names) :
    Glob fs (Join dir fg)
      = .ok (((sortStrings names).filter (matchesGlob fg)).map (Join (Clean dir))) := by
  have hreal : RealElem fg.data := by
    rw [hfg]
    refine ⟨by simp, by simp, by simp [dotdot], ?_⟩
    simp only [List.mem_cons, not_or]
    exact ⟨by decide, hsep⟩
  have hnm : NoMeta dir.data := (hasMeta_eq_false_iff dir).mp hmeta
  have hst := NoMeta_cleanStack dir.data hnm
  have hne : ∀ e ∈ cleanStack dir.data, e ≠ [] := fun e he => (cleanStack_mem _ e he).1
  have hfgeq : fg = ⟨'*' :: s⟩ := String.ext hfg
  have hJ : Join dir fg
      = ⟨dirPrefix (isRooted dir.data) (cleanStack dir.data) ++ '*' :: s⟩ := by
    rw [Join_real dir fg hreal, hfg]
  have hM : ∀ x, ∃ b, Match (Join dir fg) x = .ok b := by
    intro x
    rw [hJ, Match_star _ _ (NoMeta_dirPrefix _ _ hst) hs]
    exact ⟨_, rfl⟩
  have hMfg : ∀ x, ∃ b, Match fg x = .ok b := by
    intro x
    have := Match_star [] s (by intro c hc; simp at hc) hs x
    rw [hfgeq]
    exact ⟨_, this⟩
  have hH : hasMeta (Join dir fg) = true := by
    rw [hJ]; exact hasMeta_star _ _
  have hS : Split (Join dir fg)
      = (⟨dirPrefix (isRooted dir.data) (cleanStack dir.data)⟩, fg) := by
    rw [Join_real dir fg hreal, Split_append _ _ (dirPrefix_cases _ _) hreal.2.2.2]
  have hC : cleanGlobPath (Split (Join dir fg)).1 = Clean dir := by
    rw [hS, Clean_eq]
    exact cleanGlobPath_dirPrefix _ _ hne
  have hCm : hasMeta (Clean dir) = false := by
    rw [hasMeta_eq_false_iff, Clean_eq]
    exact NoMeta_render _ _ hst
  obtain ⟨b, hb⟩ := hM ""
  have hlim : pathSeparatorsLimit = 9999 + 1 := rfl
  unfold Glob
  rw [hlim, globWithLimit]
  have hS2 : (Split (Join dir fg)).2 = fg := by rw [hS]
  simp only [hb, hH, hC, hCm, hS2, Bool.not_true, Bool.false_eq_true, if_false, Bool.not_false,
    if_true]
  unfold glob
  rw [hdir]
  simp only
  rw [globNames_ok _ _ _ _ hMfg]
  simp

theorem AllGZInDir_eq (fs : FileSystem) (dir : String) (names : List String)
    (hmeta : hasMeta dir = false) (hdir : fs.readDir (Clean dir) = some names) :
    AllGZInDir fs dir
      = .ok (((sortStrings names).filter (matchesGlob "*.gz")).map (Join (Clean dir))
          ++ ((sortStrings names).filter (matchesGlob "*.gzip")).map (Join (Clean dir))) := by
  have h1 := Glob_Join fs dir "*.gz" ['.', 'g', 'z'] names hmeta rfl (by decide) (by decide) hdir
  have h2 := Glob_Join fs dir "*.gzip" ['.', 'g', 'z', 'i', 'p'] names hmeta rfl (by decide)
    (by decide) hdir
  simp only [AllGZInDir, jlgzGlobs, globAll, h1, h2, List.nil_append]

theorem not_real_dotdot : ¬ RealElem dotdot := fun h => h.2.2.1 rfl

theorem StackForm_of_real (r : Bool) (s : List (List Char)) (h : ∀ x ∈ s, RealElem x) :
    StackForm r s := by
  cases s with
  | nil => trivial
  | cons e es => exact Or.inr h

theorem StackForm_push (r : Bool) (out : List (List Char)) (e : List Char)
    (hout : StackForm r out) (he : RealElem e) : StackForm r (out ++ [e]) := by
  induction out with
  | nil => exact Or.inr (by simpa using he)
  | cons a as ih =>
    rcases hout with ⟨h1, h2, h3⟩ | h
    · exact Or.inl ⟨h1, h2, ih h3⟩
    · refine Or.inr ?_
      intro x hx
      have hx1 : x ∈ a :: (as ++ [e]) := hx
      rw [List.mem_cons, List.mem_append, List.mem_singleton] at hx1
      rcases hx1 with hx | hx | hx
      · exact h x (by simp [hx])
      · exact h x (by simp [hx])
      · rw [hx]; exact he

theorem StackForm_dropLast (r : Bool) (out : List (List Char)) (hout : StackForm r out) :
    StackForm r out.dropLast := by
  induction out with
  | nil => trivial
  | cons a as ih =>
    cases as with
    | nil => trivial
    | cons b bs =>
      rcases hout with ⟨h1, h2, h3⟩ | h
      · exact Or.inl ⟨h1, h2, ih h3⟩
      · refine Or.inr ?_
        intro x hx
        exact h x (List.mem_of_mem_dropLast hx)

theorem StackForm_all_dotdot (out : List (List Char)) (hout : StackForm false out)
    (hlast : out = [] ∨ out.getLast? = some dotdot) : ∀ x ∈ out, x = dotdot := by
  induction out with
  | nil => intro x hx; simp at hx
  | cons a as ih =>
    have hl : (a :: as).getLast? = some dotdot := by
      rcases hlast with h | h
      · simp at h
      · exact h
    rcases hout with ⟨h1, -, h3⟩ | h
    · intro x hx
      simp only [List.mem_cons] at hx
      rcases hx with hx | hx
      · rw [hx]; exact h1
      · cases as with
        | nil => simp at hx
        | cons b bs =>
          exact ih h3 (Or.inr (by simpa [List.getLast?_cons_cons] using hl)) x hx
    · exfalso
      have hmem : dotdot ∈ a :: as := List.mem_of_getLast?_eq_some hl
      exact not_real_dotdot (h _ hmem)

theorem StackForm_push_dotdot (out : List (List Char)) (h : ∀ x ∈ out, x = dotdot) :
    StackForm false (out ++ [dotdot]) := by
  induction out with
  | nil => exact Or.inl ⟨rfl, rfl, trivial⟩
  | cons a as ih =>
    exact Or.inl ⟨h a (by simp), rfl, ih (fun x hx => h x (List.mem_cons_of_mem _ hx))⟩

theorem cleanStep_form (r : Bool) (out : List (List Char)) (e : List Char)
    (hout : StackForm r out) (he : Separator ∉ e) : StackForm r (cleanStep r out e) := by
  unfold cleanStep
  split_ifs with h1 h2 h3 h4 h5
  · exact hout
  · exact hout
  · exact StackForm_dropLast r out hout
  · exact hout
  · have hr : r = false := by simpa using h5
    subst hr
    rw [h3]
    apply StackForm_push_dotdot
    apply StackForm_all_dotdot out hout
    by_cases ho : out = []
    · exact Or.inl ho
    · right
      by_contra hc
      exact h4 ⟨ho, hc⟩
  · exact StackForm_push r out e hout ⟨h1, h2, h3, he⟩

theorem foldl_cleanStep_form (r : Bool) (es out : List (List Char))
    (hout : StackForm r out) (hes : ∀ e ∈ es, Separator ∉ e) :
    StackForm r (es.foldl (cleanStep r) out) := by
  induction es generalizing out with
  | nil => exact hout
  | cons e es ih =>
    simp only [List.foldl_cons]
    exact ih _ (cleanStep_form r out e hout (hes e (by simp)))
      (fun x hx => hes x (List.mem_cons_of_mem _ hx))

theorem cleanStack_form (path : List Char) : StackForm (isRooted path) (cleanStack path) := by
  unfold cleanStack
  exact foldl_cleanStep_form _ _ [] trivial (fun e he => (mem_elements path e he).1)

theorem foldl_cleanStep_real (r : Bool) (s pre : List (List Char)) (h : ∀ x ∈ s, RealElem x) :
    s.foldl (cleanStep r) pre = pre ++ s := by
  induction s generalizing pre with
  | nil => simp
  | cons e es ih =>
    simp only [List.foldl_cons]
    rw [cleanStep_real r pre e (h e (by simp)),
      ih _ (fun x hx => h x (List.mem_cons_of_mem _ hx))]
    simp

theorem foldl_cleanStep_stack (r : Bool) (s pre : List (List Char)) (hs : StackForm r s)
    (hpre : ∀ x ∈ pre, x = dotdot) : s.foldl (cleanStep r) pre = pre ++ s := by
  induction s generalizing pre with
  | nil => simp
  | cons e es ih =>
    rcases hs with ⟨h1, h2, h3⟩ | h
    · subst h1
      subst h2
      have hstep : cleanStep false pre dotdot = pre ++ [dotdot] := by
        have hcond : ¬ (pre ≠ [] ∧ pre.getLast? ≠ some dotdot) := by
          rintro ⟨hne, hl⟩
          apply hl
          obtain ⟨a, ha⟩ := Option.isSome_iff_exists.mp
            (by
              cases hp : pre with
              | nil => exact absurd hp hne
              | cons b bs => simp [List.getLast?_isSome] : pre.getLast?.isSome = true)
          rw [ha, hpre a (List.mem_of_getLast?_eq_some ha)]
        unfold cleanStep
        rw [if_neg (by decide : ¬ dotdot = []), if_neg (by decide : ¬ dotdot = ['.']),
          if_pos rfl, if_neg hcond]
        simp
      simp only [List.foldl_cons, hstep]
      rw [ih _ h3 (by
        intro x hx
        simp only [List.mem_append, List.mem_singleton] at hx
        rcases hx with hx | hx
        · exact hpre x hx
        · exact hx)]
      simp
    · exact foldl_cleanStep_real r _ pre h

theorem elements_joinElems (s : List (List Char)) (hs : s ≠ [])
    (h : ∀ e ∈ s, Separator ∉ e) : elements (joinElems s) = s := by
  induction s with
  | nil => exact absurd rfl hs
  | cons e es ih =>
    cases es with
    | nil => simpa [joinElems] using elements_of_not_mem e (h e (by simp))
    | cons e1 es1 =>
      simp only [joinElems]
      rw [elements_append_sep, elements_of_not_mem e (h e (by simp)),
        ih (by simp) (fun x hx => h x (List.mem_cons_of_mem _ hx))]
      rfl

theorem StackForm_mem (r : Bool) (s : List (List Char)) (hs : StackForm r s) :
    ∀ e ∈ s, e ≠ [] ∧ e ≠ ['.'] ∧ Separator ∉ e := by
  induction s with
  | nil => intro e he; simp at he
  | cons a as ih =>
    rcases hs with ⟨h1, -, h3⟩ | h
    · intro e he
      simp only [List.mem_cons] at he
      rcases he with he | he
      · rw [he, h1]; decide
      · exact ih h3 e he
    · intro e he
      obtain ⟨h1, h2, -, h4⟩ := h e he
      exact ⟨h1, h2, h4⟩

theorem isRooted_render (r : Bool) (s : List (List Char)) (hs : StackForm r s) :
    isRooted (render r s) = r := by
  unfold render
  cases r
  · by_cases hn : s = []
    · simp [hn, isRooted, Separator]
    · simp only [Bool.false_eq_true, if_false, hn]
      cases s with
      | nil => exact absurd rfl hn
      | cons e es =>
        obtain ⟨h1, -, h3⟩ := StackForm_mem false _ hs e (by simp)
        cases e with
        | nil => exact absurd rfl h1
        | cons c cs =>
          have hc : c ≠ Separator := fun hh => h3 (by simp [hh])
          cases es <;> simp [joinElems, isRooted, hc]
  · simp [isRooted]

theorem cleanStack_render (r : Bool) (s : List (List Char)) (hs : StackForm r s) :
    cleanStack (render r s) = s := by
  have hsep : ∀ e ∈ s, Separator ∉ e := fun e he => (StackForm_mem r s hs e he).2.2
  unfold cleanStack
  rw [isRooted_render r s hs]
  by_cases hn : s = []
  · subst hn
    cases r <;> simp [render, joinElems, elements, cleanStep, Separator]
  · have hel := elements_joinElems s hn hsep
    cases r
    · simp only [render, Bool.false_eq_true, if_false, hn, hel]
      simpa using foldl_cleanStep_stack false s [] hs (by simp)
    · have : elements (render true s) = [] :: s := by
        simp [render, elements, hel]
      rw [this]
      simp only [List.foldl_cons]
      have h0 : cleanStep true [] [] = [] := by simp [cleanStep]
      rw [h0]
      simpa using foldl_cleanStep_stack true s [] hs (by simp)

theorem Clean_Clean (dir : String) : Clean (Clean dir) = Clean dir := by
  rw [Clean_eq (Clean dir), Clean_eq dir]
  simp only
  rw [isRooted_render _ _ (cleanStack_form _), cleanStack_render _ _ (cleanStack_form _)]

theorem Join_Clean (dir x : String) (hx : RealElem x.data) :
    Join (Clean dir) x = Join dir x := by
  rw [Join_real _ _ hx, Join_real _ _ hx, Clean_eq dir]
  simp only
  rw [isRooted_render _ _ (cleanStack_form _), cleanStack_render _ _ (cleanStack_form _)]

theorem Join_injective (dir a b : String) (ha : RealElem a.data) (hb : RealElem b.data)
    (h : Join dir a = Join dir b) : a = b := by
  rw [Join_real _ _ ha, Join_real _ _ hb] at h
  have := congrArg String.data h
  simp only at this
  exact String.ext (List.append_cancel_left this)

theorem joinElems_ne_dot (s : List (List Char)) (hs : s ≠ [])
    (h : ∀ e ∈ s, e ≠ [] ∧ e ≠ ['.'] ∧ Separator ∉ e) :
    joinElems s ≠ ['.'] ∧ joinElems s ≠ [Separator] := by
  cases s with
  | nil => exact absurd rfl hs
  | cons e es =>
    obtain ⟨h1, h2, h3⟩ := h e (by simp)
    cases es with
    | nil =>
      simp only [joinElems]
      refine ⟨h2, ?_⟩
      intro hh
      rw [hh] at h3
      simp at h3
    | cons e1 es1 =>
      simp only [joinElems]
      cases e with
      | nil => exact absurd rfl h1
      | cons c cs =>
        constructor
        · intro hh
          have := congrArg List.length hh
          simp at this
        · intro hh
          have := congrArg List.length hh
          simp at this

theorem Join_explicit (dir x : String) (hx : RealElem x.data) :
    Join dir x =
      if Clean dir = "." then x
      else if Clean dir = "/" then "/" ++ x
      else Clean dir ++ "/" ++ x := by
  have hform := cleanStack_form dir.data
  have hmem := StackForm_mem _ _ hform
  rw [Join_real dir x hx, Clean_eq dir]
  generalize isRooted dir.data = r at hform hmem ⊢
  generalize cleanStack dir.data = s at hform hmem ⊢
  have hdot : ∀ l : List Char, ((⟨l⟩ : String) = ".") ↔ l = ['.'] := by
    intro l
    constructor
    · intro h; exact congrArg String.data h
    · intro h; subst h; rfl
  have hsl : ∀ l : List Char, ((⟨l⟩ : String) = "/") ↔ l = [Separator] := by
    intro l
    constructor
    · intro h; exact congrArg String.data h
    · intro h; subst h; rfl
  simp only [hdot, hsl]
  by_cases hn : s = []
  · subst hn
    cases r
    · simp [render, dirPrefix]
    · have h1 : ¬ ([Separator] = ['.']) := by decide
      simp only [render, dirPrefix, joinElems, if_true, h1, if_false]
      apply String.ext
      simp [Separator]
  · obtain ⟨hd1, hd2⟩ := joinElems_ne_dot s hn hmem
    have hj := joinElems_ne_nil s hn (fun e he => (hmem e he).1)
    cases r
    · simp only [render, dirPrefix, Bool.false_eq_true, if_false, hn, hd1, hd2]
      apply String.ext
      simp [Separator]
    · have h1 : ¬ (Separator :: joinElems s = ['.']) := by
        intro hh
        have := (List.cons.inj hh).1
        exact absurd this (by decide)
      have h2 : ¬ (Separator :: joinElems s = [Separator]) := by
        intro hh
        exact hj (List.cons.inj hh).2
      simp only [render, dirPrefix, if_true, hn, if_false, h1, h2]
      apply String.ext
      simp [Separator]

theorem stringLess_asymm (a b : List Char) (h : stringLess a b = true) :
    stringLess b a = false := by
  induction a generalizing b with
  | nil =>
    cases b with
    | nil => simp [stringLess] at h
    | cons y ys => simp [stringLess]
  | cons x xs ih =>
    cases b with
    | nil => simp [stringLess] at h
    | cons y ys =>
      simp only [stringLess, Bool.or_eq_true, Bool.and_eq_true, decide_eq_true_eq] at h
      simp only [stringLess, Bool.or_eq_false_iff, Bool.and_eq_false_iff, decide_eq_false_iff_not]
      rcases h with h | ⟨h1, h2⟩
      · exact ⟨by omega, Or.inl (by omega)⟩
      · exact ⟨by omega, Or.inr (ih ys h2)⟩

theorem stringLess_between (c a b : List Char) (h : stringLess c a = true) :
    stringLess c b = true ∨ stringLess b a = true := by
  induction c generalizing a b with
  | nil =>
    cases a with
    | nil => simp [stringLess] at h
    | cons x xs =>
      cases b with
      | nil => right; simp [stringLess]
      | cons y ys => left; simp [stringLess]
  | cons z zs ih =>
    cases a with
    | nil => simp [stringLess] at h
    | cons x xs =>
      cases b with
      | nil => right; simp [stringLess]
      | cons y ys =>
        simp only [stringLess, Bool.or_eq_true, Bool.and_eq_true, decide_eq_true_eq] at h ⊢
        rcases h with h | ⟨h1, h2⟩
        · rcases Nat.lt_trichotomy z.toNat y.toNat with hzy | hzy | hzy
          · exact Or.inl (Or.inl hzy)
          · exact Or.inr (Or.inl (by omega))
          · exact Or.inr (Or.inl (by omega))
        · rcases Nat.lt_trichotomy z.toNat y.toNat with hzy | hzy | hzy
          · exact Or.inl (Or.inl hzy)
          · rcases ih xs ys h2 with h3 | h3
            · exact Or.inl (Or.inr ⟨hzy, h3⟩)
            · exact Or.inr (Or.inr ⟨by omega, h3⟩)
          · exact Or.inr (Or.inl (by omega))

theorem sortStrings_sorted (names : List String) :
    (sortStrings names).Sorted (fun a b => stringLess b.data a.data = false) := by
  haveI : IsTotal String (fun a b => stringLess b.data a.data = false) :=
    ⟨fun a b => by
      cases h : stringLess b.data a.data with
      | false => exact Or.inl rfl
      | true => exact Or.inr (stringLess_asymm _ _ h)⟩
  haveI : IsTrans String (fun a b => stringLess b.data a.data = false) :=
    ⟨fun a b c hab hbc => by
      cases h : stringLess c.data a.data with
      | false => rfl
      | true =>
        rcases stringLess_between _ _ b.data h with h1 | h1
        · rw [h1] at hbc; cases hbc
        · rw [h1] at hab; cases hab⟩
  exact List.sorted_insertionSort _ names

theorem sortStrings_perm (names : List String) : (sortStrings names).Perm names :=
  List.perm_insertionSort _ names

/-- C8, amended: for a directory whose path holds none of the characters `*`, `?`, `[`
and `\`, that can be read under its cleaned path, and whose entries are distinct names
(non-empty, without separator, neither `.` nor `..`), `AllGZInDir` returns the joined
paths of the directory and of the names matching `*.gz`, in sorted order of the names
(the order of Go strings), followed by those of the names matching `*.gzip`, in sorted
order: the joined path is
the name itself for the directory `.`, the name after `/` for the root and the cleaned
directory path, a `/` and the name otherwise. The number of paths is the number of
entries matching at least one of the two patterns; no path occurs twice, the path of
every matching entry occurs exactly once, the path of no other entry occurs and every
path returned is that of a matching entry; no name matches both patterns (a name
matches `*.gz` when it ends in `.gz`, `*.gzip` when it ends in `.gzip`, with no
separator before). -/
theorem AllGZInDir_returns_matching (fs : FileSystem) (dir : String) (names : List String)
    (hmeta : hasMeta dir = false) (hdir : fs.readDir (Clean dir) = some names)
    (hnames : names.Nodup ∧ ∀ n ∈ names, RealElem n.data) :
    ∃ paths, AllGZInDir fs dir = .ok paths ∧
      paths = ((sortStrings names).filter (matchesGlob "*.gz")).map (Join dir)
        ++ ((sortStrings names).filter (matchesGlob "*.gzip")).map (Join dir) ∧
      (sortStrings names).Perm names ∧
      (sortStrings names).Sorted (fun a b => stringLess b.data a.data = false) ∧
      (∀ n ∈ names, Join dir n =
        if Clean dir = "." then n
        else if Clean dir = "/" then "/" ++ n
        else Clean dir ++ "/" ++ n) ∧
      paths.length = (names.filter isWanted).length ∧
      paths.length + (names.filter (fun n => !isWanted n)).length = names.length ∧
      paths.Nodup ∧
      (∀ n ∈ names, isWanted n = true → paths.count (Join dir n) = 1) ∧
      (∀ n ∈ names, isWanted n = false → Join dir n ∉ paths) ∧
      (∀ p ∈ paths, ∃ n ∈ names, isWanted n = true ∧ p = Join dir n) ∧
      (∀ n : String, ¬ (Match "*.gz" n = .ok true ∧ Match "*.gzip" n = .ok true)) ∧
      (∀ n : String, isWanted n = true ↔
        (∃ q, n.data = q ++ ['.', 'g', 'z'] ∧ Separator ∉ q) ∨
        (∃ q, n.data = q ++ ['.', 'g', 'z', 'i', 'p'] ∧ Separator ∉ q)) := by
  obtain ⟨hnodup, hreal⟩ := hnames
  have hperm := sortStrings_perm names
  have hmemS : ∀ n, n ∈ sortStrings names ↔ n ∈ names := fun n => hperm.mem_iff
  have hnodupS : (sortStrings names).Nodup := hperm.nodup_iff.mpr hnodup
  have hinj : ∀ a ∈ names, ∀ b ∈ names, Join dir a = Join dir b → a = b :=
    fun a ha b hb h => Join_injective dir a b (hreal a ha) (hreal b hb) h
  have hmap : ∀ pattern, ((sortStrings names).filter (matchesGlob pattern)).map (Join (Clean dir))
      = ((sortStrings names).filter (matchesGlob pattern)).map (Join dir) := by
    intro pattern
    apply List.map_congr_left
    intro n hn
    exact Join_Clean dir n (hreal n ((hmemS n).mp (List.mem_of_mem_filter hn)))
  have heq := AllGZInDir_eq fs dir names hmeta hdir
  rw [hmap, hmap] at heq
  have hdisj : ∀ n : String, ¬ (matchesGlob "*.gz" n = true ∧ matchesGlob "*.gzip" n = true) := by
    intro n h
    exact not_both n ⟨(matchesGlob_iff _ _).mp h.1, (matchesGlob_iff _ _).mp h.2⟩
  have hmem : ∀ p, p ∈ ((sortStrings names).filter (matchesGlob "*.gz")).map (Join dir) ++
      ((sortStrings names).filter (matchesGlob "*.gzip")).map (Join dir) ↔
      ∃ n ∈ names, isWanted n = true ∧ p = Join dir n := by
    intro p
    simp only [List.mem_append, List.mem_map, List.mem_filter, hmemS, isWanted_iff]
    constructor
    · rintro (⟨n, ⟨hn, hm⟩, rfl⟩ | ⟨n, ⟨hn, hm⟩, rfl⟩)
      · exact ⟨n, hn, Or.inl hm, rfl⟩
      · exact ⟨n, hn, Or.inr hm, rfl⟩
    · rintro ⟨n, hn, hm | hm, rfl⟩
      · exact Or.inl ⟨n, ⟨hn, hm⟩, rfl⟩
      · exact Or.inr ⟨n, ⟨hn, hm⟩, rfl⟩
  have hinjS : ∀ pattern, (((sortStrings names).filter (matchesGlob pattern)).map (Join dir)).Nodup := by
    intro pattern
    refine List.Nodup.map_on ?_ (hnodupS.filter _)
    intro a ha b hb h
    exact hinj a ((hmemS a).mp (List.mem_of_mem_filter ha)) b
      ((hmemS b).mp (List.mem_of_mem_filter hb)) h
  have hnd : (((sortStrings names).filter (matchesGlob "*.gz")).map (Join dir) ++
      ((sortStrings names).filter (matchesGlob "*.gzip")).map (Join dir)).Nodup := by
    rw [List.nodup_append]
    refine ⟨hinjS _, hinjS _, ?_⟩
    intro p h1 h2
    simp only [List.mem_map, List.mem_filter, hmemS] at h1 h2
    obtain ⟨n1, ⟨hn1, hm1⟩, rfl⟩ := h1
    obtain ⟨n2, ⟨hn2, hm2⟩, hj⟩ := h2
    have := hinj n2 hn2 n1 hn1 hj
    subst this
    exact hdisj n2 ⟨hm1, hm2⟩
  have hlen : (((sortStrings names).filter (matchesGlob "*.gz")).map (Join dir) ++
      ((sortStrings names).filter (matchesGlob "*.gzip")).map (Join dir)).length
      = (names.filter isWanted).length := by
    rw [List.length_append, List.length_map, List.length_map,
      (hperm.filter (matchesGlob "*.gz")).length_eq, (hperm.filter (matchesGlob "*.gzip")).length_eq]
    exact filter_disjoint_length names (matchesGlob "*.gz") (matchesGlob "*.gzip") isWanted
      (fun n => by
        rw [Bool.eq_iff_iff, isWanted_iff]
        simp)
      hdisj
  refine ⟨_, heq, rfl, hperm, sortStrings_sorted names,
    fun n hn => Join_explicit dir n (hreal n hn), hlen, ?_, hnd,
    ?_, ?_, ?_, not_both, ?_⟩
  · rw [hlen]
    have := List.length_eq_length_filter_add (l := names) isWanted
    omega
  · intro n hn hw
    exact List.count_eq_one_of_mem hnd ((hmem _).mpr ⟨n, hn, hw, rfl⟩)
  · intro n hn hw hin
    obtain ⟨n2, hn2, hw2, hj⟩ := (hmem _).mp hin
    have := hinj n hn n2 hn2 hj
    subst this
    rw [hw] at hw2
    cases hw2
  · intro p hp
    exact (hmem p).mp hp
  · intro n
    rw [isWanted_iff, matchesGlob_iff, matchesGlob_iff, Match_gz_iff, Match_gzip_iff]

theorem AllGZInDir_returns_matching_witness :
    AllGZInDir (oneDir "data" sampleNames) "./data/"
        = .ok ["data/.gz", "data/a.gz", "data/c.jl.gz", "data/e.jsonl.gz", "data/b.gzip"] ∧
      sampleNames.filter isWanted = ["e.jsonl.gz", "b.gzip", "a.gz", "c.jl.gz", ".gz"] ∧
      ∃ paths, AllGZInDir (oneDir "data" sampleNames) "./data/" = .ok paths ∧
        paths.length = (sampleNames.filter isWanted).length ∧ paths.Nodup := by
  obtain ⟨paths, h1, -, -, -, -, h3, -, h5, -⟩ :=
    AllGZInDir_returns_matching (oneDir "data" sampleNames) "./data/" sampleNames
      (by decide) (by decide) (by decide)
  exact ⟨rfl, by decide, paths, h1, h3, h5⟩

/-- C8 as worded fails: the directory `da[ta` holds the one file `a.gz`, which matches
`*.gz`, and `AllGZInDir("da[ta")` panics with `ErrBadPattern` instead of returning one
path. -/
theorem AllGZInDir_returns_matching_counterexample :
    (oneDir "da[ta" ["a.gz"]).readDir "da[ta" = some ["a.gz"] ∧
      ["a.gz"].filter isWanted = ["a.gz"] ∧
      Join "da[ta" "*.gz" = "da[ta/*.gz" ∧
      Match "da[ta/*.gz" "" = .error GoError.ErrBadPattern ∧
      AllGZInDir (oneDir "da[ta" ["a.gz"]) "da[ta" = .error GoError.ErrBadPattern :=
  ⟨by decide, by decide, by decide, rfl, rfl⟩

/-- C9 against the code: `jlgzGlobs` holds `*.gz` and `*.gzip`, not the four patterns of
the doc comment. For the sample directory `AllGZInDir` returns `a.gz`, `b.gzip` and
`.gz`, which none of the documented patterns matches, and it returns neither `d.jlgz`
nor `f.jsonlgz`, which the documented patterns `*.jlgz` and `*.jsonlgz` match. -/
theorem AllGZInDir_not_documented_patterns :
    jlgzGlobs = ["*.gz", "*.gzip"] ∧
      documentedGlobs = ["*.jl.gz", "*.jlgz", "*.jsonl.gz", "*.jsonlgz"] ∧
      sortStrings sampleNames
        = [".gz", "a.gz", "b.gzip", "c.jl.gz", "d.jlgz", "e.jsonl.gz", "f.jsonlgz", "g.txt", "gz"] ∧
      AllGZInDir (oneDir "data" sampleNames) "data"
        = .ok ["data/.gz", "data/a.gz", "data/c.jl.gz", "data/e.jsonl.gz", "data/b.gzip"] ∧
      (sortStrings sampleNames).filter
          (fun n => documentedGlobs.any (fun fg => matchesGlob fg n))
        = ["c.jl.gz", "d.jlgz", "e.jsonl.gz", "f.jsonlgz"] ∧
      documentedGlobs.any (fun fg => matchesGlob fg "d.jlgz") = true ∧
      documentedGlobs.any (fun fg => matchesGlob fg "f.jsonlgz") = true ∧
      isWanted "d.jlgz" = false ∧ isWanted "f.jsonlgz" = false ∧
      documentedGlobs.any (fun fg => matchesGlob fg "a.gz") = false ∧
      documentedGlobs.any (fun fg => matchesGlob fg "b.gzip") = false ∧
      documentedGlobs.any (fun fg => matchesGlob fg ".gz") = false ∧
      isWanted "a.gz" = true ∧ isWanted "b.gzip" = true ∧ isWanted ".gz" = true :=
  ⟨rfl, rfl, by decide, rfl, by decide, by decide, by decide, by decide, by decide, by decide,
    by decide, by decide, by decide, by decide, by decide⟩

theorem content_lines (data : List Byte) :
    ∃ (lines : List Line) (last : List Byte),
      data = encode lines ++ last ∧ (∀ l ∈ lines, l.WellFormed) ∧ LF ∉ last := by
  induction data with
  | nil => exact ⟨[], [], rfl, by simp, by simp⟩
  | cons b rest ih =>
    obtain ⟨lines, last, hd, hw, hl⟩ := ih
    by_cases hb : b = LF
    · refine ⟨⟨[], false⟩ :: lines, last, ?_, ?_, hl⟩
      · rw [hd, hb]; simp [encode, Line.raw]
      · intro l hlm
        simp only [List.mem_cons] at hlm
        rcases hlm with h | h
        · subst h; exact ⟨by simp, by simp⟩
        · exact hw l h
    · cases lines with
      | nil =>
        refine ⟨[], b :: last, by simpa [encode] using hd, by simp, ?_⟩
        simp only [List.mem_cons, not_or]
        exact ⟨fun h => hb h.symm, hl⟩
      | cons l ls =>
        have hwl := hw l (by simp)
        have hws : ∀ x ∈ ls, x.WellFormed := fun x hx => hw x (List.mem_cons_of_mem _ hx)
        have hnoLF : LF ∉ b :: l.text := by
          simp only [List.mem_cons, not_or]
          exact ⟨fun h => hb h.symm, hwl.1⟩
        by_cases hcr : l.crlf = false ∧ l.text = [] ∧ b = CR
        · obtain ⟨h1, h2, h3⟩ := hcr
          refine ⟨⟨[], true⟩ :: ls, last, ?_, ?_, hl⟩
          · rw [hd, h3]
            simp [encode, Line.raw, h1, h2]
          · intro x hx
            simp only [List.mem_cons] at hx
            rcases hx with h | h
            · subst h; exact ⟨by simp, by simp⟩
            · exact hws x h
        · refine ⟨⟨b :: l.text, l.crlf⟩ :: ls, last, ?_, ?_, hl⟩
          · rw [hd]
            simp [encode, Line.raw]
          · intro x hx
            simp only [List.mem_cons] at hx
            rcases hx with h | h
            · subst h
              refine ⟨hnoLF, ?_⟩
              intro hc
              simp only at hc ⊢
              cases ht : l.text with
              | nil =>
                simp only [List.getLast?_singleton, ne_eq, Option.some.injEq]
                intro hb2
                exact hcr ⟨hc, ht, hb2⟩
              | cons c cs =>
                have := hwl.2 hc
                rw [ht] at this
                simpa [List.getLast?_cons_cons] using this
            · exact hws x h

theorem Scanner.scanIter_last (s : Scanner) (hp : s.pending ≠ []) (hno : LF ∉ s.pending)
    (herr : s.err ≠ none) :
    s.scanIter = .ret true
      { s with start := s.start + s.pending.length, pending := [],
               tok := some (dropCR s.pending) } := by
  unfold Scanner.scanIter
  have hne : s.pending.isEmpty = false := by
    cases hpp : s.pending with
    | nil => exact absurd hpp hp
    | cons a as => rfl
  have hsome : s.err.isSome = true := by
    cases he : s.err with
    | none => exact absurd he herr
    | some e => rfl
  simp [hne, hsome, ScanLines, IndexByte_none _ _ hno]

theorem Scanner.scanLoop_lastLine (fuel : Nat) (s : Scanner) (tail : List Byte)
    (hwf : s.WF) (hin : s.pending ++ s.r.data = tail) (hno : LF ∉ tail) (hne : tail ≠ [])
    (hlen : tail.length < s.maxTokenSize) (hmax : s.maxTokenSize ≤ maxInt / 2 + 1)
    (hfuel : s.passes ≤ fuel) :
    ∃ s1, s.scanLoop fuel = some (true, s1) ∧ s1.WF ∧ s1.tok = some (dropCR tail) ∧
      s1.pending = [] ∧ s1.r.data = [] ∧ s1.r.final = s.r.final ∧ s.bufLen ≤ s1.bufLen := by
  induction fuel generalizing s with
  | zero =>
    unfold Scanner.passes at hfuel
    split_ifs at hfuel <;> omega
  | succ fuel ih =>
    unfold Scanner.scanLoop
    have hnp : LF ∉ s.pending := fun hmem => hno (by rw [← hin]; exact List.mem_append_left _ hmem)
    by_cases herr : s.err = none
    · obtain ⟨t, hiter⟩ := s.scanIter_noLF hnp herr
      rw [hiter]
      have hwf1 : Scanner.WF { s with tok := t } := ⟨hwf.bound, hwf.drained, hwf.fromReader⟩
      have hplen : s.pending.length ≤ tail.length := by
        rw [← hin]; simp
      obtain ⟨s2, hfill, hwf2, hin2, hm2, hf2, hpass2, hb2, hg2⟩ :=
        Scanner.fill_again { s with tok := t } hwf1 herr (by
          intro _ hfull
          simp only at hfull ⊢
          omega)
      rw [hfill]
      simp only at hin2 hm2 hf2 hb2 hg2
      have hpass : Scanner.passes { s with tok := t } = s.passes := rfl
      obtain ⟨s3, h3, hwf3, htok3, hp3, hd3, hf3, hg3⟩ :=
        ih s2 hwf2 (by rw [hin2]; exact hin) (by rw [hm2]; exact hlen)
          (by rw [hm2]; exact hmax) (by omega)
      exact ⟨s3, h3, hwf3, htok3, hp3, hd3, by rw [hf3, hf2], le_trans hg2 hg3⟩
    · have hd := hwf.drained herr
      have hpt : s.pending = tail := by
        rw [hd, List.append_nil] at hin
        exact hin
      rw [s.scanIter_last (by rw [hpt]; exact hne) hnp herr]
      refine ⟨_, rfl, ⟨?_, fun _ => hd, hwf.fromReader⟩, by rw [hpt], rfl, hd, rfl, le_refl _⟩
      have := hwf.bound
      simp only [List.length_nil]
      omega

theorem Scanner.Scan_lastLine (s : Scanner) (tail : List Byte)
    (hwf : s.WF) (hin : s.pending ++ s.r.data = tail) (hno : LF ∉ tail) (hne : tail ≠ [])
    (hlen : tail.length < s.maxTokenSize) (hmax : s.maxTokenSize ≤ maxInt / 2 + 1) :
    ∃ s1, s.Scan = (true, s1) ∧ s1.WF ∧ s1.tok = some (dropCR tail) ∧
      s1.pending = [] ∧ s1.r.data = [] ∧ s1.r.final = s.r.final ∧ s.bufLen ≤ s1.bufLen := by
  obtain ⟨s1, h, rest1⟩ := s.scanLoop_lastLine _ tail hwf hin hno hne hlen hmax s.passes_le
  exact ⟨s1, by unfold Scanner.Scan; rw [h]; rfl, rest1⟩

theorem scanAndSend_lastLine (fuel : Nat) (s : Scanner) (tail : List Byte)
    (hwf : s.WF) (hin : s.pending ++ s.r.data = tail) (hno : LF ∉ tail) (hne : tail ≠ [])
    (hlen : tail.length < s.maxTokenSize) (hmax : s.maxTokenSize ≤ maxInt / 2 + 1)
    (hbuf : 0 < s.bufLen) (hfuel : 2 ≤ fuel) :
    ∃ s2, scanAndSend fuel s = some ([some (dropCR tail)], s2) ∧ s2.err = some s.r.final := by
  cases fuel with
  | zero => omega
  | succ fuel =>
    obtain ⟨s1, h1, hwf1, htok, hp1, hd1, hf1, hg1⟩ :=
      s.Scan_lastLine tail hwf hin hno hne hlen hmax
    obtain ⟨s2, h2, he2⟩ := scanAndSend_drained fuel s1 hwf1 (by rw [hp1, hd1]; rfl)
      (by omega) (by omega)
    refine ⟨s2, ?_, by rw [he2, hf1]⟩
    simp [scanAndSend, h1, h2, Scanner.Bytes, htok, appendToEmpty]

theorem linesTask_text (lines : List Line) (last : List Byte) (chunks : List Nat)
    (eager : Bool) (max : Nat)
    (hl : ∀ l ∈ lines, l.WellFormed ∧ l.raw.length ≤ max) (hmax : max ≤ maxInt / 2 + 1)
    (hno : LF ∉ last) (hlen : last ≠ [] → last.length < max) :
    linesTask ((NewScanner
        { data := encode lines ++ last, final := GoError.EOF, chunks := chunks,
          eager := eager }).Buffer MaxScanTokenSize max)
      = lines.map (fun l => ChanOp.sendLine (some l.text))
        ++ (if last = [] then [] else [ChanOp.sendLine (some (dropCR last))])
        ++ [ChanOp.closeLines, ChanOp.closeErrs] := by
  obtain ⟨s1, fuel1, hwf1, hin1, hm1, hf1, hb1, hg1, hfu1, h1⟩ :=
    scanAndSend_lines lines last _ _
      (initial_WF ⟨encode lines ++ last, GoError.EOF, chunks, eager⟩ max)
      (by simp [NewScanner, Scanner.Buffer]) hl hmax (le_refl _)
  have hbuf : 0 < s1.bufLen :=
    lt_of_lt_of_le (by simp [NewScanner, Scanner.Buffer, MaxScanTokenSize]) hg1
  have hfin : s1.r.final = GoError.EOF := by
    rw [hf1]; simp [NewScanner, Scanner.Buffer]
  have hmx : s1.maxTokenSize = max := by
    rw [hm1]; simp [NewScanner, Scanner.Buffer]
  unfold linesTask
  by_cases hlast : last = []
  · obtain ⟨s2, h2, he2⟩ := scanAndSend_drained fuel1 s1 hwf1 (by rw [hin1, hlast])
      hbuf (by omega)
    rw [h1, h2]
    have herr : s2.Err = none := by
      unfold Scanner.Err
      rw [he2, hfin]
      simp
    simp [herr, hlast, List.map_map, Function.comp_def]
  · have hl2 : 2 ≤ fuel1 := by
      have h3 := congrArg List.length hin1
      have h4 : 0 < last.length := List.length_pos.mpr hlast
      simp only [List.length_append] at h3
      omega
    obtain ⟨s2, h2, he2⟩ := scanAndSend_lastLine fuel1 s1 last hwf1 hin1 hno hlast
      (by rw [hmx]; exact hlen hlast) (by rw [hmx]; exact hmax) hbuf hl2
    rw [h1, h2]
    have herr : s2.Err = none := by
      unfold Scanner.Err
      rw [he2, hfin]
      simp
    simp [herr, hlast, List.map_map, Function.comp_def]

/-- C1, amended: a gzip file with a valid header decompresses without error to lines
terminated by `"\n"` or `"\r\n"`, possibly followed by a last line without a newline.
If none of the terminated lines is longer, terminator included, than
`bufio.MaxScanTokenSize * LineBufferLengthFactor`, and the last line without a newline
is shorter than that, then, however the decompressor hands the bytes out, `LinesOfGZ`
returns both channels and a nil error, and its background task sends the lines without
their terminators, in order, one value per line (the last line without a newline also
loses a final carriage return), sends nothing on the error channel, then closes the
line channel and the error channel. -/
theorem LinesOfGZ_valid_file (factor : Nat) (lines : List Line) (last : List Byte)
    (chunks : List Nat) (eager : Bool)
    (hfactor : MaxScanTokenSize * factor ≤ maxInt / 2 + 1)
    (hl : ∀ l ∈ lines, l.WellFormed ∧ l.raw.length ≤ MaxScanTokenSize * factor)
    (hlast : LF ∉ last ∧ (last ≠ [] → last.length < MaxScanTokenSize * factor)) :
    LinesOfGZ factor (textFile lines last chunks eager) =
      { ch := some ⟨0⟩, errs := some ⟨1⟩, err := none,
        task := some (lines.map (fun l => ChanOp.sendLine (some l.text))
          ++ (if last = [] then [] else [ChanOp.sendLine (some (dropCR last))])
          ++ [ChanOp.closeLines, ChanOp.closeErrs]) } := by
  unfold LinesOfGZ gzipNewReader textFile
  simp only
  rw [linesTask_text lines last chunks eager _ hl hfactor hlast.1 hlast.2]

theorem LinesOfGZ_valid_file_witness :
    LinesOfGZ LineBufferLengthFactor (textFile sampleLines [119, 13] [1, 2] false) =
      { ch := some ⟨0⟩, errs := some ⟨1⟩, err := none,
        task := some [ChanOp.sendLine (some [120]), ChanOp.sendLine (some []),
          ChanOp.sendLine (some [121, 122]), ChanOp.sendLine (some [119]),
          ChanOp.closeLines, ChanOp.closeErrs] } :=
  LinesOfGZ_valid_file LineBufferLengthFactor sampleLines [119, 13] [1, 2] false
    (by decide) (by decide) (by decide)

theorem limitLine_raw : limitLine.raw = limitLine.text ++ [LF] := rfl

theorem limitLine_length :
    limitLine.text.length = MaxScanTokenSize * LineBufferLengthFactor := by
  simp [limitLine]

theorem limitLine_noLF : LF ∉ limitLine.text := by
  intro h
  have := List.eq_of_mem_replicate h
  exact absurd this (by decide)

theorem limitLine_wellFormed : limitLine.WellFormed := by
  refine ⟨limitLine_noLF, ?_⟩
  intro _ h
  have hmem : CR ∈ limitLine.text := List.mem_of_getLast?_eq_some h
  have := List.eq_of_mem_replicate hmem
  exact absurd this (by decide)

theorem Reader.Read_lazy (r : Reader) (cap : Nat) (he : r.eager = false) (hd : r.data ≠ []) :
    (r.Read cap).2.1 = none ∧ (r.Read cap).2.2.eager = false := by
  have hne : r.data.isEmpty = false := by
    cases hdd : r.data with
    | nil => exact absurd hdd hd
    | cons a as => rfl
  unfold Reader.Read
  simp only [hne, Bool.false_eq_true, if_false, he, Bool.and_false]
  split_ifs
  · exact ⟨rfl, he⟩
  · exact ⟨rfl, rfl⟩

theorem Scanner.readMore_lazy (s : Scanner) (hb : s.endIdx < s.bufLen) (herr : s.err = none)
    (he : s.r.eager = false) (hd : s.r.data ≠ []) :
    ∃ s1, s.readMore = .again s1 ∧ s1.err = none ∧ s1.r.eager = false := by
  obtain ⟨out, e, r1, hread, hout, -, -, -, -⟩ :=
    Reader.Read_spec s.r (s.bufLen - s.endIdx) (by omega) hd
  obtain ⟨h1, h2⟩ := Reader.Read_lazy s.r (s.bufLen - s.endIdx) he hd
  rw [hread] at h1 h2
  simp only at h1 h2
  subst h1
  have houtE : out.isEmpty = false := by
    cases out with
    | nil => exact absurd rfl hout
    | cons a as => rfl
  unfold Scanner.readMore
  rw [hread]
  simp only [houtE, Bool.false_eq_true, if_false]
  exact ⟨_, rfl, herr, h2⟩

theorem Scanner.fill_again_lazy (s : Scanner) (hwf : s.WF) (herr : s.err = none)
    (hroom : s.start = 0 → s.pending.length = s.bufLen →
      s.bufLen < s.maxTokenSize ∧ s.bufLen ≤ maxInt / 2)
    (he : s.r.eager = false) (hd : s.r.data ≠ []) :
    ∃ s1, s.fill = .again s1 ∧ s1.err = none ∧ s1.r.eager = false := by
  obtain ⟨hb, -, -⟩ := hwf
  obtain ⟨h1p, h1r, h1m, h1l, h1e, h1b, h1full, h1s⟩ := s.shift_spec hb
  have hnotfull : ¬ (s.shift.endIdx = s.shift.bufLen ∧
      (s.shift.maxTokenSize ≤ s.shift.bufLen ∨ maxInt / 2 < s.shift.bufLen)) := by
    rintro ⟨he1, hc⟩
    obtain ⟨h0, hp⟩ := h1full.mp he1
    have := hroom h0 hp
    rw [h1m, h1l] at hc
    omega
  have hg : s.shift.endIdx = s.shift.bufLen →
      s.shift.start = 0 ∧ s.shift.bufLen < s.shift.maxTokenSize := by
    intro he1
    obtain ⟨h0, hp⟩ := h1full.mp he1
    have := hroom h0 hp
    rw [h1m, h1l]
    exact ⟨h1s he1, this.1⟩
  obtain ⟨h2p, h2r, h2m, h2e, h2b, h2l, h2g⟩ := s.shift.grow_spec h1b hg
  obtain ⟨s3, h3, h3e, h3g⟩ :=
    s.shift.grow.readMore_lazy h2b (by rw [h2e, h1e]; exact herr)
      (by rw [h2r, h1r]; exact he) (by rw [h2r, h1r]; exact hd)
  refine ⟨s3, ?_, h3e, h3g⟩
  unfold Scanner.fill
  simp only [herr, Option.isSome_none, Bool.false_eq_true, if_false, hnotfull]
  exact h3

theorem Scanner.scanLoop_limit (fuel : Nat) (s : Scanner) (big : List Byte)
    (hwf : s.WF) (hin : s.pending ++ s.r.data = big) (hno : LF ∉ big)
    (hbig : big.length = s.maxTokenSize) (hbuf : s.bufLen ≤ s.maxTokenSize)
    (herr : s.err = none) (he : s.r.eager = false) (hfuel : s.passes ≤ fuel) :
    ∃ s1, s.scanLoop fuel = some (false, s1) ∧ s1.err = some GoError.ErrTooLong := by
  induction fuel generalizing s with
  | zero =>
    unfold Scanner.passes at hfuel
    split_ifs at hfuel
    omega
  | succ fuel ih =>
    unfold Scanner.scanLoop
    have hb := hwf.bound
    have hlenEq := congrArg List.length hin
    simp only [List.length_append] at hlenEq
    have hnp : LF ∉ s.pending :=
      fun hmem => hno (by rw [← hin]; exact List.mem_append_left _ hmem)
    obtain ⟨t, hiter⟩ := s.scanIter_noLF hnp herr
    rw [hiter]
    have hwf1 : Scanner.WF { s with tok := t } := ⟨hwf.bound, hwf.drained, hwf.fromReader⟩
    by_cases hfull : s.start = 0 ∧ s.pending.length = s.bufLen ∧
        (s.maxTokenSize ≤ s.bufLen ∨ maxInt / 2 < s.bufLen)
    · rw [Scanner.fill_full { s with tok := t } herr hfull.1 hfull.2.1 hfull.2.2]
      exact ⟨_, rfl, rfl⟩
    · have hroom : s.start = 0 → s.pending.length = s.bufLen →
          s.bufLen < s.maxTokenSize ∧ s.bufLen ≤ maxInt / 2 := by
        intro h0 hf
        by_contra hc
        exact hfull ⟨h0, hf, by omega⟩
      have hdata : s.r.data ≠ [] := by
        intro h
        rw [h] at hlenEq
        simp only [List.length_nil] at hlenEq
        apply hfull
        refine ⟨by omega, by omega, Or.inl (by omega)⟩
      obtain ⟨s2, hfill, hwf2, hin2, hm2, hf2, hpass2, hb2, hg2⟩ :=
        Scanner.fill_again { s with tok := t } hwf1 herr hroom
      obtain ⟨s2b, hfillb, herr2, he2⟩ :=
        Scanner.fill_again_lazy { s with tok := t } hwf1 herr hroom he hdata
      have hs2 : s2b = s2 := by
        rw [hfill] at hfillb
        injection hfillb with h
        exact h.symm
      subst hs2
      rw [hfill]
      simp only at hin2 hm2 hb2
      have hpass : Scanner.passes { s with tok := t } = s.passes := rfl
      exact ih s2b hwf2 (by rw [hin2]; exact hin) (by rw [hm2]; exact hbig)
        (by rw [hm2]; exact le_trans hb2 (max_le hbuf (le_refl _))) herr2 he2 (by omega)

theorem linesTask_limit (big : List Byte) (chunks : List Nat) (max : Nat)
    (hcap : MaxScanTokenSize ≤ max) (hbig : big.length = max) (hno : LF ∉ big) :
    linesTask ((NewScanner
        { data := big, final := GoError.EOF, chunks := chunks, eager := false }).Buffer
        MaxScanTokenSize max)
      = [ChanOp.sendErr (some GoError.ErrTooLong), ChanOp.closeLines, ChanOp.closeErrs] := by
  obtain ⟨s1, h1, he1⟩ := Scanner.scanLoop_limit _
    ((NewScanner ⟨big, GoError.EOF, chunks, false⟩).Buffer MaxScanTokenSize max) big
    (initial_WF _ max) (by simp [NewScanner, Scanner.Buffer]) hno
    (by simp [NewScanner, Scanner.Buffer, hbig]) (by simpa [NewScanner, Scanner.Buffer] using hcap)
    rfl rfl (Scanner.passes_le _)
  have hscan : ((NewScanner ⟨big, GoError.EOF, chunks, false⟩).Buffer MaxScanTokenSize max).Scan
      = (false, s1) := by
    unfold Scanner.Scan; rw [h1]; rfl
  have hfuel : ∃ n, ((NewScanner ⟨big, GoError.EOF, chunks, false⟩).Buffer MaxScanTokenSize
      max).pending.length + ((NewScanner ⟨big, GoError.EOF, chunks, false⟩).Buffer
      MaxScanTokenSize max).r.data.length + 1 = n + 1 := ⟨_, rfl⟩
  obtain ⟨n, hn⟩ := hfuel
  unfold linesTask
  rw [hn]
  have herr : s1.Err = some GoError.ErrTooLong := by
    unfold Scanner.Err
    rw [he1]
    simp
  simp [scanAndSend, hscan, herr]

/-- C1 as worded fails. A file whose only line has exactly
`bufio.MaxScanTokenSize * LineBufferLengthFactor` bytes before its `"\n"`, so that no
line is longer than that, gets no value on the line channel and `bufio.ErrTooLong` on
the error channel, however the decompressor hands the bytes out. The same holds for
the file whose only line has that many bytes and no newline, when the decompressor
reports the end of the stream on a call of its own. -/
theorem LinesOfGZ_valid_file_counterexample :
    limitLine.WellFormed ∧
      limitLine.text.length = MaxScanTokenSize * LineBufferLengthFactor ∧
      (∀ (chunks : List Nat) (eager : Bool),
        LinesOfGZ LineBufferLengthFactor (textFile [limitLine] [] chunks eager) =
          { ch := some ⟨0⟩, errs := some ⟨1⟩, err := none,
            task := some [ChanOp.sendErr (some GoError.ErrTooLong), ChanOp.closeLines,
              ChanOp.closeErrs] }) ∧
      (∀ chunks : List Nat,
        LinesOfGZ LineBufferLengthFactor (textFile [] limitLine.text chunks false) =
          { ch := some ⟨0⟩, errs := some ⟨1⟩, err := none,
            task := some [ChanOp.sendErr (some GoError.ErrTooLong), ChanOp.closeLines,
              ChanOp.closeErrs] }) := by
  refine ⟨limitLine_wellFormed, limitLine_length, ?_, ?_⟩
  · intro chunks eager
    have hdata : encode [limitLine] ++ [] = encode [] ++ (limitLine.raw ++ []) := by
      simp [encode]
    unfold LinesOfGZ gzipNewReader textFile
    simp only
    rw [hdata, linesTask_longLine [] limitLine.raw [] GoError.EOF chunks eager _
      (by intro l hl; simp at hl) (by decide) (by decide)
      (by
        rw [limitLine_raw, List.length_append, limitLine_length, List.length_singleton]
        exact Nat.lt_succ_self _)
      (by rw [limitLine_raw, List.dropLast_concat]; exact limitLine_noLF)]
    rfl
  · intro chunks
    have hdata : encode [] ++ limitLine.text = limitLine.text := rfl
    unfold LinesOfGZ gzipNewReader textFile
    simp only
    rw [hdata, linesTask_limit limitLine.text chunks _ (by decide) limitLine_length
      limitLine_noLF]

theorem Clean_table :
    ["", "abc", "abc/def", "a/b/c", ".", "..", "../..", "../../abc", "/abc", "/",
      "abc/", "abc/def/", "a/b/c/", "./", "../", "../../", "/abc/",
      "abc//def//ghi", "//abc", "///abc", "//abc//", "abc//",
      "abc/./def", "/./abc/def", "abc/.",
      "abc/def/ghi/../jkl", "abc/def/../ghi/../jkl", "abc/def/..", "abc/def/../..",
      "/abc/def/../..", "abc/def/../../..", "/abc/def/../../..",
      "abc/def/../../../ghi/jkl/../../../mno", "/../abc",
      "abc/./../def", "abc//./../def", "abc/../../././../def"].map Clean
    = [".", "abc", "abc/def", "a/b/c", ".", "..", "../..", "../../abc", "/abc", "/",
      "abc", "abc/def", "a/b/c", ".", "..", "../..", "/abc",
      "abc/def/ghi", "/abc", "/abc", "/abc", "abc",
      "abc/def", "/abc/def", "abc",
      "abc/def/jkl", "abc/jkl", "abc", ".",
      "/", "..", "/",
      "../../mno", "/abc",
      "def", "def", "../../def"] := by
  decide

theorem Join_table :
    Join "data" "a.gz" = "data/a.gz" ∧ Join "data/" "a.gz" = "data/a.gz" ∧
      Join "." "a.gz" = "a.gz" ∧ Join "" "a.gz" = "a.gz" ∧ Join "/" "a.gz" = "/a.gz" ∧
      Join "a/../b" "a.gz" = "b/a.gz" ∧ Join "a" "" = "a" ∧ Join "" "" = "" ∧
      Split "data/*.gz" = ("data/", "*.gz") ∧ Split "*.gz" = ("", "*.gz") ∧
      Split "/*.gz" = ("/", "*.gz") := by
  decide

theorem AllGZInDir_table :
    AllGZInDir twoDirs "data" = .ok ["data/a.gz", "data/b.gz"] ∧
      AllGZInDir twoDirs "./dir2/" = .ok ["dir2/c.gz", "dir2/z.gzip"] ∧
      AllGZInDir twoDirs "d*" = .ok ["data/a.gz", "data/b.gz", "dir2/c.gz", "dir2/z.gzip"] ∧
      AllGZInDir twoDirs "d?ta" = .ok ["data/a.gz", "data/b.gz"] ∧
      AllGZInDir twoDirs "da\\ta" = .ok ["data/a.gz", "data/b.gz"] ∧
      AllGZInDir twoDirs "da[ta" = .error GoError.ErrBadPattern ∧
      AllGZInDir twoDirs "nodir" = .ok [] ∧
      AllGZInDir twoDirs "" = .ok [] :=
  ⟨rfl, rfl, rfl, rfl, rfl, rfl, rfl, rfl⟩

end Gzlines
